import Mathlib

/-!
# Averaged sparse model, morphological configuration, tabular and segmentation formats

A shallow embedding of `alg/featurevector/avgsparse.go`, of
`NLP/Parser/Dependency/Transition/Morph/morph.go`, of
`nlp/format/segmentation/seg.go`, of `nlp/format/conllu/conllu.go` and of the
enumeration setup of `application/morphparse/morphparse.go`.

Conventions of the embedding.

* Go `int` and `int64` values are integers of `Int`; every arithmetic result
  is reduced to the two's-complement 64-bit range by `wrap64` (Go `int` is
  taken to be 64 bits wide).
* A `*HistoryValue` is an `Option HistoryValue`, `none` being the nil pointer.
  No two stores of the source share a cell, so cells are kept by value.
* A Go map is an association list whose keys are pairwise distinct; ranging
  over the map visits the entries in list order.
* A runtime panic is an `Except.error`, or the `panic` field of a `Run` where
  the state reached at the panic is observable; a function with results
  `(value, error)` has a `GoResult`.
* A Go string is a `String`; a slice that no statement shares is a `List`, nil
  and empty alike.
-/

namespace featurevector

/-! ## Machine integers -/

/-- Two's-complement reduction of an integer to the range of `int64`:
the representative of `x` modulo `2^64` that lies in `[-2^63, 2^63)`. -/
def wrap64 (x : Int) : Int :=
  (x + 9223372036854775808) % 18446744073709551616 - 9223372036854775808

/-- Membership in the range `[-2^63, 2^63)` of `int64`. -/
def inInt64 (x : Int) : Prop := -9223372036854775808 ≤ x ∧ x < 9223372036854775808

instance (x : Int) : Decidable (inInt64 x) :=
  inferInstanceAs (Decidable (-9223372036854775808 ≤ x ∧ x < 9223372036854775808))

/-! ## Outcome of a mutating call -/

/-- The outcome of a call that mutates its receiver: the state the receiver is
left in, and the panic message when the call did not return normally. -/
structure Run (σ : Type) where
  panic : Option String
  state : σ
deriving DecidableEq, Repr

/-- Equality of the outcomes of calls that may panic is decidable. -/
instance instDecidableEqExcept {ε α : Type} [DecidableEq ε] [DecidableEq α] :
    DecidableEq (Except ε α)
  | .ok a, .ok b =>
    if h : a = b then isTrue (by rw [h]) else isFalse (by intro e; cases e; exact h rfl)
  | .error a, .error b =>
    if h : a = b then isTrue (by rw [h]) else isFalse (by intro e; cases e; exact h rfl)
  | .ok _, .error _ => isFalse (by intro e; cases e)
  | .error _, .ok _ => isFalse (by intro e; cases e)

/-! ## Go maps -/

/-- Lookup `m[k]` in a map: the value of the first entry with key `k`. -/
def mapGet {K V : Type} [DecidableEq K] : List (K × V) → K → Option V
  | [], _ => none
  | (k', v) :: rest, k => if k' = k then some v else mapGet rest k

/-- Assignment `m[k] = v`: replaces the value of an existing key, otherwise adds
a new entry. -/
def mapSet {K V : Type} [DecidableEq K] : List (K × V) → K → V → List (K × V)
  | [], k, v => [(k, v)]
  | (k', v') :: rest, k, v =>
    if k' = k then (k, v) :: rest else (k', v') :: mapSet rest k v

/-- The keys of a map, in the order of iteration. -/
def mapKeys {K V : Type} (m : List (K × V)) : List K := m.map Prod.fst

/-! ## History cells -/

/-- The struct `HistoryValue` (the embedded mutex is not part of the state). -/
structure HistoryValue where
  Generation : Int
  PrevGeneration : Int
  Value : Int
  Total : Int
deriving DecidableEq, Repr

/-- The method `Integrate`:
`h.Value = h.Total + (int64)(generation-h.Generation)*h.Value`. -/
def HistoryValue.Integrate (h : HistoryValue) (generation : Int) : HistoryValue :=
  { h with
    Value := wrap64 (h.Total + wrap64 (wrap64 (generation - h.Generation) * h.Value)) }

/-- The method `Add`. -/
def HistoryValue.Add (h : HistoryValue) (generation : Int) (amount : Int) : HistoryValue :=
  let h1 : HistoryValue :=
    if h.PrevGeneration < h.Generation then
      { h with
        Total := wrap64 (h.Total + wrap64 (wrap64 (generation - h.Generation) * h.Value)) }
    else h
  let h2 : HistoryValue :=
    if h1.Generation < generation then
      { h1 with PrevGeneration := h1.Generation, Generation := generation }
    else h1
  { h2 with Value := wrap64 (h2.Value + amount) }

/-- The constructor `NewHistoryValue`: the fields not named are zero. -/
def NewHistoryValue (generation : Int) (value : Int) : HistoryValue :=
  { Generation := generation, PrevGeneration := 0, Value := value, Total := 0 }

/-! ## Slices -/

/-- The message of the runtime panic raised by an index outside a slice. -/
def indexOutOfRange : String := "index out of range"

/-- The message of the runtime panic raised by a nil pointer dereference. -/
def nilDereference : String := "invalid memory address or nil pointer dereference"

/-- Read `s[i]`: panics unless `0 ≤ i < len(s)`. -/
def sliceGet {α : Type} (s : List α) (i : Int) : Except String α :=
  if 0 ≤ i then
    match s[i.toNat]? with
    | some a => .ok a
    | none => .error indexOutOfRange
  else .error indexOutOfRange

/-- Write `s[i] = a`: panics unless `0 ≤ i < len(s)`. -/
def sliceSet {α : Type} (s : List α) (i : Int) (a : α) : Except String (List α) :=
  if 0 ≤ i ∧ i.toNat < s.length then .ok (s.set i.toNat a) else .error indexOutOfRange

/-- Allocate `make([]T, n)`: `n` zero values; panics when `n` is negative. -/
def makeSlice {α : Type} (zero : α) (n : Int) : Except String (List α) :=
  if 0 ≤ n then .ok (List.replicate n.toNat zero) else .error "makeslice: len out of range"

/-- A loop `for _, x := range xs` whose body updates `x` in place and may panic:
the elements before the panic keep their update, the others are untouched. -/
def rangeUpdate {α : Type} (body : α → Run α) : List α → Run (List α)
  | [] => ⟨none, []⟩
  | x :: xs =>
    match body x with
    | ⟨some e, x'⟩ => ⟨some e, x' :: xs⟩
    | ⟨none, x'⟩ =>
      match rangeUpdate body xs with
      | ⟨p, xs'⟩ => ⟨p, x' :: xs'⟩

/-! ## Transition score stores -/

/-- The struct `LockedArray`: a dense store, one slot per transition. -/
structure LockedArray where
  Vals : List (Option HistoryValue)
deriving DecidableEq, Repr

/-- The struct `LockedMap`: a sparse store, keyed by transition. -/
structure LockedMap where
  Vals : List (Int × Option HistoryValue)
deriving DecidableEq, Repr

/-- The method `LockedArray.ExtendFor`: a fresh slice of `transition+1` slots
that receives the old slots. -/
def LockedArray.ExtendFor (l : LockedArray) (_generation transition : Int) :
    Except String LockedArray :=
  match makeSlice (none : Option HistoryValue) (transition + 1) with
  | .error e => .error e
  | .ok newVals =>
    if l.Vals.length ≤ newVals.length then
      .ok ⟨l.Vals ++ newVals.drop l.Vals.length⟩
    else .error "slice bounds out of range"

/-- The method `LockedArray.Add`. -/
def LockedArray.Add (l : LockedArray) (generation transition : Int) (amount : Int) :
    Except String LockedArray :=
  if transition < l.Vals.length then
    match sliceGet l.Vals transition with
    | .error e => .error e
    | .ok (some h) =>
      (sliceSet l.Vals transition (some (h.Add generation amount))).map LockedArray.mk
    | .ok none =>
      (sliceSet l.Vals transition (some (NewHistoryValue generation amount))).map LockedArray.mk
  else
    match l.ExtendFor generation transition with
    | .error e => .error e
    | .ok l' =>
      if transition ≥ l'.Vals.length then .error "Despite extending, transition >= than Vals"
      else (sliceSet l'.Vals transition (some (NewHistoryValue generation amount))).map
        LockedArray.mk

/-- The method `LockedArray.SetValue`. -/
def LockedArray.SetValue (l : LockedArray) (key : Int) (value : Option HistoryValue) :
    Except String LockedArray :=
  (sliceSet l.Vals key value).map LockedArray.mk

/-- The method `LockedArray.GetValue`. -/
def LockedArray.GetValue (l : LockedArray) (key : Int) : Except String (Option HistoryValue) :=
  if key < l.Vals.length then sliceGet l.Vals key else .ok none

/-- The method `LockedArray.Len`. -/
def LockedArray.Len (l : LockedArray) : Int := l.Vals.length

/-- The method `LockedArray.Each`: the calls `f(i, hist)` it makes, in order. -/
def LockedArray.Each (l : LockedArray) : List (Int × Option HistoryValue) :=
  l.Vals.enum.map (fun p => ((p.1 : Int), p.2))

/-- The method `LockedMap.Add`. -/
def LockedMap.Add (l : LockedMap) (generation transition : Int) (amount : Int) :
    Except String LockedMap :=
  match mapGet l.Vals transition with
  | some (some h) => .ok ⟨mapSet l.Vals transition (some (h.Add generation amount))⟩
  | some none => .error nilDereference
  | none => .ok ⟨mapSet l.Vals transition (some (NewHistoryValue generation amount))⟩

/-- The method `LockedMap.Len`: the number of entries of the map. -/
def LockedMap.Len (l : LockedMap) : Int := l.Vals.length

/-- The method `LockedMap.SetValue`. -/
def LockedMap.SetValue (l : LockedMap) (key : Int) (value : Option HistoryValue) : LockedMap :=
  ⟨mapSet l.Vals key value⟩

/-- The method `LockedMap.GetValue`: the stored pointer, nil for an absent key. -/
def LockedMap.GetValue (l : LockedMap) (key : Int) : Option HistoryValue :=
  match mapGet l.Vals key with
  | some value => value
  | none => none

/-- The method `LockedMap.Each`: the calls `f(i, hist)` it makes. -/
def LockedMap.Each (l : LockedMap) : List (Int × Option HistoryValue) := l.Vals

/-- The interface `TransitionScoreStore`, which has the two implementations
`LockedArray` and `LockedMap`. -/
inductive TransitionScoreStore where
  | array (l : LockedArray)
  | map (l : LockedMap)
deriving DecidableEq, Repr

/-- Dispatch of `Add` (the feature argument is not used by either store). -/
def TransitionScoreStore.Add (s : TransitionScoreStore) (generation transition : Int)
    (amount : Int) : Except String TransitionScoreStore :=
  match s with
  | .array l => (l.Add generation transition amount).map TransitionScoreStore.array
  | .map l => (l.Add generation transition amount).map TransitionScoreStore.map

/-- Dispatch of `Len`. -/
def TransitionScoreStore.Len : TransitionScoreStore → Int
  | .array l => l.Len
  | .map l => l.Len

/-- Dispatch of `SetValue`. -/
def TransitionScoreStore.SetValue (s : TransitionScoreStore) (key : Int)
    (value : Option HistoryValue) : Except String TransitionScoreStore :=
  match s with
  | .array l => (l.SetValue key value).map TransitionScoreStore.array
  | .map l => .ok (.map (l.SetValue key value))

/-- Dispatch of `GetValue`. -/
def TransitionScoreStore.GetValue (s : TransitionScoreStore) (key : Int) :
    Except String (Option HistoryValue) :=
  match s with
  | .array l => l.GetValue key
  | .map l => .ok (l.GetValue key)

/-- Dispatch of `Each`. -/
def TransitionScoreStore.Each : TransitionScoreStore → List (Int × Option HistoryValue)
  | .array l => l.Each
  | .map l => l.Each

/-- The cell stored for a transition, whatever `Len` says: slot `t` of a dense
store, the non-nil value under key `t` of a sparse store. -/
def TransitionScoreStore.cell (s : TransitionScoreStore) (t : Int) : Option HistoryValue :=
  match s with
  | .array l => if 0 ≤ t then (l.Vals[t.toNat]?).join else none
  | .map l => (mapGet l.Vals t).join

/-! ## The averaged sparse model -/

/-- The struct `AvgSparse`. `Vals` is `none` for the nil map of a zero-valued
struct. The type `F` stands for the comparable values used as `Feature`. -/
structure AvgSparse (F : Type) where
  Dense : Bool
  Vals : Option (List (F × TransitionScoreStore))
deriving DecidableEq, Repr

/-- The entries of `v.Vals`; reading a nil map finds nothing. -/
def AvgSparse.entries {F : Type} (v : AvgSparse F) : List (F × TransitionScoreStore) :=
  v.Vals.getD []

/-- The constructor `MakeAvgSparse`. -/
def MakeAvgSparse (F : Type) (dense : Bool) : AvgSparse F :=
  { Dense := dense, Vals := some [] }

/-- The constructor `NewAvgSparse`. -/
def NewAvgSparse (F : Type) : AvgSparse F := MakeAvgSparse F false

/-- The method `AvgSparse.Value`. -/
def AvgSparse.Value {F : Type} [DecidableEq F] (v : AvgSparse F) (transition : Int)
    (feature : F) : Except String Int :=
  match mapGet v.entries feature with
  | some transitions =>
    if transition < transitions.Len then
      match transitions.GetValue transition with
      | .error e => .error e
      | .ok (some histValue) => .ok histValue.Value
      | .ok none => .ok 0
    else .ok 0
  | none => .ok 0

/-- The method `AvgSparse.Add`, the worker it starts for a known feature being
run to completion. A panic leaves the model as it was. -/
def AvgSparse.Add {F : Type} [DecidableEq F] (v : AvgSparse F) (generation transition : Int)
    (feature : F) (amount : Int) : Run (AvgSparse F) :=
  match mapGet v.entries feature with
  | some transitions =>
    match transitions.Add generation transition amount with
    | .error e => ⟨some e, v⟩
    | .ok transitions' => ⟨none, { v with Vals := some (mapSet v.entries feature transitions') }⟩
  | none =>
    match makeSlice (none : Option HistoryValue) (transition + 1) with
    | .error e => ⟨some e, v⟩
    | .ok vals =>
      match sliceSet vals transition (some (NewHistoryValue generation amount)) with
      | .error e => ⟨some e, v⟩
      | .ok vals' =>
        match v.Vals with
        | none => ⟨some "Got nil Vals", v⟩
        | some m => ⟨none, { v with Vals := some (mapSet m feature (.array ⟨vals'⟩)) }⟩

/-- The callback of `UpdateScalarDivide`:
`histValue.Value = histValue.Value / byValue`, on a pointer that may be nil. -/
def divideCell (byValue : Int) : Option HistoryValue → Run (Option HistoryValue)
  | none => ⟨some nilDereference, none⟩
  | some h => ⟨none, some { h with Value := wrap64 (Int.tdiv h.Value byValue) }⟩

/-- The call `val.Each(...)` of `UpdateScalarDivide` on one store. -/
def divideStore (byValue : Int) : TransitionScoreStore → Run TransitionScoreStore
  | .array l =>
    match rangeUpdate (divideCell byValue) l.Vals with
    | ⟨p, vals⟩ => ⟨p, .array ⟨vals⟩⟩
  | .map l =>
    match rangeUpdate
      (fun (e : Int × Option HistoryValue) =>
        match divideCell byValue e.2 with
        | ⟨p, c⟩ => (⟨p, (e.1, c)⟩ : Run (Int × Option HistoryValue))) l.Vals with
    | ⟨p, vals⟩ => ⟨p, .map ⟨vals⟩⟩

/-- The method `AvgSparse.UpdateScalarDivide`. -/
def AvgSparse.UpdateScalarDivide {F : Type} (v : AvgSparse F) (byValue : Int) :
    Run (AvgSparse F) :=
  if byValue = 0 then ⟨some "Divide by 0", v⟩
  else
    match v.Vals with
    | none => ⟨none, v⟩
    | some m =>
      match rangeUpdate
        (fun (e : F × TransitionScoreStore) =>
          match divideStore byValue e.2 with
          | ⟨p, s⟩ => (⟨p, (e.1, s)⟩ : Run (F × TransitionScoreStore))) m with
      | ⟨p, m'⟩ => ⟨p, { v with Vals := some m' }⟩

/-- The callback of `Serialize`, run over the calls of `Each`:
`if lastScore != nil { scores[i] = lastScore.Value }`. -/
def serializeScores : List (Int × Option HistoryValue) → List Int → Except String (List Int)
  | [], scores => .ok scores
  | (_, none) :: rest, scores => serializeScores rest scores
  | (i, some lastScore) :: rest, scores =>
    match sliceSet scores i lastScore.Value with
    | .error e => .error e
    | .ok scores' => serializeScores rest scores'

/-- The loop of `Serialize` over the features, filling `retval`. -/
def serializeLoop {F : Type} [DecidableEq F] :
    List (F × TransitionScoreStore) → List (F × List Int) → Except String (List (F × List Int))
  | [], retval => .ok retval
  | (k, v) :: rest, retval =>
    match makeSlice (0 : Int) v.Len with
    | .error e => .error e
    | .ok scores =>
      match serializeScores v.Each scores with
      | .error e => .error e
      | .ok scores' => serializeLoop rest (mapSet retval k scores')

/-- The method `AvgSparse.Serialize`; the result is the map
`map[interface{}][]int64`. -/
def AvgSparse.Serialize {F : Type} [DecidableEq F] (v : AvgSparse F) :
    Except String (List (F × List Int)) :=
  serializeLoop v.entries []

/-- The method `AvgSparse.newTransitionScoreStore`. -/
def AvgSparse.newTransitionScoreStore {F : Type} (v : AvgSparse F) (size : Int) :
    Except String TransitionScoreStore :=
  if v.Dense then
    (makeSlice (none : Option HistoryValue) size).map (fun vals => .array ⟨vals⟩)
  else .ok (.map ⟨[]⟩)

/-- The inner loop of `Deserialize`:
`scoreStore.SetValue(i, NewHistoryValue(generation, value))` for the values from
index `i` on. -/
def deserializeStore (generation : Int) :
    List Int → Int → TransitionScoreStore → Except String TransitionScoreStore
  | [], _, scoreStore => .ok scoreStore
  | value :: rest, i, scoreStore =>
    match scoreStore.SetValue i (some (NewHistoryValue generation value)) with
    | .error e => .error e
    | .ok scoreStore' => deserializeStore generation rest (i + 1) scoreStore'

/-- The outer loop of `Deserialize` over the entries of `data`. -/
def deserializeLoop {F : Type} [DecidableEq F] (generation : Int) :
    List (F × List Int) → AvgSparse F → Run (AvgSparse F)
  | [], v => ⟨none, v⟩
  | (k, datav) :: rest, v =>
    match v.newTransitionScoreStore datav.length with
    | .error e => ⟨some e, v⟩
    | .ok scoreStore =>
      match deserializeStore generation datav 0 scoreStore with
      | .error e => ⟨some e, v⟩
      | .ok scoreStore' =>
        deserializeLoop generation rest { v with Vals := some (mapSet v.entries k scoreStore') }

/-- The method `AvgSparse.Deserialize`. The argument is `none` when the dynamic
type of `serialized` is not `map[interface{}][]int64`. -/
def AvgSparse.Deserialize {F : Type} [DecidableEq F] (v : AvgSparse F)
    (serialized : Option (List (F × List Int))) (generation : Int) : Run (AvgSparse F) :=
  match serialized with
  | none => ⟨some "Can't deserialize unknown serialization", v⟩
  | some data => deserializeLoop generation data { v with Vals := some [] }

/-! ## Histories of a cell -/

/-- The calls `Add(g1, d1)`, ..., `Add(gk, dk)` made in this order on a cell. -/
def applyAdds (h : HistoryValue) (adds : List (Int × Int)) : HistoryValue :=
  adds.foldl (fun c p => c.Add p.1 p.2) h

/-- The sum of `v_i * (g_{i+1} - g_i)` over the periods of a history that starts
at generation `g` with value `v`, receives `adds` and ends at generation `G`:
`v_i` is the value after the first `i` amounts. -/
def weightedSum : Int → Int → List (Int × Int) → Int → Int
  | g, v, [], G => v * (G - g)
  | g, v, (g', d) :: rest, G => v * (g' - g) + weightedSum g' (v + d) rest G

/-- The value `v_g` a cell has at generation `g`: the initial value plus the
amounts added at generations up to `g`. -/
def valueAt (v0 : Int) (adds : List (Int × Int)) (g : Int) : Int :=
  v0 + ((adds.filter (fun p => p.1 ≤ g)).map Prod.snd).sum

/-- The sum of `v_g` over the generations `lo ≤ g < hi`. -/
def sumValues (v0 : Int) (adds : List (Int × Int)) (lo hi : Int) : Int :=
  ((List.range (hi - lo).toNat).map (fun (i : Nat) => valueAt v0 adds (lo + (i : Int)))).sum

/-! ## The stores rebuilt by `Deserialize` -/

/-- The entries `SetValue` adds to a sparse store for the values `datav`, the
first of them under key `i`. -/
def sparseCells (generation : Int) : List Int → Int → List (Int × Option HistoryValue)
  | [], _ => []
  | value :: rest, i =>
    (i, some (NewHistoryValue generation value)) :: sparseCells generation rest (i + 1)

/-- The store that holds one fresh cell per value of `datav`, in the
representation the flag `Dense` selects. -/
def restoredStore (dense : Bool) (generation : Int) (datav : List Int) : TransitionScoreStore :=
  if dense then .array ⟨datav.map (fun value => some (NewHistoryValue generation value))⟩
  else .map ⟨sparseCells generation datav 0⟩

end featurevector

/-! # The morphological configuration -/

namespace Morph

/-- Modelled from the spec: the value `G.BasicDirectedEdge{id, from, to}` of an
edge, whose declaration is not part of `morph.go`; the three integers are kept
in the order of the literal. -/
abbrev BasicDirectedEdge := Int × Int × Int

/-- Modelled from the spec: the record `NLP.Morpheme`, whose declaration is not
part of `morph.go`. The fields follow the positional literal of `Init`: the edge,
three strings of which `morph.go` reads the first as `Form`, the feature map (nil
in the literal) and the token index. -/
structure Morpheme where
  Edge : BasicDirectedEdge
  Form : String
  CPOS : String
  POS : String
  Features : Option (List (String × String))
  TokenID : Int
deriving DecidableEq, Repr

/-- Modelled from the spec: the record `NLP.Lattice`, whose declaration is not
part of `morph.go`. The fields follow the positional literal of `Init`: the
token, the morphemes and the adjacency map `Next` (nil in the literal). -/
structure Lattice where
  Token : String
  Morphemes : List Morpheme
  Next : Option (List (Int × List Int))
deriving DecidableEq, Repr

/-- Modelled from the spec: the record `NLP.Mapping`, a token and the spellout
chosen for it. -/
structure Mapping where
  Token : String
  Spellout : List Morpheme
deriving DecidableEq, Repr

/-- Modelled from the spec: the stack behind `NewStackArray`, an ordered sequence
of integers with the top at the end. -/
structure StackArray where
  Array : List Int
deriving DecidableEq, Repr

/-- Modelled from the spec: `NewStackArray(size)`, an empty stack; `size` is the
capacity reserved for it. -/
def NewStackArray (_size : Int) : StackArray := ⟨[]⟩

/-- Modelled from the spec: `Push` puts a value on top of the stack. -/
def StackArray.Push (s : StackArray) (val : Int) : StackArray := ⟨s.Array ++ [val]⟩

/-- Modelled from the spec: `Size`, the number of values on the stack. -/
def StackArray.Size (s : StackArray) : Int := s.Array.length

/-- Modelled from the spec: `Peek`, the value on top of the stack, if any. -/
def StackArray.Peek (s : StackArray) : Option Int := s.Array.getLast?

/-- Modelled from the spec: the arc set behind `NewArcSetSimple`, the arcs
`(head, modifier, relation)` in the order of their addition. -/
structure ArcSetSimple where
  Arcs : List (Int × Int × String)
deriving DecidableEq, Repr

/-- Modelled from the spec: `NewArcSetSimple(size)`, an empty arc set. -/
def NewArcSetSimple (_size : Int) : ArcSetSimple := ⟨[]⟩

/-- Modelled from the spec: the fields of the embedded `SimpleConfiguration` that
`morph.go` reads or writes. An interface value or pointer that is nil is `none`. -/
structure SimpleConfiguration where
  InternalStack : Option StackArray
  InternalQueue : Option StackArray
  InternalArcs : Option ArcSetSimple
  Last : String
  InternalPrevious : Option SimpleConfiguration
  Pointers : Int

/-- The struct `MorphConfiguration`. -/
structure MorphConfiguration where
  toSimpleConfiguration : SimpleConfiguration
  LatticeQueue : Option StackArray
  Lattices : List Lattice
  Mappings : List Mapping
  MorphNodes : List Morpheme
  MorphPrevious : Option MorphConfiguration

/-- The zero value `new(MorphConfiguration)`. -/
def NewMorphConfiguration : MorphConfiguration :=
  { toSimpleConfiguration :=
      { InternalStack := none, InternalQueue := none, InternalArcs := none, Last := "",
        InternalPrevious := none, Pointers := 0 }
    LatticeQueue := none, Lattices := [], Mappings := [], MorphNodes := [],
    MorphPrevious := none }

/-- The ROOT morpheme
`NLP.Morpheme{G.BasicDirectedEdge{0, 0, 0}, "ROOT", "ROOT", "ROOT", nil, 0}`. -/
def rootMorpheme : Morpheme :=
  { Edge := (0, 0, 0), Form := "ROOT", CPOS := "ROOT", POS := "ROOT", Features := none,
    TokenID := 0 }

/-- The synthetic ROOT lattice `NLP.Lattice{"ROOT", []*NLP.Morpheme{...}, nil}`. -/
def rootLattice : Lattice :=
  { Token := "ROOT", Morphemes := [rootMorpheme], Next := none }

/-- The loop `for _, lat := range m.Lattices { maxSentLength += latP.MaxPathLen() }`
of `Init`, from the running total `acc`. The method `MaxPathLen` of a lattice is
not part of `morph.go`; it is the parameter `MaxPathLen`. -/
def sumMaxPathLen (MaxPathLen : Lattice → Int) : List Lattice → Int → Int
  | [], acc => acc
  | lat :: rest, acc => sumMaxPathLen MaxPathLen rest (featurevector.wrap64 (acc + MaxPathLen lat))

/-- The loop `for i := sentLength; i > 0; i-- { m.LatticeQueue.Push(i) }` of
`Init`, from the value `i` of the counter. -/
def pushLatticeIndexes : Nat → StackArray → StackArray
  | 0, q => q
  | i + 1, q => pushLatticeIndexes i (q.Push ((i : Int) + 1))

/-- The method `MorphConfiguration.Init`. The argument is `none` when the dynamic
type of `abstractLattice` is not `NLP.LatticeSentence`. The allocation
`make([]*NLP.Morpheme, 1, maxSentLength)` panics when the capacity is below the
length 1; the receiver then keeps the fields assigned before it. -/
def MorphConfiguration.Init (m : MorphConfiguration) (MaxPathLen : Lattice → Int)
    (abstractLattice : Option (List Lattice)) : featurevector.Run MorphConfiguration :=
  match abstractLattice with
  | none => ⟨some "interface conversion: interface is not NLP.LatticeSentence", m⟩
  | some latticeSent =>
    let sentLength := latticeSent.length
    let lattices := rootLattice :: latticeSent
    let maxSentLength := sumMaxPathLen MaxPathLen lattices 0
    let m1 : MorphConfiguration :=
      { m with
        Lattices := lattices
        toSimpleConfiguration :=
          { m.toSimpleConfiguration with
            InternalStack := some (NewStackArray maxSentLength)
            InternalQueue := some (NewStackArray maxSentLength)
            InternalArcs := some (NewArcSetSimple maxSentLength) }
        LatticeQueue := some (NewStackArray sentLength) }
    if maxSentLength < 1 then ⟨some "makeslice: cap out of range", m1⟩
    else
      let morphNodes := [rootMorpheme]
      let mappings : List Mapping := [{ Token := "ROOT", Spellout := [rootMorpheme] }]
      ⟨none,
        { toSimpleConfiguration :=
            { InternalStack := some ((NewStackArray maxSentLength).Push 0)
              InternalQueue := some (NewStackArray maxSentLength)
              InternalArcs := some (NewArcSetSimple maxSentLength)
              Last := ""
              InternalPrevious := none
              Pointers := 0 }
          LatticeQueue := some (pushLatticeIndexes sentLength (NewStackArray sentLength))
          Lattices := lattices
          Mappings := mappings
          MorphNodes := morphNodes
          MorphPrevious := none }⟩

end Morph


/-! # Operations on the morphological configuration -/

namespace Morph

/-- Modelled from the spec: `Copy` of a stack, a stack of its own with the same
values in the same order. -/
def StackArray.Copy (s : StackArray) : StackArray := ⟨s.Array⟩

/-- Modelled from the spec: `Equal` of a stack with another stack interface
value, deep equality of the two sequences; a nil argument is not equal. -/
def StackArray.Equal (s : StackArray) (other : Option StackArray) : Bool :=
  match other with
  | none => false
  | some o => decide (s.Array = o.Array)

/-- Modelled from the spec: `Copy` of an arc set. -/
def ArcSetSimple.Copy (a : ArcSetSimple) : ArcSetSimple := ⟨a.Arcs⟩

/-- Modelled from the spec: the accessor `Stack()` of `SimpleConfiguration`. -/
def SimpleConfiguration.Stack (c : SimpleConfiguration) : Option StackArray := c.InternalStack

/-- Modelled from the spec: the accessor `Queue()` of `SimpleConfiguration`. -/
def SimpleConfiguration.Queue (c : SimpleConfiguration) : Option StackArray := c.InternalQueue

/-- Modelled from the spec: the accessor `Arcs()` of `SimpleConfiguration`. -/
def SimpleConfiguration.Arcs (c : SimpleConfiguration) : Option ArcSetSimple := c.InternalArcs

/-- Modelled from the spec: `SimpleConfiguration.Copy`, which is not part of
`morph.go`: a structural copy whose stack, queue and arc set are copies of the
receiver's and whose back-pointer is the receiver. -/
def SimpleConfiguration.Copy (c : SimpleConfiguration) : SimpleConfiguration :=
  { InternalStack := c.InternalStack.map StackArray.Copy
    InternalQueue := c.InternalQueue.map StackArray.Copy
    InternalArcs := c.InternalArcs.map ArcSetSimple.Copy
    Last := c.Last
    InternalPrevious := some c
    Pointers := c.Pointers }

/-- Modelled from the spec: `SimpleConfiguration.Equal`, which is not part of
`morph.go`: deep equality over stack, queue and arcs. -/
def SimpleConfiguration.Equal (c other : SimpleConfiguration) : Bool :=
  decide (c.InternalStack = other.InternalStack)
    && decide (c.InternalQueue = other.InternalQueue)
    && decide (c.InternalArcs = other.InternalArcs)

/-- The method `MorphConfiguration.Copy`. The receiver is not written. The
allocation `make([]*NLP.Mapping, len(m.Mappings), len(m.Lattices))` panics when
the length exceeds the capacity. -/
def MorphConfiguration.Copy (m : MorphConfiguration) : Except String MorphConfiguration :=
  let newSimple := m.toSimpleConfiguration.Copy
  if m.Lattices.length < m.Mappings.length then .error "makeslice: cap out of range"
  else
    .ok
      { toSimpleConfiguration := newSimple
        Mappings := m.Mappings
        MorphNodes := m.MorphNodes
        LatticeQueue :=
          match m.LatticeQueue with
          | some q => some q.Copy
          | none => none
        Lattices := m.Lattices
        MorphPrevious := some m }

/-- The dynamic type of the argument `otherEq` of `Equal`. `BasicDepGraph` and its
method `Equal` are not part of `morph.go`: the second case carries the answer of
`other.Equal(m)`. -/
inductive Equaler where
  | morphConfiguration (other : MorphConfiguration)
  | basicDepGraph (otherEqualsReceiver : Bool)
  | unknown

/-- The method `MorphConfiguration.Equal`. The conjunction is evaluated from the
left, so the call `m.LatticeQueue.Equal(...)` on a nil `LatticeQueue` panics only
when the comparisons before it are true. -/
def MorphConfiguration.Equal (m : MorphConfiguration) (otherEq : Equaler) : Except String Bool :=
  match otherEq with
  | .morphConfiguration other =>
    if !(m.toSimpleConfiguration.Equal other.toSimpleConfiguration) then .ok false
    else if !(decide (m.Lattices = other.Lattices)) then .ok false
    else if !(decide (m.Mappings = other.Mappings)) then .ok false
    else if !(decide (m.MorphNodes = other.MorphNodes)) then .ok false
    else
      match m.LatticeQueue with
      | none => .error featurevector.nilDereference
      | some q => .ok (q.Equal other.LatticeQueue)
  | .basicDepGraph otherEqualsReceiver => .ok otherEqualsReceiver
  | .unknown => .ok false

/-- The method `MorphConfiguration.Terminal`. The second size is read only when
the first is 0. -/
def MorphConfiguration.Terminal (m : MorphConfiguration) : Except String Bool :=
  match m.LatticeQueue with
  | none => .error featurevector.nilDereference
  | some latticeQueue =>
    if latticeQueue.Size = 0 then
      match m.toSimpleConfiguration.Queue with
      | none => .error featurevector.nilDereference
      | some queue => .ok (decide (queue.Size = 0))
    else .ok false

/-- The method `GetMappings`. -/
def MorphConfiguration.GetMappings (m : MorphConfiguration) : List Mapping := m.Mappings

/-- The method `Previous`. -/
def MorphConfiguration.Previous (m : MorphConfiguration) : Option MorphConfiguration :=
  m.MorphPrevious

/-- The loop of `GetSequence`: `retval = append(retval, currentConf)` and
`currentConf = currentConf.MorphPrevious` until `currentConf` is nil. -/
def getSequenceLoop : MorphConfiguration → List MorphConfiguration → List MorphConfiguration
  | ⟨s, q, l, ms, ns, none⟩, retval => retval ++ [⟨s, q, l, ms, ns, none⟩]
  | ⟨s, q, l, ms, ns, some p⟩, retval => getSequenceLoop p (retval ++ [⟨s, q, l, ms, ns, some p⟩])

/-- The method `MorphConfiguration.GetSequence`. -/
def MorphConfiguration.GetSequence (m : MorphConfiguration) : List MorphConfiguration :=
  match m.toSimpleConfiguration.Arcs with
  | none => []
  | some _ => getSequenceLoop m []

/-- The configuration reached from `c` by `k` successive calls of `Copy`, each on
the result of the one before. -/
def copySteps : Nat → MorphConfiguration → Except String MorphConfiguration
  | 0, c => .ok c
  | k + 1, c =>
    match c.Copy with
    | .error e => .error e
    | .ok c' => copySteps k c'

/-- The configurations passed from `c` by `k` successive calls of `Copy`, the
oldest first: `c`, its copy, the copy of the copy, and so on. -/
def copyChain : Nat → MorphConfiguration → List MorphConfiguration
  | 0, c => [c]
  | k + 1, c =>
    match c.Copy with
    | .error _ => [c]
    | .ok c' => c :: copyChain k c'

/-- The configuration `Init` yields on the empty sentence, the `MaxPathLen` of a
lattice being the number of its morphemes. -/
def initOfEmptySentence : MorphConfiguration :=
  (NewMorphConfiguration.Init (fun lat => lat.Morphemes.length) (some [])).state

end Morph


/-! # Configurations in memory

`Copy` and the sharing it leaves between a configuration and its copy, on a
memory in which the stacks, the backing arrays of the slices and the `Mapping`
objects have addresses. A morpheme is kept by value: nothing here writes one. -/

namespace Morph

/-- Modelled from the spec: `Pop` takes the value on top off the stack. -/
def StackArray.Pop (s : StackArray) : StackArray := ⟨s.Array.dropLast⟩

/-- The memory: the stacks behind the `Stack` interface values, the backing
arrays of the slices `[]*NLP.Mapping` and `[]*NLP.Morpheme`, and the `Mapping`
objects. An address is an index; a nil pointer in a slot is `none`. -/
structure Memory where
  stackObjs : List StackArray
  mappingArrays : List (List (Option Nat))
  mappings : List Mapping
  morphArrays : List (List (Option Morpheme))
deriving DecidableEq, Repr

/-- A slice value: the address of its backing array and its length; its
capacity is the size of the backing array. -/
structure Slice where
  array : Nat
  len : Nat
deriving DecidableEq, Repr

/-- The struct `MorphConfiguration` with the references of its fields: the
addresses of the stack, the queue and the lattice queue (nil is `none`), and the
slices `Mappings` and `MorphNodes`. The arc set and the read-only lattices are
kept by value. -/
structure MorphConfigurationRefs where
  Stack : Option Nat
  Queue : Option Nat
  Arcs : Option ArcSetSimple
  LatticeQueue : Option Nat
  Lattices : List Lattice
  Mappings : Slice
  MorphNodes : Slice
deriving DecidableEq, Repr

/-- The stack an interface value points to. -/
def Memory.stackAt (mem : Memory) (a : Option Nat) : Option StackArray :=
  a.bind (fun i => mem.stackObjs[i]?)

/-- The elements of a slice of `Mapping` pointers. -/
def Memory.mappingSlice (mem : Memory) (s : Slice) : List (Option Nat) :=
  ((mem.mappingArrays[s.array]?).getD []).take s.len

/-- The elements of a slice of morphemes. -/
def Memory.morphSlice (mem : Memory) (s : Slice) : List (Option Morpheme) :=
  ((mem.morphArrays[s.array]?).getD []).take s.len

/-- The `Mapping` object a pointer points to. -/
def Memory.mappingAt (mem : Memory) (p : Option Nat) : Option Mapping :=
  p.bind (fun i => mem.mappings[i]?)

/-- What is observed through a configuration: the contents of its stack, queue,
lattice queue and arc set, its mappings with their spellouts, and its morph
nodes. -/
structure Observed where
  Stack : Option StackArray
  Queue : Option StackArray
  LatticeQueue : Option StackArray
  Arcs : Option ArcSetSimple
  Mappings : List (Option Mapping)
  MorphNodes : List (Option Morpheme)
deriving DecidableEq, Repr

/-- The observation of memory `mem` through configuration `c`. -/
def observe (mem : Memory) (c : MorphConfigurationRefs) : Observed :=
  { Stack := mem.stackAt c.Stack
    Queue := mem.stackAt c.Queue
    LatticeQueue := mem.stackAt c.LatticeQueue
    Arcs := c.Arcs
    Mappings := (mem.mappingSlice c.Mappings).map mem.mappingAt
    MorphNodes := mem.morphSlice c.MorphNodes }

/-- Modelled from the spec: `Copy` of the stack behind an interface value, a new
stack object; a nil interface value stays nil. -/
def copyStack (mem : Memory) (a : Option Nat) : Memory × Option Nat :=
  match mem.stackAt a with
  | none => (mem, none)
  | some s => ({ mem with stackObjs := mem.stackObjs ++ [s.Copy] }, some mem.stackObjs.length)

/-- The statements `make` and `copy` of `Copy` for `Mappings` and `MorphNodes`:
two new backing arrays, of capacities `len(m.Lattices)` and `cap(m.MorphNodes)`,
that receive the elements of the slices of `m`. The result is the memory and the
two new slices. -/
def copySlices (mem : Memory) (m : MorphConfigurationRefs) : Memory × Slice × Slice :=
  let newMappings := mem.mappingSlice m.Mappings
    ++ List.replicate (m.Lattices.length - m.Mappings.len) none
  let capMorphNodes := ((mem.morphArrays[m.MorphNodes.array]?).getD []).length
  let newMorphNodes := mem.morphSlice m.MorphNodes
    ++ List.replicate (capMorphNodes - m.MorphNodes.len) none
  ({ mem with
      mappingArrays := mem.mappingArrays ++ [newMappings]
      morphArrays := mem.morphArrays ++ [newMorphNodes] },
    ⟨mem.mappingArrays.length, m.Mappings.len⟩, ⟨mem.morphArrays.length, m.MorphNodes.len⟩)

/-- The method `MorphConfiguration.Copy` on the memory: `SimpleConfiguration.Copy`
(modelled from the spec) copies stack and queue; `make` and `copy` give
`Mappings` and `MorphNodes` backing arrays of their own that hold the same
pointers; the lattice queue is copied when it is not nil. -/
def MorphConfigurationRefs.Copy (mem : Memory) (m : MorphConfigurationRefs) :
    Except String (Memory × MorphConfigurationRefs) :=
  match copyStack mem m.Stack with
  | (mem1, stack) =>
    match copyStack mem1 m.Queue with
    | (mem2, queue) =>
      if m.Lattices.length < m.Mappings.len then .error "makeslice: cap out of range"
      else
        match copySlices mem2 m with
        | (mem3, mappings, morphNodes) =>
          match copyStack mem3 m.LatticeQueue with
          | (mem4, latticeQueue) =>
            .ok (mem4,
              { Stack := stack
                Queue := queue
                Arcs := m.Arcs.map ArcSetSimple.Copy
                LatticeQueue := latticeQueue
                Lattices := m.Lattices
                Mappings := mappings
                MorphNodes := morphNodes })

/-- A mutation performed through a configuration. -/
inductive Mutation where
  /-- The call `LatticeQueue.Push(v)`. -/
  | pushLatticeQueue (v : Int)
  /-- The call `LatticeQueue.Pop()`. -/
  | popLatticeQueue
  /-- The statement `Mappings = append(Mappings, &Mapping{...})`. -/
  | appendMapping (mapping : Mapping)
  /-- The statement `Mappings[i] = &Mapping{...}`. -/
  | setMapping (i : Nat) (mapping : Mapping)
  /-- The statement `MorphNodes = append(MorphNodes, morph)`. -/
  | appendMorphNode (morph : Morpheme)
  /-- The statement `MorphNodes[i] = morph`. -/
  | setMorphNode (i : Nat) (morph : Morpheme)
  /-- The statement
  `Mappings[i].Spellout = append(Mappings[i].Spellout, morph)`. -/
  | extendSpellout (i : Nat) (morph : Morpheme)
deriving DecidableEq, Repr

/-- The mutations of the sequences themselves: every one but the extension of
the spellout of a `Mapping` entry. -/
def Mutation.onSequences : Mutation → Bool
  | .extendSpellout _ _ => false
  | _ => true

/-- The builtin `append` on a slice of a memory of arrays: in place when the
capacity allows, otherwise into a new backing array. -/
def appendSlice {α : Type} (arrays : List (List (Option α))) (s : Slice) (x : Option α) :
    List (List (Option α)) × Slice :=
  let old := (arrays[s.array]?).getD []
  if s.len < old.length then (arrays.set s.array (old.set s.len x), ⟨s.array, s.len + 1⟩)
  else (arrays ++ [old.take s.len ++ [x]], ⟨arrays.length, s.len + 1⟩)

/-- The assignment `s[i] = x` on a slice of a memory of arrays; nothing is
written when `i` is not below the length (the statement panics). -/
def setSlice {α : Type} (arrays : List (List (Option α))) (s : Slice) (i : Nat) (x : Option α) :
    List (List (Option α)) :=
  if i < s.len then arrays.set s.array (((arrays[s.array]?).getD []).set i x) else arrays

/-- The effect of a mutation performed through configuration `c`. -/
def Mutation.apply (μ : Mutation) (mem : Memory) (c : MorphConfigurationRefs) :
    Memory × MorphConfigurationRefs :=
  match μ with
  | .pushLatticeQueue v =>
    match c.LatticeQueue, mem.stackAt c.LatticeQueue with
    | some a, some s => ({ mem with stackObjs := mem.stackObjs.set a (s.Push v) }, c)
    | _, _ => (mem, c)
  | .popLatticeQueue =>
    match c.LatticeQueue, mem.stackAt c.LatticeQueue with
    | some a, some s => ({ mem with stackObjs := mem.stackObjs.set a s.Pop }, c)
    | _, _ => (mem, c)
  | .appendMapping mapping =>
    match appendSlice mem.mappingArrays c.Mappings (some mem.mappings.length) with
    | (arrays, s) =>
      ({ mem with mappings := mem.mappings ++ [mapping], mappingArrays := arrays },
        { c with Mappings := s })
  | .setMapping i mapping =>
    ({ mem with
        mappings := mem.mappings ++ [mapping]
        mappingArrays := setSlice mem.mappingArrays c.Mappings i (some mem.mappings.length) }, c)
  | .appendMorphNode morph =>
    match appendSlice mem.morphArrays c.MorphNodes (some morph) with
    | (arrays, s) => ({ mem with morphArrays := arrays }, { c with MorphNodes := s })
  | .setMorphNode i morph =>
    ({ mem with morphArrays := setSlice mem.morphArrays c.MorphNodes i (some morph) }, c)
  | .extendSpellout i morph =>
    match ((mem.mappingSlice c.Mappings)[i]?).join with
    | none => (mem, c)
    | some p =>
      match mem.mappings[p]? with
      | none => (mem, c)
      | some mapping =>
        ({ mem with
            mappings := mem.mappings.set p { mapping with Spellout := mapping.Spellout ++ [morph] } },
          c)

/-- The effect of a sequence of mutations performed through a configuration. -/
def applyMutations : List Mutation → Memory → MorphConfigurationRefs →
    Memory × MorphConfigurationRefs
  | [], mem, c => (mem, c)
  | μ :: rest, mem, c =>
    match μ.apply mem c with
    | (mem', c') => applyMutations rest mem' c'

/-- The pointers of configuration `c` point into memory `mem`. -/
def Valid (mem : Memory) (c : MorphConfigurationRefs) : Prop :=
  (∀ a, c.Stack = some a → a < mem.stackObjs.length)
  ∧ (∀ a, c.Queue = some a → a < mem.stackObjs.length)
  ∧ (∀ a, c.LatticeQueue = some a → a < mem.stackObjs.length)
  ∧ c.Mappings.array < mem.mappingArrays.length
  ∧ c.MorphNodes.array < mem.morphArrays.length
  ∧ (∀ p, some p ∈ mem.mappingSlice c.Mappings → p < mem.mappings.length)

/-- The memory that holds the configuration of `Init` on the empty sentence. -/
def initMemory : Memory :=
  { stackObjs := [⟨[0]⟩, ⟨[]⟩, ⟨[]⟩]
    mappingArrays := [[some 0]]
    mappings := [⟨"ROOT", [rootMorpheme]⟩]
    morphArrays := [[some rootMorpheme]] }

/-- The configuration of `Init` on the empty sentence, by reference into
`initMemory`. -/
def initRefs : MorphConfigurationRefs :=
  { Stack := some 0, Queue := some 1, Arcs := some ⟨[]⟩, LatticeQueue := some 2,
    Lattices := [rootLattice], Mappings := ⟨0, 1⟩, MorphNodes := ⟨0, 1⟩ }

/-- The references of `c'` that a mutation writes through are not references of
`c`: the lattice queue of `c'` is none of the stacks of `c`, and the backing
arrays of the slices of `c'` are not those of `c`. -/
def Separate (c c' : MorphConfigurationRefs) : Prop :=
  (∀ a, c'.LatticeQueue = some a →
    c.Stack ≠ some a ∧ c.Queue ≠ some a ∧ c.LatticeQueue ≠ some a)
  ∧ c'.Mappings.array ≠ c.Mappings.array
  ∧ c'.MorphNodes.array ≠ c.MorphNodes.array

/-- Memory `mem'` holds, at every address configuration `c` reads in `mem`, what
`mem` holds there, and is not smaller than `mem`. -/
def Frame (mem mem' : Memory) (c : MorphConfigurationRefs) : Prop :=
  (∀ a, (c.Stack = some a ∨ c.Queue = some a ∨ c.LatticeQueue = some a) →
    mem'.stackObjs[a]? = mem.stackObjs[a]?)
  ∧ mem'.mappingArrays[c.Mappings.array]? = mem.mappingArrays[c.Mappings.array]?
  ∧ (∀ p, some p ∈ mem.mappingSlice c.Mappings → mem'.mappings[p]? = mem.mappings[p]?)
  ∧ mem'.morphArrays[c.MorphNodes.array]? = mem.morphArrays[c.MorphNodes.array]?
  ∧ mem.stackObjs.length ≤ mem'.stackObjs.length
  ∧ mem.mappingArrays.length ≤ mem'.mappingArrays.length
  ∧ mem.mappings.length ≤ mem'.mappings.length
  ∧ mem.morphArrays.length ≤ mem'.morphArrays.length

end Morph


/-! # Strings of the Go library -/

namespace gostrings

/-- The pieces of a list of characters between the occurrences of `sep`; there is
one piece more than there are occurrences. -/
def splitChars (sep : Char) : List Char → List (List Char)
  | [] => [[]]
  | c :: cs =>
    if c = sep then [] :: splitChars sep cs
    else
      match splitChars sep cs with
      | [] => [[c]]
      | piece :: pieces => (c :: piece) :: pieces

/-- The library function `strings.Split(s, sep)` for a separator of one
character. -/
def Split (s : String) (sep : Char) : List String :=
  (splitChars sep s.data).map String.mk

/-- The library function `strings.Join(elems, sep)`. -/
def Join : List String → String → String
  | [], _ => ""
  | [x], _ => x
  | x :: y :: rest, sep => x ++ sep ++ Join (y :: rest) sep

/-- The library function `strings.Contains(s, substr)` for a substring of one
character. -/
def Contains (s : String) (c : Char) : Bool := s.data.contains c

/-- The concatenation of a list of strings, in order. -/
def concatAll : List String → String
  | [] => ""
  | x :: xs => x ++ concatAll xs

end gostrings

/-! # The segmentation writer -/

namespace Segmentation

open Morph

/-- Modelled from the spec: the constant `nlp.ROOT_TOKEN`, which is not part of
the source files at hand: the token `ROOT` that `Init` gives the ROOT mapping. -/
def ROOT_TOKEN : String := "ROOT"

/-- The body of the loop of `Write` over the mappings of a graph, appending to the
bytes `w` written so far. The constant `nlp.ROOT_TOKEN` is the parameter
`rootToken`. -/
def writeMapping (rootToken : String) (w : String) (mapping : Mapping) : String :=
  if mapping.Token = rootToken then w
  else
    let w1 := w ++ mapping.Token
    let w2 := w1 ++ "\t"
    let morphForms := mapping.Spellout.map (fun morph => morph.Form)
    let w3 := w2 ++ gostrings.Join morphForms ":"
    w3 ++ "\n"

/-- The body of the loop of `Write` over the graphs; a graph is given by the
result of its `GetMappings()`. -/
def writeGraph (rootToken : String) (w : String) (graph : List Mapping) : String :=
  (graph.foldl (writeMapping rootToken) w) ++ "\n"

/-- The function `Write`: the bytes the writer holds afterwards, `w` being those
it held before. -/
def Write (rootToken : String) (w : String) (graphs : List (List Mapping)) : String :=
  graphs.foldl (writeGraph rootToken) w

/-- The line `token TAB form1:form2:...:formK NEWLINE` of a mapping. -/
def tokenLine (mapping : Mapping) : String :=
  mapping.Token ++ "\t" ++ gostrings.Join (mapping.Spellout.map (fun morph => morph.Form)) ":"
    ++ "\n"

/-- The token lines of a graph: the lines of the mappings whose token is not the
ROOT token, in mapping order. -/
def tokenLines (rootToken : String) (graph : List Mapping) : List String :=
  (graph.filter (fun mapping => mapping.Token ≠ rootToken)).map tokenLine

/-- The text of a list of graphs: for each graph in order its token lines
followed by one empty line. -/
def segmentationText (rootToken : String) (graphs : List (List Mapping)) : String :=
  gostrings.concatAll
    (graphs.map (fun graph => gostrings.concatAll (tokenLines rootToken graph) ++ "\n"))

end Segmentation


/-! # The tabular reader -/

namespace conllu

open featurevector (mapGet mapSet wrap64 inInt64 indexOutOfRange)

/-- The outcome of a Go function with results `(value, error)`: a normal return
with a nil error, a return with an error (and the value returned with it), or a
runtime panic. -/
inductive GoResult (α : Type) where
  | ok (value : α)
  | error (value : α) (err : String)
  | panic (msg : String)
deriving DecidableEq, Repr

/-- The outcome of a body in which a `return` or a panic leaves early: the
exception of the body is the outcome of the function. -/
def earlyReturn {α : Type} (body : Except (GoResult α) α) : GoResult α :=
  match body with
  | .ok value => .ok value
  | .error outcome => outcome

/-- The indexing `record[i]`, which panics outside the slice. -/
def index {α : Type} (record : List String) (i : Nat) : Except (GoResult α) String :=
  match record[i]? with
  | some field => .ok field
  | none => .error (.panic indexOutOfRange)

/-- The type `Features`, a map from names to values; the nil map is `none`. -/
abbrev Features := Option (List (String × String))

/-- The struct `Row`. A nil `Deps` is the empty list. -/
structure Row where
  ID : Int
  Form : String
  Lemma : String
  UPosTag : String
  XPosTag : String
  Feats : Features
  FeatStr : String
  Head : Int
  DepRel : String
  Deps : List String
  Misc : String
  TokenID : Int
deriving DecidableEq, Repr

/-- The zero value `var row Row`. -/
def zeroRow : Row :=
  { ID := 0, Form := "", Lemma := "", UPosTag := "", XPosTag := "", Feats := none,
    FeatStr := "", Head := 0, DepRel := "", Deps := [], Misc := "", TokenID := 0 }

/-- The struct `Sentence`: the rows by their ids, and the tokens. -/
structure Sentence where
  Deps : List (Int × Row)
  Tokens : List String
deriving DecidableEq, Repr

/-- The constructor `NewSentence`. -/
def NewSentence : Sentence := { Deps := [], Tokens := [] }

/-- The value of a list of decimal digits. -/
def digitsValue (digits : List Char) : Nat :=
  digits.foldl (fun acc c => 10 * acc + (c.toNat - '0'.toNat)) 0

/-- The sign and the digits of a numeral: a leading `+` or `-` is the sign. -/
def signAndDigits : List Char → Bool × List Char
  | '+' :: rest => (false, rest)
  | '-' :: rest => (true, rest)
  | cs => (false, cs)

/-- The library function `strconv.ParseInt(s, 10, 0)`, after its documentation:
an optional sign and one or more decimal digits; a syntax error for any other
string, and a range error for a value outside the 64-bit `int`. The message
quotes `s` without the escapes of `strconv.Quote`. -/
def strconvParseInt (s : String) : Except String Int :=
  match signAndDigits s.data with
  | (neg, digits) =>
    if digits.isEmpty || !(digits.all Char.isDigit) then
      .error ("strconv.ParseInt: parsing \"" ++ s ++ "\": invalid syntax")
    else
      let value : Int := if neg then -(digitsValue digits : Int) else (digitsValue digits : Int)
      if inInt64 value then .ok value
      else .error ("strconv.ParseInt: parsing \"" ++ s ++ "\": value out of range")

/-- The function `ParseInt`; the value returned beside an error is not kept. -/
def ParseInt (value : String) : Except String Int :=
  if value = "_" then .ok 0 else strconvParseInt value

/-- The function `ParseString`. -/
def ParseString (value : String) : String :=
  if value = "_" then "" else value

/-- The loop of `ParseFeatures` over `featureList`, filling `featureMap`. -/
def parseFeaturesLoop :
    List String → List (String × String) → Except String (List (String × String))
  | [], featureMap => .ok featureMap
  | featureStr :: rest, featureMap =>
    match gostrings.Split featureStr '=' with
    | [featName, featValue] =>
      match mapGet featureMap featName with
      | some existingFeatValue =>
        parseFeaturesLoop rest (mapSet featureMap featName (existingFeatValue ++ "," ++ featValue))
      | none => parseFeaturesLoop rest (mapSet featureMap featName featValue)
    | _ => .error ("Wrong number of fields for split of feature" ++ featureStr)

/-- The function `ParseFeatures`; on an error the map returned is nil. -/
def ParseFeatures (featuresStr : String) : Except String Features :=
  if featuresStr = "_" then .ok none
  else
    let featureList := gostrings.Split featuresStr '|'
    if featureList.length = 0 then .error "No features found, field should be '_'"
    else
      match parseFeaturesLoop featureList [] with
      | .ok featureMap => .ok (some featureMap)
      | .error e => .error e

/-- The function `ParseRow`. The package variable `IGNORE_LEMMA` is a parameter. -/
def ParseRow (IGNORE_LEMMA : Bool) (record : List String) : GoResult Row :=
  earlyReturn do
    let row := zeroRow
    let field0 ← index record 0
    let id ← match ParseInt field0 with
      | .ok id => pure id
      | .error e => throw (.error row ("Error parsing ID field (" ++ field0 ++ "): " ++ e))
    let row := { row with ID := id }
    let form := ParseString (← index record 1)
    if form = "" then throw (.error row "Empty FORM field")
    let row := { row with Form := form }
    let row ← if !IGNORE_LEMMA then do
        let lemmaValue := ParseString (← index record 2)
        pure { row with Lemma := lemmaValue }
      else pure row
    let upostag := ParseString (← index record 3)
    if upostag = "" then throw (.error row "Empty UPOSTAG field")
    let row := { row with UPosTag := upostag }
    let xpostag := ParseString (← index record 4)
    if xpostag = "" then throw (.error row "Empty XPOSTAG field")
    let row := { row with XPosTag := xpostag }
    let field5 ← index record 5
    let features ← match ParseFeatures field5 with
      | .ok features => pure features
      | .error e => throw (.error row ("Error parsing FEATS field (" ++ field5 ++ "): " ++ e))
    let row := { row with Feats := features, FeatStr := ParseString field5 }
    let field6 ← index record 6
    let head ← match ParseInt field6 with
      | .ok head => pure head
      | .error e => throw (.error row ("Error parsing HEAD field (" ++ field6 ++ "): " ++ e))
    let row := { row with Head := head }
    let deprel := ParseString (← index record 7)
    if deprel = "" then throw (.error row "Empty DEPREL field")
    let row := { row with DepRel := deprel }
    let deps := ParseString (← index record 8)
    let row := if deps.length > 0 then { row with Deps := gostrings.Split deps '=' } else row
    let row := { row with Misc := ParseString (← index record 9) }
    pure row

/-- The function `ParseTokenRow`, with results `(token, numForms)` and the
error. -/
def ParseTokenRow (record : List String) : GoResult (String × Int) :=
  earlyReturn do
    let token := ParseString (← index record 1)
    if token = "" then throw (.error (token, 0) "Empty TOKEN field for token row")
    let field0 ← index record 0
    let ids := gostrings.Split field0 '-'
    if ids.length ≠ 2 then
      throw (.error (token, 0) ("Error parsing ID span field (" ++ field0
        ++ "): wrong format for ID span for token row - needs <num>-<num>"))
    let id1 ← match ParseInt (← index ids 0) with
      | .ok id1 => pure id1
      | .error e =>
        throw (.error (token, 0)
          ("Error parsing ID span field (" ++ field0 ++ "): " ++ e ++ " for token row"))
    let id2 ← match ParseInt (← index ids 1) with
      | .ok id2 => pure id2
      | .error e =>
        throw (.error (token, 0)
          ("Error parsing ID span field (" ++ field0 ++ "): " ++ e ++ " for token row"))
    if !(wrap64 (id2 - id1) > 0) then
      throw (.error (token, 0) ("Error parsing ID span field (" ++ field0
        ++ "): wrong format for ID span for token row - needs second num (" ++ toString id2
        ++ ") - first num (" ++ toString id1 ++ ") > 0"))
    pure (token, wrap64 (wrap64 (id2 - id1) + 1))

/-- The variables of `Read` that live across the lines. -/
structure ReadState where
  sentences : List Sentence
  i : Int
  token : String
  numForms : Int
  currentSent : Sentence
deriving DecidableEq, Repr

/-- The body of the loop of `Read` for one result `(curLine, isPrefix)` of
`bufReader.ReadLine()`. -/
def readLine (IGNORE_LEMMA : Bool) (st : ReadState) (curLine : String) (isPrefix : Bool) :
    Except (GoResult (List Sentence)) ReadState := do
  if isPrefix then throw (.panic "Buffer not large enough, fix me :(")
  if curLine.length = 0 then
    return { st with
      sentences := st.sentences ++ [st.currentSent]
      currentSent := NewSentence
      i := wrap64 (st.i + 1) }
  let record := gostrings.Split curLine '\t'
  let field0 ← index record 0
  match field0.data with
  | [] => throw (.panic indexOutOfRange)
  | first :: _ =>
    if first = '#' then return st
    if gostrings.Contains field0 '-' then
      match ParseTokenRow record with
      | .panic msg => throw (.panic msg)
      | .error _ err =>
        throw (.error [] ("Error processing record " ++ toString st.i ++ " at statement "
          ++ toString st.sentences.length ++ ": " ++ err))
      | .ok (token, numForms) =>
        return { st with
          token := token
          numForms := numForms
          currentSent := { st.currentSent with Tokens := st.currentSent.Tokens ++ [token] } }
    else
      match ParseRow IGNORE_LEMMA record with
      | .panic msg => throw (.panic msg)
      | .error _ err =>
        throw (.error [] ("Error processing record " ++ toString st.i ++ " at statement "
          ++ toString st.sentences.length ++ ": " ++ err))
      | .ok row =>
        let st := if st.numForms > 0 then { st with numForms := st.numForms - 1 }
          else { st with
            currentSent := { st.currentSent with Tokens := st.currentSent.Tokens ++ [row.Form] } }
        let row := { row with TokenID := (st.currentSent.Tokens.length : Int) - 1 }
        return { st with
          currentSent := { st.currentSent with Deps := mapSet st.currentSent.Deps row.ID row } }

/-- The loop of `Read` over the results of `bufReader.ReadLine()` up to the end
of the input. -/
def readLoop (IGNORE_LEMMA : Bool) :
    List (String × Bool) → ReadState → Except (GoResult (List Sentence)) ReadState
  | [], st => .ok st
  | (curLine, isPrefix) :: rest, st =>
    match readLine IGNORE_LEMMA st curLine isPrefix with
    | .error outcome => .error outcome
    | .ok st' => readLoop IGNORE_LEMMA rest st'

/-- The function `Read`, on the results `(curLine, isPrefix)` that
`bufReader.ReadLine()` yields for the input before its end: the lines without
their line ends, `isPrefix` telling that a line did not fit the buffer. -/
def Read (IGNORE_LEMMA : Bool) (lines : List (String × Bool)) : GoResult (List Sentence) :=
  match readLoop IGNORE_LEMMA lines
      { sentences := [], i := 0, token := "", numForms := 0, currentSent := NewSentence } with
  | .ok st => .ok st.sentences
  | .error outcome => outcome

/-- The pairs `(key, value)` of the `|`-separated items of a feature string that
have the form `key=value`, in order of occurrence. -/
def featureItems (featuresStr : String) : List (String × String) :=
  (gostrings.Split featuresStr '|').filterMap (fun item =>
    match gostrings.Split item '=' with
    | [key, value] => some (key, value)
    | _ => none)

/-- The values given for key `k`, in order of occurrence. -/
def valuesOf (items : List (String × String)) (k : String) : List String :=
  (items.filter (fun item => item.1 = k)).map Prod.snd

/-- Every `|`-separated item of the feature string has the form `key=value`: it
splits on `=` into exactly two parts. -/
def WellFormedFeatures (featuresStr : String) : Prop :=
  ∀ item ∈ gostrings.Split featuresStr '|', (gostrings.Split item '=').length = 2

instance (featuresStr : String) : Decidable (WellFormedFeatures featuresStr) :=
  inferInstanceAs (Decidable (∀ item ∈ gostrings.Split featuresStr '|', _))

/-- The integer a decimal numeral denotes: an optional sign `+` or `-` followed by
one or more digits `0` to `9`; `none` for any other string. -/
def decimalInteger (s : String) : Option Int :=
  match signAndDigits s.data with
  | (neg, digits) =>
    if digits ≠ [] ∧ digits.all Char.isDigit = true then
      some (if neg then -(digitsValue digits : Int) else (digitsValue digits : Int))
    else none

/-- An ID or HEAD field in error: neither `_` nor a decimal integer that fits the
64-bit `int`. -/
def IntFieldError (field : String) : Prop :=
  field ≠ "_" ∧ ∀ n, decimalInteger field = some n → ¬ inInt64 n

/-- A FORM, UPOSTAG, XPOSTAG or DEPREL field in error: `_` or empty. -/
def TextFieldError (field : String) : Prop := field = "_" ∨ field = ""

/-- A FEATS field in error: not `_`, with an item that does not split on `=` into
exactly two parts. -/
def FeatsFieldError (field : String) : Prop := field ≠ "_" ∧ ¬ WellFormedFeatures field

/-- The integer read from an ID or HEAD field: 0 for `_`. -/
def intFieldValue (field : String) : Int :=
  if field = "_" then 0 else (decimalInteger field).getD 0

/-- The text read from a field: the empty string for `_`. -/
def textFieldValue (field : String) : String := if field = "_" then "" else field

instance (field : String) : Decidable (TextFieldError field) :=
  inferInstanceAs (Decidable (field = "_" ∨ field = ""))

/-- The record of ten fields is in error: ID or HEAD is neither `_` nor a decimal
integer that fits `int`, or FORM, UPOSTAG, XPOSTAG or DEPREL is `_` or empty, or
FEATS is not `_` and has an item that is not of the form `key=value`. -/
def RowError (f0 f1 f3 f4 f5 f6 f7 : String) : Prop :=
  IntFieldError f0 ∨ IntFieldError f6 ∨ TextFieldError f1 ∨ TextFieldError f3
    ∨ TextFieldError f4 ∨ TextFieldError f7 ∨ FeatsFieldError f5

end conllu


/-! # Store-wide integration and the lock of the model -/

namespace featurevector

/-- The method `LockedArray.Integrate`: every non-nil slot is integrated. -/
def LockedArray.Integrate (l : LockedArray) (generation : Int) : LockedArray :=
  ⟨l.Vals.map (fun v =>
    match v with
    | some h => some (h.Integrate generation)
    | none => none)⟩

/-- The body of the loop of `LockedMap.Integrate`: `v.Integrate(generation)` on
the value of an entry, with no test for a nil pointer. -/
def integrateEntry (generation : Int) :
    Int × Option HistoryValue → Run (Int × Option HistoryValue)
  | (k, none) => ⟨some nilDereference, (k, none)⟩
  | (k, some h) => ⟨none, (k, some (h.Integrate generation))⟩

/-- The method `LockedMap.Integrate`. -/
def LockedMap.Integrate (l : LockedMap) (generation : Int) : Run LockedMap :=
  match rangeUpdate (integrateEntry generation) l.Vals with
  | ⟨p, vals⟩ => ⟨p, ⟨vals⟩⟩

/-- The cell found at a transition after `Add(generation, transition, _,
amount)`, given the cell found there before: a cell receives the amount, and a
cell is created where there was none. -/
def cellAfterAdd (cell : Option HistoryValue) (generation amount : Int) : HistoryValue :=
  match cell with
  | some h => h.Add generation amount
  | none => NewHistoryValue generation amount

/-- A call `Add(generation, transition, feature, amount)` on a store; the
feature plays no part in either store. -/
structure AddCall where
  generation : Int
  transition : Int
  amount : Int
deriving DecidableEq, Repr

/-- The calls of a sequence applied in order to a dense store. -/
def LockedArray.AddAll : LockedArray → List AddCall → Except String LockedArray
  | l, [] => .ok l
  | l, c :: rest =>
    match l.Add c.generation c.transition c.amount with
    | .error e => .error e
    | .ok l' => LockedArray.AddAll l' rest

/-- The calls of a sequence applied in order to a sparse store. -/
def LockedMap.AddAll : LockedMap → List AddCall → Except String LockedMap
  | l, [] => .ok l
  | l, c :: rest =>
    match l.Add c.generation c.transition c.amount with
    | .error e => .error e
    | .ok l' => LockedMap.AddAll l' rest

/-- No entry of the sparse store holds a nil pointer. -/
def NoNil (m : LockedMap) : Prop := ∀ p ∈ m.Vals, p.2 ≠ none

/-- The two stores hold the same cell at every transition that is not
negative, and the sparse one holds no nil pointer. -/
def Agree (a : LockedArray) (m : LockedMap) : Prop :=
  NoNil m ∧ ∀ n : Nat, (a.Vals[n]?).join = (mapGet m.Vals (n : Int)).join

/-! ## The readers-writer lock of `AvgSparse`

The struct `AvgSparse` embeds a `sync.RWMutex`. What a method does to that
mutex and to the outer map `Vals` is the list of its lock operations and map
accesses in program order; goroutines are interleaved by a schedule, and an
operation on the mutex can be taken only when the mutex allows it. -/

/-- The state of a `sync.RWMutex`: the number of holders of the shared lock and
whether the exclusive lock is held. -/
structure RWMutex where
  readers : Nat
  writer : Bool
deriving DecidableEq, Repr

/-- An operation of a method on the mutex of the model or on its map `Vals`. -/
inductive LockOp where
  /-- The call `v.RLock()`. -/
  | RLock
  /-- The call `v.RUnlock()`. -/
  | RUnlock
  /-- The call `v.Lock()`. -/
  | Lock
  /-- The call `v.Unlock()`. -/
  | Unlock
  /-- A read of the map, `v.Vals[feature]` or a `range v.Vals`. -/
  | readVals
  /-- An insertion into the map, `v.Vals[feature] = newTrans`. -/
  | writeVals
deriving DecidableEq, Repr

/-- Whether the mutex lets the operation proceed: `RLock` waits for the
exclusive holder, `Lock` waits for every holder. -/
def LockOp.enabled (m : RWMutex) : LockOp → Bool
  | .RLock => !m.writer
  | .Lock => !m.writer && m.readers == 0
  | _ => true

/-- The mutex after the operation. -/
def LockOp.apply (m : RWMutex) : LockOp → RWMutex
  | .RLock => { m with readers := m.readers + 1 }
  | .RUnlock => { m with readers := m.readers - 1 }
  | .Lock => { m with writer := true }
  | .Unlock => { m with writer := false }
  | _ => m

/-- The operations of `AvgSparse.Value`: the lookup `v.Vals[feature]`. -/
def ValueOps : List LockOp := [.readVals]

/-- The operations of `AvgSparse.SetScores`: the lookup `v.Vals[feature]`. -/
def SetScoresOps : List LockOp := [.readVals]

/-- The operations of `AvgSparse.Add`: `v.Lock()`, the lookup, the insertion
when the feature was not found, and the deferred `v.Unlock()`. -/
def AddOps (found : Bool) : List LockOp :=
  [.Lock, .readVals] ++ (if found then [] else [.writeVals]) ++ [.Unlock]

/-- The operations of `AvgSparse.UpdateScalarDivide` with a non-zero divisor:
`v.RLock()`, the loop over `v.Vals`, and the deferred `v.RUnlock()`. -/
def UpdateScalarDivideOps : List LockOp := [.RLock, .readVals, .RUnlock]

/-- One step of an execution: which goroutine moved (`true` for the first),
what it did, and the state of the mutex when it did it. -/
structure LockStep where
  first : Bool
  op : LockOp
  mutex : RWMutex
deriving DecidableEq, Repr

/-- Two goroutines run under a schedule (`true` lets the first one move); a
goroutine whose next operation is not enabled, or that has finished, does not
move. The result is the list of the steps taken. -/
def interleave : List Bool → RWMutex → List LockOp → List LockOp → List LockStep
  | [], _, _, _ => []
  | true :: sched, m, op :: a, b =>
    if op.enabled m then ⟨true, op, m⟩ :: interleave sched (op.apply m) a b
    else interleave sched m (op :: a) b
  | false :: sched, m, a, op :: b =>
    if op.enabled m then ⟨false, op, m⟩ :: interleave sched (op.apply m) a b
    else interleave sched m a (op :: b)
  | _ :: sched, m, a, b => interleave sched m a b

/-- A step in which the first goroutine reads the map while no shared lock is
held. -/
def LockStep.unlockedRead (s : LockStep) : Bool :=
  s.first && s.op == .readVals && s.mutex.readers == 0

/-- A step in which the first goroutine reads the map while the second one
holds the exclusive lock. -/
def LockStep.readUnderWriter (s : LockStep) : Bool :=
  s.first && s.op == .readVals && s.mutex.writer

/-- A step in which the second goroutine inserts into the map without the
exclusive lock. -/
def LockStep.unlockedWrite (s : LockStep) : Bool :=
  !s.first && s.op == .writeVals && !s.mutex.writer

end featurevector

/-! # Sorting of strings -/

namespace gosort

/-- The order of Go strings, by bytes; the encoding of a string keeps the
order of its characters, so the characters are compared by their code. -/
def less : List Char → List Char → Bool
  | _, [] => false
  | [], _ :: _ => true
  | a :: as, b :: bs =>
    if a.toNat < b.toNat then true
    else if b.toNat < a.toNat then false
    else less as bs

/-- The relation `a <= b` of Go strings. -/
def LE (a b : String) : Prop := less b.data a.data = false

instance : DecidableRel LE := fun a b =>
  inferInstanceAs (Decidable (less b.data a.data = false))

/-- The function `sort.Strings`: the strings in increasing order. -/
def Strings (strs : List String) : List String := strs.insertionSort LE

end gosort


/-! # The enumeration registry -/

namespace util

/-- Modelled from the spec: "Bijective mapping from domain values (strings or
tuples) to dense non-negative integers with O(1) add/lookup in either
direction. `Freeze()` forbids further additions". The values are kept in the
order of their indices, so the index of a value is its position. -/
structure EnumSet (α : Type) where
  Values : List α
  Frozen : Bool
deriving DecidableEq, Repr

/-- Modelled from the spec: the constructor `NewEnumSet`, an empty registry
that is not frozen; the capacity is a hint. -/
def NewEnumSet (α : Type) (_capacity : Int) : EnumSet α := ⟨[], false⟩

/-- Modelled from the spec: the method `Len`, the number of values. -/
def EnumSet.Len {α : Type} (e : EnumSet α) : Int := e.Values.length

/-- Modelled from the spec: the method `IndexOf`, the index of a value and
whether the value is in the registry. The spec does not say which integer
comes with `false`; it is taken to be 0. -/
def EnumSet.IndexOf {α : Type} [DecidableEq α] (e : EnumSet α) (value : α) : Int × Bool :=
  if value ∈ e.Values then ((e.Values.indexOf value : Nat), true) else (0, false)

/-- Modelled from the spec: the method `Add`, which returns the index of the
value and whether the value is new. A known value keeps its index; a new value
receives the next index, unless the registry is frozen (the spec does not say
which integer is returned then; it is taken to be 0). -/
def EnumSet.Add {α : Type} [DecidableEq α] (e : EnumSet α) (value : α) :
    EnumSet α × Int × Bool :=
  if value ∈ e.Values then (e, (e.Values.indexOf value : Nat), false)
  else if e.Frozen then (e, 0, false)
  else ({ e with Values := e.Values ++ [value] }, (e.Values.length : Nat), true)

/-- Modelled from the spec: the method `ValueOf`, the value of an index, nil
for an index that no value has. -/
def EnumSet.ValueOf {α : Type} (e : EnumSet α) (index : Int) : Option α :=
  if 0 ≤ index then e.Values[index.toNat]? else none

end util

/-! # Feature views, the tabular writer and the graph converters -/

namespace conllu

open featurevector (Run mapGet mapSet wrap64)

/-- The message of the runtime panic raised by a slice expression whose bounds
are outside the string. -/
def sliceBoundsOutOfRange : String := "slice bounds out of range"

/-- The test `name[0:3] == "suf"`. The slice expression panics when the name
has fewer than three bytes; otherwise the first three bytes are `suf` exactly
when the first three characters are. -/
def startsWithSuf (name : String) : Except String Bool :=
  if name.utf8ByteSize < 3 then .error sliceBoundsOutOfRange
  else .ok (name.data.take 3 == ['s', 'u', 'f'])

/-- The string `fmt.Sprintf("%v=%v", name, value)`. -/
def formatEntry (name value : String) : String := name ++ "=" ++ value

/-- The loop of `MorphHost` (`wantSuf = false`) and of `MorphSuffix`
(`wantSuf = true`) over the entries of the map: the strings appended to
`hostStrs`. -/
def morphStrs (wantSuf : Bool) : List (String × String) → Except String (List String)
  | [] => .ok []
  | (name, value) :: rest =>
    match startsWithSuf name with
    | .error e => .error e
    | .ok isSuf =>
      match morphStrs wantSuf rest with
      | .error e => .error e
      | .ok strs => .ok (if isSuf = wantSuf then formatEntry name value :: strs else strs)

/-- The method `Features.MorphHost`. -/
def Features.MorphHost (f : Features) : Except String String :=
  match morphStrs false (f.getD []) with
  | .error e => .error e
  | .ok hostStrs => .ok (gostrings.Join (gosort.Strings hostStrs) "|")

/-- The method `Features.MorphSuffix`. -/
def Features.MorphSuffix (f : Features) : Except String String :=
  match morphStrs true (f.getD []) with
  | .error e => .error e
  | .ok hostStrs => .ok (gostrings.Join (gosort.Strings hostStrs) "|")

/-- The function `FormatFeatures`. -/
def FormatFeatures (feat : Features) : String :=
  match feat with
  | none => "_"
  | some [] => "_"
  | some entries =>
    gostrings.Join (gosort.Strings (entries.map (fun kv => formatEntry kv.1 kv.2))) "|"

/-- The serialisation of a feature map in ascending order of its keys: the
entries ordered by key, each written `key=value`, joined by `|`, and `_` for a
nil or empty map. -/
def formatByKey (feat : Features) : String :=
  match feat with
  | none => "_"
  | some [] => "_"
  | some entries =>
    gostrings.Join
      ((entries.insertionSort (fun p q => gosort.LE p.1 q.1)).map
        (fun kv => formatEntry kv.1 kv.2)) "|"

/-- The method `Row.String`. -/
def Row.String (r : Row) : String :=
  gostrings.Join
    [toString r.ID, r.Form, r.Lemma, r.UPosTag, r.XPosTag, r.FeatStr, toString r.Head,
      r.DepRel, gostrings.Join r.Deps "=", r.Misc]
    "\t"

/-- A value of the slice `[]interface\x7b\x7d` given to `Write`, with its dynamic
type: a `Sentence` or a `*Sentence`. -/
inductive SentValue where
  | sentence (s : Sentence)
  | pointer (s : Sentence)
deriving DecidableEq, Repr

/-- The message of the runtime panic raised by the type assertion
`genericsent.(Sentence)` on a `*Sentence`. -/
def sentenceAssertion : String :=
  "interface conversion: interface \x7b\x7d is *conllu.Sentence, not conllu.Sentence"

/-- The read `sent.Deps[i]`: the row of the key, the zero row for a missing
key. -/
def rowAt (sent : Sentence) (i : Int) : Row := (mapGet sent.Deps i).getD zeroRow

/-- The inner loop of `Write`: the rows `sent.Deps[i]` for `i` from `from` on,
`count` of them, each written with a line feed. -/
def writeRows (sent : Sentence) : Nat → Int → String → String
  | 0, _, w => w
  | count + 1, i, w =>
    writeRows sent count (i + 1) (w ++ (rowAt sent i).String ++ "\n")

/-- The function `Write`; `w` is what the writer has received so far. -/
def Write (w : String) : List SentValue → Run String
  | [] => ⟨none, w⟩
  | .pointer _ :: _ => ⟨some sentenceAssertion, w⟩
  | .sentence sent :: rest =>
    Write (writeRows sent sent.Deps.length 1 w ++ "\n") rest

/-! ## Dependency graphs -/

/-- An arc as the interface `nlp.LabeledDepArc` shows it: `GetHead`,
`GetModifier`, `GetRelation`. -/
structure LabeledDepArc where
  Head : Int
  Modifier : Int
  Relation : String
deriving DecidableEq, Repr

/-- The struct `transition.TaggedDepNode`, with the fields that the converters
name. -/
structure TaggedDepNode where
  Id : Int
  Token : Int
  TokenPOS : Int
  POS : Int
  MHost : Int
  MSuffix : Int
  RawToken : String
  RawPOS : String
  RawLemma : String
deriving DecidableEq, Repr

/-- A value of the interface `nlp.DepNode`: a `*TaggedDepNode`, or anything
else (nil included). -/
inductive DepNode where
  | tagged (n : TaggedDepNode)
  | other
deriving DecidableEq, Repr

/-- The struct `nlp.Morpheme`, as the positional literal of
`ConllU2MorphGraph` fills it; `Edge` is the `graph.BasicDirectedEdge` with its
id, its source node and its target node. -/
structure Morpheme where
  Edge : Int × Int × Int
  Form : String
  Lemma : String
  CPOS : String
  POS : String
  Features : Features
  TokenID : Int
  FeatureStr : String
deriving DecidableEq, Repr

/-- The struct `nlp.EMorpheme`, as the positional literal of
`ConllU2MorphGraph` fills it: the morpheme and seven enumeration indices. -/
structure EMorpheme where
  Morpheme : Morpheme
  EForm : Int
  ELemma : Int
  EFCPOS : Int
  EPOS : Int
  EFeatures : Int
  EMHost : Int
  EMSuffix : Int
deriving DecidableEq, Repr

/-- A graph as the interface `nlp.LabeledDependencyGraph` shows it to
`Graph2ConllU`: `GetEdges`, `GetLabeledArc` (nil for an id without arc),
`GetVertices` and `GetNode`. -/
structure LabeledDependencyGraph where
  Edges : List Int
  LabeledArc : List (Int × LabeledDepArc)
  Vertices : List Int
  Node : List (Int × DepNode)
deriving DecidableEq, Repr

/-- A graph as the interface `nlp.MorphDependencyGraph` shows it to
`MorphGraph2ConllU`: `GetEdges`, `GetLabeledArc`, `GetVertices` and
`GetMorpheme` (nil for an id without morpheme). -/
structure MorphDependencyGraph where
  Edges : List Int
  LabeledArc : List (Int × LabeledDepArc)
  Vertices : List Int
  Morpheme : List (Int × EMorpheme)
deriving DecidableEq, Repr

/-- The first loop of both converters: the arcs found, by their modifier. -/
def arcIndexOf (arcs : List (Int × LabeledDepArc)) :
    List Int → List (Int × LabeledDepArc) → List (Int × LabeledDepArc)
  | [], arcIndex => arcIndex
  | arcID :: rest, arcIndex =>
    match mapGet arcs arcID with
    | none => arcIndexOf arcs rest arcIndex
    | some arc => arcIndexOf arcs rest (mapSet arcIndex arc.Modifier arc)

/-- The function `GetMorphProperties`; the type assertion `.(string)` panics
on the nil that `ValueOf` returns for an unknown index. -/
def GetMorphProperties (node : TaggedDepNode) (eMHost eMSuffix : util.EnumSet String) :
    Except String String :=
  match eMHost.ValueOf node.MHost with
  | none => .error "interface conversion: interface is nil, not string"
  | some host =>
    match eMSuffix.ValueOf node.MSuffix with
    | none => .error "interface conversion: interface is nil, not string"
    | some suffix =>
      if host ≠ "" ∧ suffix ≠ "" then .ok (host ++ "|" ++ suffix)
      else if host ≠ "" then .ok host
      else if suffix ≠ "" then .ok suffix
      else .ok "_"

/-- The second loop of `Graph2ConllU`. The methods `ID` and `String` of a node
are not part of the sources at hand and are parameters. -/
def graphRows (ROOT_LABEL : String) (IGNORE_LEMMA : Bool) (nodeID : TaggedDepNode → Int)
    (nodeString : TaggedDepNode → String) (graph : LabeledDependencyGraph)
    (eMHost eMSuffix : util.EnumSet String) (arcIndex : List (Int × LabeledDepArc)) :
    List Int → Sentence → Except String Sentence
  | [], sent => .ok sent
  | vertex :: rest, sent =>
    match mapGet graph.Node vertex with
    | some (.tagged taggedToken) =>
      let posTag := taggedToken.RawPOS
      let lemmaValue := if !IGNORE_LEMMA then taggedToken.RawLemma else ""
      let (headID, depRel) :=
        match mapGet arcIndex (nodeID taggedToken) with
        | some arc => (if arc.Relation = ROOT_LABEL then -1 else arc.Head, arc.Relation)
        | none => (-1, "None")
      match GetMorphProperties taggedToken eMHost eMSuffix with
      | .error e => .error e
      | .ok featStr =>
        let row : Row :=
          { zeroRow with
            ID := wrap64 (nodeID taggedToken + 1), Form := nodeString taggedToken,
            Lemma := lemmaValue, UPosTag := posTag, XPosTag := posTag, FeatStr := featStr,
            Head := wrap64 (headID + 1), DepRel := depRel }
        graphRows ROOT_LABEL IGNORE_LEMMA nodeID nodeString graph eMHost eMSuffix arcIndex rest
          { sent with Deps := mapSet sent.Deps row.ID row }
    | _ => .error "Got node of type other than TaggedDepNode"

/-- The function `Graph2ConllU`; its result is a `*Sentence`. -/
def Graph2ConllU (ROOT_LABEL : String) (IGNORE_LEMMA : Bool) (nodeID : TaggedDepNode → Int)
    (nodeString : TaggedDepNode → String) (graph : LabeledDependencyGraph)
    (eMHost eMSuffix : util.EnumSet String) : Except String Sentence :=
  graphRows ROOT_LABEL IGNORE_LEMMA nodeID nodeString graph eMHost eMSuffix
    (arcIndexOf graph.LabeledArc graph.Edges []) graph.Vertices NewSentence

/-- The function `Graph2ConllUCorpus`: each element of the result holds the
`*Sentence` returned by `Graph2ConllU`. -/
def Graph2ConllUCorpus (ROOT_LABEL : String) (IGNORE_LEMMA : Bool)
    (nodeID : TaggedDepNode → Int) (nodeString : TaggedDepNode → String)
    (eMHost eMSuffix : util.EnumSet String) :
    List LabeledDependencyGraph → Except String (List SentValue)
  | [] => .ok []
  | graph :: corpus =>
    match Graph2ConllU ROOT_LABEL IGNORE_LEMMA nodeID nodeString graph eMHost eMSuffix with
    | .error e => .error e
    | .ok sent =>
      match Graph2ConllUCorpus ROOT_LABEL IGNORE_LEMMA nodeID nodeString eMHost eMSuffix
          corpus with
      | .error e => .error e
      | .ok sents => .ok (.pointer sent :: sents)

/-- The second loop of `MorphGraph2ConllU`; `i` is the position of the vertex
in `GetVertices()`. -/
def morphGraphRows (ROOT_LABEL : String) (graph : MorphDependencyGraph)
    (arcIndex : List (Int × LabeledDepArc)) : List Int → Int → Sentence → Except String Sentence
  | [], _, sent => .ok sent
  | nodeID :: rest, i, sent =>
    match mapGet graph.Morpheme nodeID with
    | none => .error "Can't find node"
    | some node =>
      let (headID, depRel) :=
        match mapGet arcIndex i with
        | some arc => (if arc.Relation = ROOT_LABEL then -1 else arc.Head, arc.Relation)
        | none => (0, "None")
      let row : Row :=
        { zeroRow with
          ID := i + 1, Form := node.Morpheme.Form, UPosTag := node.Morpheme.CPOS,
          XPosTag := node.Morpheme.POS, Feats := node.Morpheme.Features,
          Head := wrap64 (headID + 1), DepRel := depRel }
      morphGraphRows ROOT_LABEL graph arcIndex rest (i + 1)
        { sent with Deps := mapSet sent.Deps row.ID row }

/-- The function `MorphGraph2ConllU`; its result is a `*Sentence`. -/
def MorphGraph2ConllU (ROOT_LABEL : String) (graph : MorphDependencyGraph) :
    Except String Sentence :=
  morphGraphRows ROOT_LABEL graph (arcIndexOf graph.LabeledArc graph.Edges []) graph.Vertices 0
    NewSentence

/-- The function `MorphGraph2ConllCorpus`: each element of the result holds the
`*Sentence` returned by `MorphGraph2ConllU`. -/
def MorphGraph2ConllCorpus (ROOT_LABEL : String) :
    List MorphDependencyGraph → Except String (List SentValue)
  | [] => .ok []
  | graph :: corpus =>
    match MorphGraph2ConllU ROOT_LABEL graph with
    | .error e => .error e
    | .ok sent =>
      match MorphGraph2ConllCorpus ROOT_LABEL corpus with
      | .error e => .error e
      | .ok sents => .ok (.pointer sent :: sents)

end conllu


/-! # From a tabular sentence to a morphological graph -/

namespace conllu

open featurevector (mapGet mapSet wrap64 indexOutOfRange)

/-- The struct `nlp.Lattice`, with the fields that `ConllU2MorphGraph` names
and the spellouts that `GenSpellouts` fills. -/
structure Lattice where
  Token : String
  Morphemes : List EMorpheme
  Spellouts : List (List EMorpheme)
  Next : List (Int × List Int)
  BottomId : Int
  TopId : Int
deriving DecidableEq, Repr

/-- The struct `nlp.Mapping`: a token and a spellout. -/
structure Mapping where
  Token : String
  Spellout : List EMorpheme
deriving DecidableEq, Repr

/-- The struct `transition.BasicDepArc`, with its four fields in the order of
the positional literal; their names are those of the arc interface. -/
structure BasicDepArc where
  Head : Int
  Relation : Int
  Modifier : Int
  RawRelation : String
deriving DecidableEq, Repr

/-- The struct `morphtypes.BasicMorphGraph`: the nodes and arcs of the embedded
`BasicDepGraph`, the mappings and the lattices. -/
structure BasicMorphGraph where
  Nodes : List TaggedDepNode
  Arcs : List (Option BasicDepArc)
  Mappings : List Mapping
  Lattices : List Lattice
deriving DecidableEq, Repr

/-- The seven registries that `ConllU2MorphGraph` receives. -/
structure EnumSets where
  eWord : util.EnumSet String
  ePOS : util.EnumSet String
  eWPOS : util.EnumSet (String × String)
  eRel : util.EnumSet String
  eMFeat : util.EnumSet String
  eMHost : util.EnumSet String
  eMSuffix : util.EnumSet String
deriving DecidableEq, Repr

/-- The variables of the main loop of `ConllU2MorphGraph`. -/
structure MorphGraphState where
  nodes : List TaggedDepNode
  arcs : List (Option BasicDepArc)
  lattices : List Lattice
  curLatNode : Int
  enums : EnumSets
deriving DecidableEq, Repr

/-- The `switch WORD_TYPE` of the loop: the string added to `eWord`, whose
pair with the tag is added to `eWPOS`; an unknown word type panics. -/
def wordOf (WORD_TYPE : String) (row : Row) : Except String String :=
  if WORD_TYPE = "form" then .ok row.Form
  else if WORD_TYPE = "lemma" then .ok row.Lemma
  else if WORD_TYPE = "lemma+f" then (if row.Lemma ≠ "" then .ok row.Lemma else .ok row.Form)
  else .error ("Unknown WORD_TYPE " ++ WORD_TYPE)

/-- The statements of the loop body that change the lattice of the row's
token: `BottomId` when `Next` is empty, `TopId`, `Next` and the appended
morpheme. -/
def extendLattice (lattice : Lattice) (curLatNode : Int) (morph : EMorpheme) : Lattice :=
  let lattice1 : Lattice :=
    if lattice.Next.length = 0 then { lattice with BottomId := curLatNode } else lattice
  { lattice1 with
    TopId := curLatNode + 1
    Next := mapSet lattice1.Next curLatNode [curLatNode]
    Morphemes := lattice1.Morphemes ++ [morph] }

/-- The body of the main loop of `ConllU2MorphGraph` for the index `i`. The
counters `i` and `curLatNode` do not exceed the number of rows; `row.Head - 1`
is reduced to 64 bits. -/
def morphGraphRow (WORD_TYPE : String) (sent : Sentence) (i : Int) (st : MorphGraphState) :
    Except String MorphGraphState :=
  let row := rowAt sent i
  match wordOf WORD_TYPE row with
  | .error e => .error e
  | .ok word =>
    let (eWord, token, _) := st.enums.eWord.Add word
    let (eWPOS, tokenPOS, _) := st.enums.eWPOS.Add (word, row.UPosTag)
    let (ePOS, pos, _) := st.enums.ePOS.Add row.UPosTag
    match row.Feats.MorphHost with
    | .error e => .error e
    | .ok host =>
      let (eMHost, mHost, _) := st.enums.eMHost.Add host
      match row.Feats.MorphSuffix with
      | .error e => .error e
      | .ok suffix =>
        let (eMSuffix, mSuffix, _) := st.enums.eMSuffix.Add suffix
        let (index, _) := st.enums.eRel.IndexOf row.DepRel
        let node : TaggedDepNode :=
          { Id := i - 1, Token := token, TokenPOS := tokenPOS, POS := pos, MHost := mHost,
            MSuffix := mSuffix, RawToken := row.Form, RawPOS := row.UPosTag, RawLemma := "" }
        let arc : BasicDepArc := ⟨wrap64 (row.Head - 1), index, i - 1, row.DepRel⟩
        match featurevector.sliceSet st.arcs (i - 1) (some arc) with
        | .error e => .error e
        | .ok arcs =>
          match featurevector.sliceGet st.lattices row.TokenID with
          | .error e => .error e
          | .ok lattice =>
            let morph : Morpheme :=
              ⟨(st.curLatNode, st.curLatNode, st.curLatNode + 1), row.Form, row.Lemma,
                row.UPosTag, row.UPosTag, row.Feats, row.TokenID, row.FeatStr⟩
            let (eMFeat, eFeat, _) := st.enums.eMFeat.Add row.FeatStr
            let emorph : EMorpheme := ⟨morph, token, token, tokenPOS, pos, eFeat, mHost, mSuffix⟩
            .ok
              { nodes := st.nodes ++ [node]
                arcs := arcs
                lattices := st.lattices.set row.TokenID.toNat
                  (extendLattice lattice st.curLatNode emorph)
                curLatNode := st.curLatNode + 1
                enums :=
                  { st.enums with
                    eWord := eWord, eWPOS := eWPOS, ePOS := ePOS, eMHost := eMHost,
                    eMSuffix := eMSuffix, eMFeat := eMFeat } }

/-- The main loop of `ConllU2MorphGraph`, for the indices `i`, `i+1`, ... of
`count` rows. -/
def morphGraphLoop (WORD_TYPE : String) (sent : Sentence) :
    Nat → Int → MorphGraphState → Except String MorphGraphState
  | 0, _, st => .ok st
  | count + 1, i, st =>
    match morphGraphRow WORD_TYPE sent i st with
    | .error e => .error e
    | .ok st' => morphGraphLoop WORD_TYPE sent count (i + 1) st'

/-- The last loop of `ConllU2MorphGraph`: the mapping of each lattice is its
token with its first spellout. The method `GenSpellouts` is not part of the
sources at hand and is a parameter (the spellouts of a lattice); it works on a
copy of the lattice, and `lat.Spellouts[0]` panics when there is none. -/
def mappingsOf (GenSpellouts : Lattice → List (List EMorpheme)) :
    List Lattice → Except String (List Mapping)
  | [] => .ok []
  | lat :: rest =>
    match GenSpellouts lat with
    | [] => .error indexOutOfRange
    | spellout :: _ =>
      match mappingsOf GenSpellouts rest with
      | .error e => .error e
      | .ok mappings => .ok (⟨lat.Token, spellout⟩ :: mappings)

/-- The lattices with which `ConllU2MorphGraph` starts, one per token. -/
def initialLattices (tokens : List String) : List Lattice :=
  tokens.map (fun token =>
    { Token := token, Morphemes := [], Spellouts := [], Next := [], BottomId := 0, TopId := 0 })

/-- The variables of `ConllU2MorphGraph` before its main loop. -/
def initialState (sent : Sentence) (enums : EnumSets) : MorphGraphState :=
  { nodes := [], arcs := List.replicate sent.Deps.length none,
    lattices := initialLattices sent.Tokens, curLatNode := 0, enums := enums }

/-- The function `ConllU2MorphGraph`. The result is the graph together with
the registries, which the function extends. -/
def ConllU2MorphGraph (WORD_TYPE : String) (GenSpellouts : Lattice → List (List EMorpheme))
    (sent : Sentence) (enums : EnumSets) : Except String (BasicMorphGraph × EnumSets) :=
  match morphGraphLoop WORD_TYPE sent sent.Deps.length 1 (initialState sent enums) with
  | .error e => .error e
  | .ok st =>
    match mappingsOf GenSpellouts st.lattices with
    | .error e => .error e
    | .ok mappings => .ok (⟨st.nodes, st.arcs, mappings, st.lattices⟩, st.enums)

/-- The rows among the first `k` whose token is `t`, by their position from 0:
position `j` is the row of the key `j + 1`. -/
def tokenRows (sent : Sentence) (t : Int) (k : Nat) : List Nat :=
  (List.range k).filter (fun j => (rowAt sent ((j : Int) + 1)).TokenID = t)

/-- The edge of the morpheme expected for the row at position `j`: id `j`,
from node `j` to node `j + 1`. -/
def edgeOf (j : Nat) : Int × Int × Int := ((j : Int), (j : Int), (j : Int) + 1)

/-- What the lattice of token `t` is expected to be after the first `k` rows:
one morpheme per row of the token, in order, with the expected edges; `Next`
empty exactly when there is no morpheme; `BottomId` the source node of the
first morpheme and `TopId` the target node of the last one. -/
def LatticeOK (sent : Sentence) (t : Int) (k : Nat) (lattice : Lattice) : Prop :=
  lattice.Morphemes.map (fun m => m.Morpheme.Edge) = (tokenRows sent t k).map edgeOf
  ∧ (lattice.Next = [] ↔ lattice.Morphemes = [])
  ∧ (∀ m, lattice.Morphemes.head? = some m → lattice.BottomId = m.Morpheme.Edge.2.1)
  ∧ (∀ m, lattice.Morphemes.getLast? = some m → lattice.TopId = m.Morpheme.Edge.2.2)

/-- The state of the main loop after `k` rows. -/
def LoopInv (sent : Sentence) (k : Nat) (st : MorphGraphState) : Prop :=
  st.curLatNode = (k : Int)
  ∧ st.lattices.length = sent.Tokens.length
  ∧ st.arcs.length = sent.Deps.length
  ∧ ∀ t : Nat, t < sent.Tokens.length →
      ∃ lattice, st.lattices[t]? = some lattice ∧ LatticeOK sent (t : Int) k lattice

/-- The three word types that the `switch` of `ConllU2MorphGraph` knows. -/
def KnownWordType (WORD_TYPE : String) : Prop :=
  WORD_TYPE = "form" ∨ WORD_TYPE = "lemma" ∨ WORD_TYPE = "lemma+f"

/-- Every feature name of every row of the sentence has three bytes or more,
and every row refers to a token of the sentence. -/
def RowsOK (sent : Sentence) : Prop :=
  ∀ j : Nat, j < sent.Deps.length →
    (∀ p ∈ (rowAt sent ((j : Int) + 1)).Feats.getD [], 3 ≤ p.1.utf8ByteSize)
    ∧ 0 ≤ (rowAt sent ((j : Int) + 1)).TokenID
    ∧ (rowAt sent ((j : Int) + 1)).TokenID < sent.Tokens.length

/-- Seven empty registries, the one of the relations frozen. -/
def emptyEnums : EnumSets :=
  ⟨⟨[], false⟩, ⟨[], false⟩, ⟨[], false⟩, ⟨[], true⟩, ⟨[], false⟩, ⟨[], false⟩, ⟨[], false⟩⟩

/-- A sentence of two tokens and three rows: the first row belongs to the first
token, the other two to the second. -/
def threeRows : Sentence :=
  { Deps :=
      [(1, { zeroRow with ID := 1, Form := "b", UPosTag := "ADP", TokenID := 0 }),
        (2, { zeroRow with ID := 2, Form := "h", UPosTag := "DET", TokenID := 1 }),
        (3, { zeroRow with
              ID := 3, Form := "byt", UPosTag := "NOUN", Feats := some [("gen", "M")],
              FeatStr := "gen=M", TokenID := 1 })]
    Tokens := ["b", "hbyt"] }

/-- A sentence of one token and one row, with a feature named `n`. -/
def shortNameRow : Sentence :=
  { Deps :=
      [(1, { zeroRow with
             ID := 1, Form := "dogs", UPosTag := "NOUN", Feats := some [("n", "s")],
             FeatStr := "n=s", TokenID := 0 })]
    Tokens := ["dogs"] }

/-- A stand-in for `GenSpellouts`: the morphemes of the lattice as its only
spellout. -/
def wholeLattice (lattice : Lattice) : List (List EMorpheme) := [lattice.Morphemes]

end conllu

/-! # The enumerations of the parser application -/

namespace morphparse

/-- The labels of `LABELS` that the source writes as string literals. -/
def labelNames : List String :=
  ["acc", "advmod", "amod", "appos", "aux", "cc", "ccomp", "comp", "complmn", "compound",
    "conj", "cop", "def", "dep", "det", "detmod", "gen", "ghd", "gobj", "hd", "mod", "mwe",
    "neg", "nn", "null", "num", "number", "obj", "parataxis", "pcomp", "pobj", "posspmod",
    "prd", "prep", "prepmod", "punct", "qaux", "rcmod", "rel", "relcomp", "subj", "tmod",
    "xcomp", "None"]

/-- The variable `LABELS`: the literal labels followed by `nlp.ROOT_LABEL`, a
constant that is not part of the sources at hand and is a parameter. -/
def LABELS (ROOT_LABEL : String) : List String := labelNames ++ [ROOT_LABEL]

/-- The package variables that `SetupEnum` assigns; a registry not yet created
is nil. -/
structure Vars where
  ERel : Option (util.EnumSet String)
  ETrans : Option (util.EnumSet String)
  EWord : Option (util.EnumSet String)
  EPOS : Option (util.EnumSet String)
  EWPOS : Option (util.EnumSet (String × String))
  SH : Int
  RE : Int
  PR : Int
  IDLE : Int
  LA : Int
  RA : Int
  MD : Int
deriving DecidableEq, Repr

/-- The package variables when the program starts. -/
def initialVars : Vars :=
  { ERel := none, ETrans := none, EWord := none, EPOS := none, EWPOS := none, SH := 0, RE := 0,
    PR := 0, IDLE := 0, LA := 0, RA := 0, MD := 0 }

/-- A loop that adds each name of a list to a registry, in order. -/
def addAll : List String → util.EnumSet String → util.EnumSet String
  | [], e => e
  | name :: rest, e => addAll rest (e.Add name).1

/-- The constant `APPROX_MORPH_TRANSITIONS`. -/
def APPROX_MORPH_TRANSITIONS : Int := 100

/-- The constant `APPROX_WORDS`. -/
def APPROX_WORDS : Int := 100

/-- The constant `APPROX_POS`. -/
def APPROX_POS : Int := 100

/-- The function `SetupRelationEnum`. -/
def SetupRelationEnum (ROOT_LABEL : String) (vars : Vars) : Vars :=
  match vars.ERel with
  | some _ => vars
  | none =>
    let ERel := util.NewEnumSet String (LABELS ROOT_LABEL).length
    let ERel := addAll (LABELS ROOT_LABEL) ERel
    { vars with ERel := some { ERel with Frozen := true } }

/-- The function `SetupMorphTransEnum`. -/
def SetupMorphTransEnum (ROOT_LABEL : String) (vars : Vars) : Vars :=
  let ETrans :=
    util.NewEnumSet String ((LABELS ROOT_LABEL).length * 2 + 2 + APPROX_MORPH_TRANSITIONS)
  let (ETrans, _, _) := ETrans.Add "NO"
  let (ETrans, iSH, _) := ETrans.Add "SH"
  let (ETrans, iRE, _) := ETrans.Add "RE"
  let (ETrans, iPR, _) := ETrans.Add "PR"
  let (ETrans, iIDLE, _) := ETrans.Add "IDLE"
  let LA := iIDLE + 1
  let ETrans := addAll ((LABELS ROOT_LABEL).map (fun transition => "LA-" ++ transition)) ETrans
  let RA := ETrans.Len
  let ETrans := addAll ((LABELS ROOT_LABEL).map (fun transition => "RA-" ++ transition)) ETrans
  let MD := ETrans.Len
  { vars with
    ETrans := some ETrans, SH := iSH, RE := iRE, PR := iPR, IDLE := iIDLE, LA := LA, RA := RA,
    MD := MD }

/-- The names of the transition registry in the order of their insertion by
`SetupMorphTransEnum`, for a list of labels. -/
def transNames (labels : List String) : List String :=
  ["NO", "SH", "RE", "PR", "IDLE"] ++ labels.map (fun transition => "LA-" ++ transition)
    ++ labels.map (fun transition => "RA-" ++ transition)

/-- The function `SetupEnum`. -/
def SetupEnum (ROOT_LABEL : String) (vars : Vars) : Vars :=
  let vars := SetupMorphTransEnum ROOT_LABEL (SetupRelationEnum ROOT_LABEL vars)
  { vars with
    EWord := some (util.NewEnumSet String APPROX_WORDS)
    EPOS := some (util.NewEnumSet String APPROX_POS)
    EWPOS := some (util.NewEnumSet (String × String) (APPROX_WORDS * 5)) }

end morphparse


/-! # Scoring through `SetScores`, and the models built by `Add` -/

namespace featurevector

/-- The callback of `SetScores`, run over the calls of `Each`: a nil cell is
skipped; otherwise `*scores` is extended with zeros up to the index `i`, and
`(*scores)[i] += val.Value`. -/
def setScoresEach : List (Int × Option HistoryValue) → List Int → Except String (List Int)
  | [], scores => .ok scores
  | (_, none) :: rest, scores => setScoresEach rest scores
  | (i, some val) :: rest, scores =>
    let scores1 :=
      if (scores.length : Int) ≤ i then scores ++ List.replicate (i.toNat + 1 - scores.length) 0
      else scores
    match sliceGet scores1 i with
    | .error e => .error e
    | .ok old =>
      match sliceSet scores1 i (wrap64 (old + val.Value)) with
      | .error e => .error e
      | .ok scores2 => setScoresEach rest scores2

/-- The method `AvgSparse.SetScores`, on the slice `*scores` with its capacity on
entry; the result is the slice `*scores` on return. -/
def AvgSparse.SetScores {F : Type} [DecidableEq F] (v : AvgSparse F) (feature : F)
    (scores : List Int) (capacity : Int) : Except String (List Int) :=
  match mapGet v.entries feature with
  | none => .ok scores
  | some transitions =>
    let transitionsLen := transitions.Len
    let scores1 :=
      if capacity < transitionsLen then
        scores ++ List.replicate (transitionsLen.toNat - scores.length) 0
      else scores
    setScoresEach transitions.Each scores1

/-- The element `s[t]` of a score vector, entries beyond its end read as 0. -/
def scoreAt (s : List Int) (t : Nat) : Int := s.getD t 0

/-- The models built from `MakeAvgSparse` by calls of `Add` that return. -/
inductive Built {F : Type} [DecidableEq F] : AvgSparse F → Prop where
  | make (dense : Bool) : Built (MakeAvgSparse F dense)
  | add (v v' : AvgSparse F) (generation transition : Int) (feature : F) (amount : Int) :
      Built v → v.Add generation transition feature amount = ⟨none, v'⟩ → Built v'

/-- Every store of the model is a `LockedArray`, and the map of the model is
not nil. -/
def AllDense {F : Type} (v : AvgSparse F) : Prop :=
  ∃ m, v.Vals = some m ∧ ∀ p ∈ m, ∃ l, p.2 = TransitionScoreStore.array l

/-- The value `Value` reads from a cell: 0 where there is none. -/
def cellValue : Option HistoryValue → Int
  | some h => h.Value
  | none => 0

end featurevector

/-! # The chain of previous configurations -/

namespace Morph

/-- The configurations reached from `m` through `MorphPrevious`, `m` first. -/
def previousChain : MorphConfiguration → List MorphConfiguration
  | ⟨s, q, l, ms, ns, none⟩ => [⟨s, q, l, ms, ns, none⟩]
  | ⟨s, q, l, ms, ns, some p⟩ => ⟨s, q, l, ms, ns, some p⟩ :: previousChain p

/-- The number of `MorphPrevious` links from `m` to the configuration that has
no previous one. -/
def previousLinks : MorphConfiguration → Nat
  | ⟨_, _, _, _, _, none⟩ => 0
  | ⟨_, _, _, _, _, some p⟩ => previousLinks p + 1

end Morph

/-! # The text of a feature map -/

namespace conllu

/-- The method `Features.String`. The condition `f != nil || len(f) == 0` holds
for every map; the other branch prints the map with `fmt.Sprintf("%v", ...)`,
whose text for the entries is the parameter `printed`. -/
def Features.String (printed : List (String × String) → String) (f : Features) : String :=
  if f ≠ none ∨ (f.getD []).length = 0 then "_" else printed (f.getD [])

end conllu

/-! # Counting the lines of the tabular reader -/

namespace conllu

/-- The number of empty lines among the lines read. -/
def emptyLines (lines : List (String × Bool)) : Nat :=
  (lines.filter (fun line => line.1.length = 0)).length

end conllu


/-! # Properties of the averaged sparse model -/

namespace featurevector

/-! ## Arithmetic of `int64` -/

theorem wrap64_modEq (x : Int) : wrap64 x ≡ x [ZMOD 18446744073709551616] := by
  unfold wrap64
  have h : (x + 9223372036854775808) % 18446744073709551616 ≡ x + 9223372036854775808
      [ZMOD 18446744073709551616] := Int.mod_modEq _ _
  have := h.sub_right 9223372036854775808
  simpa using this

theorem wrap64_congr {a b : Int} (h : a ≡ b [ZMOD 18446744073709551616]) :
    wrap64 a = wrap64 b := by
  unfold wrap64
  have h2 : (a + 9223372036854775808) % 18446744073709551616
      = (b + 9223372036854775808) % 18446744073709551616 := h.add_right _
  rw [h2]

theorem wrap64_of_inInt64 {x : Int} (h : inInt64 x) : wrap64 x = x := by
  unfold wrap64
  obtain ⟨h1, h2⟩ := h
  omega

theorem inInt64_wrap64 (x : Int) : inInt64 (wrap64 x) := by
  unfold wrap64 inInt64
  constructor <;> omega

theorem eq_wrap64_of_modEq {a b : Int} (ha : inInt64 a)
    (h : a ≡ b [ZMOD 18446744073709551616]) : a = wrap64 b := by
  rw [← wrap64_of_inInt64 ha]; exact wrap64_congr h

/-- The three reductions of `total + (int64)(g - generation) * value` amount to
one reduction of the exact result. -/
theorem wrap64_step (t a b : Int) :
    wrap64 (t + wrap64 (wrap64 a * b)) = wrap64 (t + a * b) := by
  apply wrap64_congr
  exact Int.ModEq.add_left _ (((wrap64_modEq _).trans ((wrap64_modEq a).mul_right b)))

/-! ## History cells -/

theorem Add_fields (h : HistoryValue) (g d : Int) :
    (h.Add g d).Total =
        (if h.PrevGeneration < h.Generation
          then wrap64 (h.Total + (g - h.Generation) * h.Value) else h.Total)
    ∧ (h.Add g d).Generation = (if h.Generation < g then g else h.Generation)
    ∧ (h.Add g d).PrevGeneration =
        (if h.Generation < g then h.Generation else h.PrevGeneration)
    ∧ (h.Add g d).Value = wrap64 (h.Value + d) := by
  unfold HistoryValue.Add
  by_cases h1 : h.PrevGeneration < h.Generation <;> by_cases h2 : h.Generation < g <;>
    simp [h1, h2, wrap64_step]

theorem Integrate_value (h : HistoryValue) (g : Int) :
    (h.Integrate g).Value = wrap64 (h.Total + (g - h.Generation) * h.Value) := by
  simp [HistoryValue.Integrate, wrap64_step]

theorem integrate_value_inInt64 (h : HistoryValue) (G : Int) :
    inInt64 (h.Integrate G).Value := by
  simp only [HistoryValue.Integrate]
  exact inInt64_wrap64 _

/-- C1. For every cell `h`, generation `g` and amount `d`, `Add(g, d)` gives
`Total' = Total + (g - Generation) * Value` when `PrevGeneration < Generation`
and `Total' = Total` otherwise, `(PrevGeneration', Generation') = (Generation, g)`
when `Generation < g` and both unchanged otherwise, and `Value' = Value + d`; the
right-hand sides read the fields before the call. The sums and the product are
those of `int64`: the exact result reduced by `wrap64`, hence the exact result
itself whenever that lies in the range of `int64`. -/
theorem HistoryValue_Add_spec (h : HistoryValue) (g d : Int) :
    ((h.Add g d).Total =
        (if h.PrevGeneration < h.Generation
          then wrap64 (h.Total + (g - h.Generation) * h.Value) else h.Total))
    ∧ ((h.Add g d).PrevGeneration, (h.Add g d).Generation) =
        (if h.Generation < g then (h.Generation, g) else (h.PrevGeneration, h.Generation))
    ∧ (h.Add g d).Value = wrap64 (h.Value + d)
    ∧ (inInt64 (h.Total + (g - h.Generation) * h.Value) → h.PrevGeneration < h.Generation →
        (h.Add g d).Total = h.Total + (g - h.Generation) * h.Value)
    ∧ (inInt64 (h.Value + d) → (h.Add g d).Value = h.Value + d) := by
  obtain ⟨h1, h2, h3, h4⟩ := Add_fields h g d
  refine ⟨h1, ?_, h4, ?_, ?_⟩
  · rw [h2, h3]; split <;> rfl
  · intro hr hlt
    rw [h1, if_pos hlt, wrap64_of_inInt64 hr]
  · intro hr
    rw [h4, wrap64_of_inInt64 hr]

/-- C2. For every cell `h` and generation `g`, `Integrate(g)` sets `Value` to
`Total + (g - Generation) * Value`, computed from the fields before the call in
`int64` arithmetic (the exact result whenever it lies in the range of `int64`),
and leaves `Total`, `Generation` and `PrevGeneration` unchanged. -/
theorem HistoryValue_Integrate_spec (h : HistoryValue) (g : Int) :
    (h.Integrate g).Value = wrap64 (h.Total + (g - h.Generation) * h.Value)
    ∧ (inInt64 (h.Total + (g - h.Generation) * h.Value) →
        (h.Integrate g).Value = h.Total + (g - h.Generation) * h.Value)
    ∧ (h.Integrate g).Total = h.Total
    ∧ (h.Integrate g).Generation = h.Generation
    ∧ (h.Integrate g).PrevGeneration = h.PrevGeneration := by
  refine ⟨Integrate_value h g, ?_, rfl, rfl, rfl⟩
  intro hr
  rw [Integrate_value, wrap64_of_inInt64 hr]

/-! ## The averaging law -/

theorem weightedSum_modEq (adds : List (Int × Int)) :
    ∀ (g v v' G : Int), v ≡ v' [ZMOD 18446744073709551616] →
      weightedSum g v adds G ≡ weightedSum g v' adds G [ZMOD 18446744073709551616] := by
  induction adds with
  | nil => intro g v v' G h; exact h.mul_right _
  | cons p rest ih =>
    intro g v v' G h
    obtain ⟨g', d⟩ := p
    simp only [weightedSum]
    exact (h.mul_right _).add (ih g' (v + d) (v' + d) G (h.add_right d))

/-- The averaging law from any cell whose guard `PrevGeneration < Generation`
holds: the guard is kept by every `Add` at a generation not below the current
one, so every period is accumulated into `Total`. -/
theorem integrate_applyAdds_modEq (adds : List (Int × Int)) :
    ∀ (h : HistoryValue) (G : Int), h.PrevGeneration < h.Generation →
      List.Chain (· ≤ ·) h.Generation (adds.map Prod.fst) →
      ((applyAdds h adds).Integrate G).Value ≡
        h.Total + weightedSum h.Generation h.Value adds G [ZMOD 18446744073709551616] := by
  induction adds with
  | nil =>
    intro h G _ _
    simp only [applyAdds, List.foldl_nil, weightedSum]
    rw [Integrate_value, mul_comm]
    exact wrap64_modEq _
  | cons p rest ih =>
    intro h G hlt hch
    obtain ⟨g, d⟩ := p
    simp only [List.map_cons, List.chain_cons] at hch
    obtain ⟨hle, hch⟩ := hch
    obtain ⟨h1, h2, h3, h4⟩ := Add_fields h g d
    have hgen : (h.Add g d).Generation = g := by
      rw [h2]; split <;> omega
    have hprev : (h.Add g d).PrevGeneration < (h.Add g d).Generation := by
      rw [h2, h3]; split <;> omega
    have := ih (h.Add g d) G hprev (by rw [hgen]; exact hch)
    simp only [applyAdds, List.foldl_cons] at this ⊢
    refine this.trans ?_
    rw [hgen, h1, if_pos hlt, h4]
    simp only [weightedSum]
    have e1 : wrap64 (h.Total + (g - h.Generation) * h.Value) ≡
        h.Total + h.Value * (g - h.Generation) [ZMOD 18446744073709551616] := by
      rw [mul_comm]; exact wrap64_modEq _
    have e2 := weightedSum_modEq rest g (wrap64 (h.Value + d)) (h.Value + d) G (wrap64_modEq _)
    have := e1.add e2
    rw [add_assoc] at this
    exact this

theorem integrate_new_applyAdds (g0 v0 : Int) (adds : List (Int × Int)) (G : Int)
    (hg0 : 1 ≤ g0)
    (hmono : List.Chain' (· ≤ ·) (g0 :: adds.map Prod.fst ++ [G])) :
    ((applyAdds (NewHistoryValue g0 v0) adds).Integrate G).Value
        = wrap64 (weightedSum g0 v0 adds G) := by
  have hch : List.Chain (· ≤ ·) g0 (adds.map Prod.fst) := by
    have h' : List.Chain' (· ≤ ·) ((g0 :: adds.map Prod.fst) ++ [G]) := by simpa using hmono
    simpa [List.Chain'] using h'.left_of_append
  have key := integrate_applyAdds_modEq adds (NewHistoryValue g0 v0) G
    (by simp [NewHistoryValue]; omega) (by simpa [NewHistoryValue] using hch)
  simp only [NewHistoryValue, zero_add] at key
  exact eq_wrap64_of_modEq (integrate_value_inInt64 _ G) key

/-- C3. Averaging law: for a cell created by `NewHistoryValue(g0, v0)` with
`g0 ≥ 1`, calls `Add(g1, d1)`, ..., `Add(gk, dk)` with `g0 ≤ g1 ≤ ... ≤ gk` and
`G ≥ gk`, the `Value` after `Integrate(G)` is the sum over `i = 0..k` of
`v_i * (g_{i+1} - g_i)`, where `v_i = v0 + d1 + ... + di` and `g_{k+1} = G`
(`weightedSum`). The equality is that of `int64` arithmetic: `Value` is the exact
sum reduced by `wrap64`, and the exact sum itself whenever it lies in the range
of `int64`. -/
theorem averaging_law (g0 v0 : Int) (adds : List (Int × Int)) (G : Int)
    (hg0 : 1 ≤ g0)
    (hmono : List.Chain' (· ≤ ·) (g0 :: adds.map Prod.fst ++ [G])) :
    ((applyAdds (NewHistoryValue g0 v0) adds).Integrate G).Value
        = wrap64 (weightedSum g0 v0 adds G)
    ∧ (inInt64 (weightedSum g0 v0 adds G) →
        ((applyAdds (NewHistoryValue g0 v0) adds).Integrate G).Value
          = weightedSum g0 v0 adds G) := by
  have hv := integrate_new_applyAdds g0 v0 adds G hg0 hmono
  refine ⟨hv, fun hr => ?_⟩
  rw [hv, wrap64_of_inInt64 hr]

/-- The scenario of the specification: a cell created at generation 3 with value
2, `Add(5, 1)`, `Add(7, -4)`, `Integrate(10)` gives 7. -/
theorem averaging_law_witness :
    ((applyAdds (NewHistoryValue 3 2) [(5, 1), (7, -4)]).Integrate 10).Value = 7 := by
  have h := (averaging_law 3 2 [(5, 1), (7, -4)] 10 (by decide) (by simp)).2 (by decide)
  rw [h]; decide

theorem sum_map_range_const (c : Int) (n : Nat) (f : Nat → Int) (hf : ∀ i, i < n → f i = c) :
    ((List.range n).map f).sum = c * n := by
  induction n with
  | zero => simp
  | succ n ih =>
    rw [List.range_succ, List.map_append, List.sum_append, ih (fun i hi => hf i (by omega))]
    simp [hf n (by omega)]
    ring

theorem sumValues_split (v0 : Int) (adds : List (Int × Int)) (lo mid hi : Int)
    (h1 : lo ≤ mid) (h2 : mid ≤ hi) :
    sumValues v0 adds lo hi = sumValues v0 adds lo mid + sumValues v0 adds mid hi := by
  unfold sumValues
  have e : (hi - lo).toNat = (mid - lo).toNat + (hi - mid).toNat := by omega
  rw [e, List.range_add, List.map_append, List.sum_append, List.map_map]
  congr 2
  apply List.map_congr_left
  intro i _
  simp only [Function.comp]
  congr 1
  push_cast
  rw [Int.toNat_of_nonneg (by omega)]
  ring

theorem valueAt_cons_lt (v0 g1 d1 : Int) (rest : List (Int × Int)) (g : Int)
    (hlt : g < g1) (hall : ∀ x ∈ rest.map Prod.fst, g1 ≤ x) :
    valueAt v0 ((g1, d1) :: rest) g = v0 := by
  unfold valueAt
  have : ((g1, d1) :: rest).filter (fun p => decide (p.1 ≤ g)) = [] := by
    rw [List.filter_eq_nil_iff]
    intro p hp
    simp only [List.mem_cons] at hp
    rcases hp with rfl | hp
    · simp; omega
    · have := hall p.1 (List.mem_map_of_mem _ hp)
      simp; omega
  rw [this]; simp

theorem valueAt_cons_ge (v0 g1 d1 : Int) (rest : List (Int × Int)) (g : Int)
    (hge : g1 ≤ g) :
    valueAt v0 ((g1, d1) :: rest) g = valueAt (v0 + d1) rest g := by
  unfold valueAt
  rw [List.filter_cons_of_pos (by simpa using hge)]
  simp only [List.map_cons, List.sum_cons]
  ring

theorem sumValues_congr (v0 v1 : Int) (a0 a1 : List (Int × Int)) (lo hi : Int)
    (h : ∀ g, lo ≤ g → g < hi → valueAt v0 a0 g = valueAt v1 a1 g) :
    sumValues v0 a0 lo hi = sumValues v1 a1 lo hi := by
  unfold sumValues
  congr 1
  apply List.map_congr_left
  intro i hi'
  rw [List.mem_range] at hi'
  apply h <;> omega

/-- The sum over the periods is the sum over the generations `g0 ≤ g < G`. -/
theorem weightedSum_eq_sumValues (adds : List (Int × Int)) :
    ∀ (g0 v0 G : Int), List.Pairwise (· ≤ ·) (g0 :: adds.map Prod.fst ++ [G]) →
      weightedSum g0 v0 adds G = sumValues v0 adds g0 G := by
  induction adds with
  | nil =>
    intro g0 v0 G hp
    simp only [List.map_nil, List.cons_append, List.nil_append, List.pairwise_cons,
      List.mem_singleton, forall_eq] at hp
    simp only [weightedSum, sumValues]
    rw [sum_map_range_const v0 _ _ (fun i _ => by simp [valueAt])]
    rw [Int.toNat_of_nonneg (by omega)]
  | cons p rest ih =>
    intro g0 v0 G hp
    obtain ⟨g1, d1⟩ := p
    simp only [List.map_cons, List.cons_append, List.pairwise_cons] at hp
    obtain ⟨hg0, hg1, hrest⟩ := hp
    have h01 : g0 ≤ g1 := hg0 g1 (by simp)
    have h1G : g1 ≤ G := hg1 G (by simp)
    have hall : ∀ x ∈ rest.map Prod.fst, g1 ≤ x := fun x hx => hg1 x (by simp [hx])
    simp only [weightedSum]
    rw [ih g1 (v0 + d1) G (by simp only [List.cons_append, List.pairwise_cons]; exact ⟨hg1, hrest⟩)]
    rw [sumValues_split v0 _ g0 g1 G h01 h1G]
    congr 1
    · unfold sumValues
      rw [sum_map_range_const v0 _ _
        (fun i hi => valueAt_cons_lt v0 g1 d1 rest _ (by omega) hall)]
      rw [Int.toNat_of_nonneg (by omega)]
    · exact (sumValues_congr _ _ _ _ _ _
        (fun g hlo _ => valueAt_cons_ge v0 g1 d1 rest g hlo)).symm

/-- C4, as amended. For a cell created by `NewHistoryValue(g0, v0)` with
`g0 ≥ 1` and updated by `Add` calls at non-decreasing generations from `g0` up to
`G`, the `Value` after `Integrate(G)` is the sum of `v_g` over the generations
`g0 ≤ g < G` (the upper bound `G` excluded), `v_g` being the value of the cell at
generation `g`; the sum is that of `int64` arithmetic, exact whenever it lies in
the range of `int64`. -/
theorem averaging_law_generations (g0 v0 : Int) (adds : List (Int × Int)) (G : Int)
    (hg0 : 1 ≤ g0)
    (hmono : List.Chain' (· ≤ ·) (g0 :: adds.map Prod.fst ++ [G])) :
    ((applyAdds (NewHistoryValue g0 v0) adds).Integrate G).Value
        = wrap64 (sumValues v0 adds g0 G)
    ∧ (inInt64 (sumValues v0 adds g0 G) →
        ((applyAdds (NewHistoryValue g0 v0) adds).Integrate G).Value
          = sumValues v0 adds g0 G) := by
  have hp : List.Pairwise (· ≤ ·) (g0 :: adds.map Prod.fst ++ [G]) :=
    List.chain'_iff_pairwise.mp hmono
  have hv := integrate_new_applyAdds g0 v0 adds G hg0 hmono
  rw [weightedSum_eq_sumValues adds g0 v0 G hp] at hv
  refine ⟨hv, fun hr => ?_⟩
  rw [hv, wrap64_of_inInt64 hr]

/-- The scenario of the specification, as a sum over the generations 3 to 9. -/
theorem averaging_law_generations_witness :
    ((applyAdds (NewHistoryValue 3 2) [(5, 1), (7, -4)]).Integrate 10).Value
      = sumValues 2 [(5, 1), (7, -4)] 3 10 :=
  (averaging_law_generations 3 2 [(5, 1), (7, -4)] 10 (by decide) (by simp)).2
    (by constructor <;> decide)

/-- C4, as stated, fails on the scenario of the specification: `Integrate(10)`
gives 7, while the sum of `v_g` over the generations 3 to 10, both included,
is 6. -/
theorem averaging_inclusive_counterexample :
    ((applyAdds (NewHistoryValue 3 2) [(5, 1), (7, -4)]).Integrate 10).Value = 7
    ∧ sumValues 2 [(5, 1), (7, -4)] 3 (10 + 1) = 6
    ∧ ((applyAdds (NewHistoryValue 3 2) [(5, 1), (7, -4)]).Integrate 10).Value
        ≠ sumValues 2 [(5, 1), (7, -4)] 3 (10 + 1) := by decide

/-! ## Scoring, division and serialisation -/

/-- C5, at the failing input. The sparse model reached by `MakeAvgSparse(false)`,
`Deserialize({f: [1]}, 0)` and `Add(1, 5, f, 3)` holds for `f` a `LockedMap` with a
cell of `Value` 3 under key 5, yet `Value(5, f)` is 0: the map has two entries,
so the guard `transition < transitions.Len()` fails for key 5. The same calls on a
dense model give `Value(5, f) = 3`. -/
theorem Value_misses_sparse_cell :
    ((MakeAvgSparse String false).Deserialize (some [("f", [1])]) 0).panic = none
    ∧ (((MakeAvgSparse String false).Deserialize (some [("f", [1])]) 0).state.Add 1 5 "f" 3)
        = ⟨none, ⟨false, some [("f", .map ⟨[(0, some ⟨0, 0, 1, 0⟩), (5, some ⟨1, 0, 3, 0⟩)]⟩)]⟩⟩
    ∧ (TransitionScoreStore.map ⟨[(0, some ⟨0, 0, 1, 0⟩), (5, some ⟨1, 0, 3, 0⟩)]⟩).cell 5
        = some ⟨1, 0, 3, 0⟩
    ∧ (((MakeAvgSparse String false).Deserialize (some [("f", [1])]) 0).state.Add 1 5 "f"
        3).state.Value 5 "f" = .ok 0
    ∧ (((MakeAvgSparse String true).Deserialize (some [("f", [1])]) 0).state.Add 1 5 "f"
        3).state.Value 5 "f" = .ok 3 := by
  decide

/-- C6, at the failing input. On the sparse model reached by
`MakeAvgSparse(false)`, `Deserialize({f: [1]}, 0)` and `Add(1, 5, f, 3)`, `Serialize`
panics: it allocates `Len() = 2` scores for `f` and then writes `scores[5]`. The
same calls on a dense model serialise to `{f: [1, 0, 0, 0, 0, 3]}`. -/
theorem Serialize_fails_sparse :
    (((MakeAvgSparse String false).Deserialize (some [("f", [1])]) 0).state.Add 1 5 "f" 3)
        = ⟨none, ⟨false, some [("f", .map ⟨[(0, some ⟨0, 0, 1, 0⟩), (5, some ⟨1, 0, 3, 0⟩)]⟩)]⟩⟩
    ∧ (((MakeAvgSparse String false).Deserialize (some [("f", [1])]) 0).state.Add 1 5 "f"
        3).state.Serialize = .error indexOutOfRange
    ∧ (((MakeAvgSparse String true).Deserialize (some [("f", [1])]) 0).state.Add 1 5 "f"
        3).state.Serialize = .ok [("f", [1, 0, 0, 0, 0, 3])] := by
  decide

/-- C7, at the failing input. `Add(1, 1, f, 5)` on an empty model creates for `f`
a dense store whose slot 0 is nil; `UpdateScalarDivide(2)` then panics on the nil
slot, which `LockedArray.Each` hands to the callback, and divides no cell. -/
theorem UpdateScalarDivide_fails_on_nil_slot :
    (MakeAvgSparse String false).Add 1 1 "f" 5
        = ⟨none, ⟨false, some [("f", .array ⟨[none, some ⟨1, 0, 5, 0⟩]⟩)]⟩⟩
    ∧ ((MakeAvgSparse String false).Add 1 1 "f" 5).state.UpdateScalarDivide 2
        = ⟨some nilDereference, ⟨false, some [("f", .array ⟨[none, some ⟨1, 0, 5, 0⟩]⟩)]⟩⟩ := by
  decide

/-- C8. For every model, `UpdateScalarDivide(0)` panics with `Divide by 0` and
leaves the model unchanged: the test precedes every access to a cell. -/
theorem UpdateScalarDivide_zero {F : Type} (v : AvgSparse F) :
    v.UpdateScalarDivide 0 = ⟨some "Divide by 0", v⟩ := by
  simp [AvgSparse.UpdateScalarDivide]

/-! ## Deserialisation -/

theorem mapSet_of_not_mem {K V : Type} [DecidableEq K] (m : List (K × V)) (k : K) (v : V)
    (h : k ∉ mapKeys m) : mapSet m k v = m ++ [(k, v)] := by
  induction m with
  | nil => rfl
  | cons p rest ih =>
    obtain ⟨k', v'⟩ := p
    simp only [mapKeys, List.map_cons, List.mem_cons, not_or] at h
    simp only [mapSet]
    rw [if_neg (fun e => h.1 e.symm), ih h.2]
    rfl

theorem mapGet_map_snd {K V W : Type} [DecidableEq K] (m : List (K × V)) (f : K → V → W) (k : K) :
    mapGet (m.map (fun p => (p.1, f p.1 p.2))) k = (mapGet m k).map (f k) := by
  induction m with
  | nil => rfl
  | cons p rest ih =>
    obtain ⟨k', v'⟩ := p
    simp only [List.map_cons, mapGet]
    split
    · next h => subst h; rfl
    · exact ih

/-- Dense store: filling the slots from `pre.length` on. -/
theorem deserializeStore_array (generation : Int) (rest : List Int) :
    ∀ (pre : List (Option HistoryValue)),
      deserializeStore generation rest pre.length
          (.array ⟨pre ++ List.replicate rest.length none⟩)
        = .ok (.array ⟨pre ++ rest.map (fun value => some (NewHistoryValue generation value))⟩) := by
  induction rest with
  | nil => intro pre; simp [deserializeStore]
  | cons value rest ih =>
    intro pre
    simp only [deserializeStore, TransitionScoreStore.SetValue, LockedArray.SetValue, sliceSet]
    have hlt : (0 : Int) ≤ (pre.length : Int) ∧
        (pre.length : Int).toNat < (pre ++ List.replicate (value :: rest).length none).length := by
      simp
    rw [if_pos hlt]
    have hset : (pre ++ List.replicate (value :: rest).length (none : Option HistoryValue)).set
        (pre.length : Int).toNat (some (NewHistoryValue generation value))
        = (pre ++ [some (NewHistoryValue generation value)]) ++ List.replicate rest.length none := by
      simp [List.replicate_succ]
    simp only [Except.map, hset]
    have := ih (pre ++ [some (NewHistoryValue generation value)])
    simp only [List.length_append, List.length_singleton, Nat.cast_add, Nat.cast_one,
      List.append_assoc, List.singleton_append] at this
    simpa using this

/-- Sparse store: adding the keys from `i` on to a map whose keys are below `i`. -/
theorem deserializeStore_map (generation : Int) (rest : List Int) :
    ∀ (i : Int) (m : List (Int × Option HistoryValue)), (∀ k ∈ mapKeys m, k < i) →
      deserializeStore generation rest i (.map ⟨m⟩)
        = .ok (.map ⟨m ++ sparseCells generation rest i⟩) := by
  induction rest with
  | nil => intro i m _; simp [deserializeStore, sparseCells]
  | cons value rest ih =>
    intro i m hm
    simp only [deserializeStore, TransitionScoreStore.SetValue, LockedMap.SetValue]
    rw [mapSet_of_not_mem m i _ (fun h => lt_irrefl _ (hm i h))]
    rw [ih (i + 1)]
    · simp [sparseCells]
    · intro k hk
      simp only [mapKeys, List.map_append, List.map_cons, List.map_nil, List.mem_append,
        List.mem_singleton] at hk
      rcases hk with hk | rfl
      · have := hm k hk; omega
      · omega

theorem deserializeStore_new {F : Type} (v : AvgSparse F) (generation : Int) (datav : List Int) :
    ∃ s0, v.newTransitionScoreStore datav.length = .ok s0 ∧
      deserializeStore generation datav 0 s0 = .ok (restoredStore v.Dense generation datav) := by
  unfold AvgSparse.newTransitionScoreStore restoredStore
  cases hd : v.Dense
  · refine ⟨_, rfl, ?_⟩
    have := deserializeStore_map generation datav 0 [] (by simp [mapKeys])
    simpa using this
  · refine ⟨.array ⟨List.replicate datav.length none⟩, ?_, ?_⟩
    · simp [makeSlice, Except.map]
    · have := deserializeStore_array generation datav []
      simpa using this


theorem sparseCells_get (generation : Int) (rest : List Int) :
    ∀ (start : Int) (j : Nat) (hj : j < rest.length),
      mapGet (sparseCells generation rest start) (start + j)
        = some (some (NewHistoryValue generation rest[j])) := by
  induction rest with
  | nil => intro start j hj; simp at hj
  | cons value rest ih =>
    intro start j hj
    cases j with
    | zero => simp [sparseCells, mapGet]
    | succ j =>
      simp only [sparseCells, mapGet]
      rw [if_neg (by push_cast; omega)]
      have := ih (start + 1) j (by simpa using hj)
      simp only [List.getElem_cons_succ]
      rw [← this]
      congr 1
      push_cast; ring

theorem sparseCells_length (generation : Int) (rest : List Int) :
    ∀ (start : Int), (sparseCells generation rest start).length = rest.length := by
  induction rest with
  | nil => intro _; rfl
  | cons value rest ih => intro start; simp [sparseCells, ih]

theorem restoredStore_get (dense : Bool) (generation : Int) (datav : List Int) (i : Nat)
    (hi : i < datav.length) :
    (restoredStore dense generation datav).GetValue i
        = .ok (some ⟨generation, 0, datav[i], 0⟩)
    ∧ (restoredStore dense generation datav).cell i = some ⟨generation, 0, datav[i], 0⟩ := by
  unfold restoredStore
  cases dense
  · have h := sparseCells_get generation datav 0 i hi
    simp only [zero_add] at h
    simp [TransitionScoreStore.GetValue, LockedMap.GetValue, TransitionScoreStore.cell, h,
      NewHistoryValue]
  · simp [TransitionScoreStore.GetValue, LockedArray.GetValue, TransitionScoreStore.cell,
      sliceGet, hi, NewHistoryValue]

theorem restoredStore_Len (dense : Bool) (generation : Int) (datav : List Int) :
    (restoredStore dense generation datav).Len = datav.length := by
  unfold restoredStore
  cases dense <;>
    simp [TransitionScoreStore.Len, LockedMap.Len, LockedArray.Len, sparseCells_length]

theorem deserializeLoop_eq {F : Type} [DecidableEq F] (generation : Int)
    (s : List (F × List Int)) :
    ∀ (dense : Bool) (m : List (F × TransitionScoreStore)),
      (mapKeys s).Nodup → (∀ k ∈ mapKeys s, k ∉ mapKeys m) →
      deserializeLoop generation s ⟨dense, some m⟩
        = ⟨none, ⟨dense, some (m ++
            s.map (fun p => (p.1, restoredStore dense generation p.2)))⟩⟩ := by
  induction s with
  | nil => intro dense m _ _; simp [deserializeLoop]
  | cons p rest ih =>
    intro dense m hnd hdis
    obtain ⟨k, datav⟩ := p
    simp only [mapKeys, List.map_cons, List.nodup_cons, List.mem_cons, forall_eq_or_imp] at hnd hdis
    obtain ⟨s0, h0, h1⟩ := deserializeStore_new (⟨dense, some m⟩ : AvgSparse F) generation datav
    simp only [deserializeLoop, h0, h1, AvgSparse.entries, Option.getD_some]
    rw [mapSet_of_not_mem _ _ _ hdis.1]
    rw [ih dense _ hnd.2]
    · simp
    · intro k' hk'
      simp only [mapKeys, List.map_append, List.map_cons,
        List.map_nil, List.mem_append, List.mem_singleton, not_or]
      refine ⟨hdis.2 k' hk', ?_⟩
      rintro rfl
      exact hnd.1 hk'

theorem Deserialize_eq {F : Type} [DecidableEq F] (v : AvgSparse F) (s : List (F × List Int))
    (g : Int) (hs : (mapKeys s).Nodup) :
    v.Deserialize (some s) g
      = ⟨none, ⟨v.Dense, some (s.map (fun p => (p.1, restoredStore v.Dense g p.2)))⟩⟩ := by
  unfold AvgSparse.Deserialize
  simp only
  rw [deserializeLoop_eq g s v.Dense [] hs (by simp [mapKeys])]
  simp

/-- C9. For every serialised map `s` (a map: its keys are pairwise distinct) and
every generation `g`, in dense and in sparse mode and whatever the model held
before, `Deserialize(s, g)` returns normally and leaves a model whose features are
exactly those of `s`: a feature absent from `s` is absent from the model, and
for each feature `f` of `s` and each index `i < len(s[f])` the store of `f` holds
a cell with `Value = s[f][i]`, `Generation = g`, `PrevGeneration = 0` and
`Total = 0`, which `GetValue(i)` returns. -/
theorem Deserialize_spec {F : Type} [DecidableEq F] (v : AvgSparse F) (s : List (F × List Int))
    (g : Int) (hs : (mapKeys s).Nodup) :
    (v.Deserialize (some s) g).panic = none
    ∧ (v.Deserialize (some s) g).state.Dense = v.Dense
    ∧ mapKeys (v.Deserialize (some s) g).state.entries = mapKeys s
    ∧ (∀ f, mapGet s f = none → mapGet (v.Deserialize (some s) g).state.entries f = none)
    ∧ (∀ f datav, mapGet s f = some datav →
        ∃ store, mapGet (v.Deserialize (some s) g).state.entries f = some store
          ∧ store.Len = datav.length
          ∧ ∀ (i : Nat) (hi : i < datav.length),
              store.GetValue i = .ok (some ⟨g, 0, datav[i], 0⟩)
              ∧ store.cell i = some ⟨g, 0, datav[i], 0⟩) := by
  rw [Deserialize_eq v s g hs]
  have hget : ∀ f, mapGet (s.map (fun p => (p.1, restoredStore v.Dense g p.2))) f
      = (mapGet s f).map (restoredStore v.Dense g) :=
    fun f => mapGet_map_snd s (fun _ d => restoredStore v.Dense g d) f
  refine ⟨rfl, rfl, ?_, ?_, ?_⟩
  · simp [AvgSparse.entries, mapKeys, Function.comp]
  · intro f hf
    simp only [AvgSparse.entries, Option.getD_some]
    rw [hget, hf]; rfl
  · intro f datav hf
    refine ⟨restoredStore v.Dense g datav, ?_, restoredStore_Len _ _ _, ?_⟩
    · simp only [AvgSparse.entries, Option.getD_some]
      rw [hget, hf]; rfl
    · intro i hi
      exact restoredStore_get v.Dense g datav i hi

/-- An instance of C9: a sparse model rebuilt from two features at generation 9. -/
theorem Deserialize_spec_witness :
    ((MakeAvgSparse String false).Deserialize (some [("f", [4, 7]), ("g", [])]) 9).state
      = ⟨false, some [("f", .map ⟨[(0, some ⟨9, 0, 4, 0⟩), (1, some ⟨9, 0, 7, 0⟩)]⟩),
          ("g", .map ⟨[]⟩)]⟩
    ∧ mapKeys ((MakeAvgSparse String false).Deserialize
        (some [("f", [4, 7]), ("g", [])]) 9).state.entries = ["f", "g"] :=
  ⟨by decide,
    (Deserialize_spec (MakeAvgSparse String false) [("f", [4, 7]), ("g", [])] 9
      (by decide)).2.2.1⟩

end featurevector

/-! # Properties of the morphological configuration -/

namespace Morph

theorem pushLatticeIndexes_eq (n : Nat) :
    ∀ (l : List Int), pushLatticeIndexes n ⟨l⟩ = ⟨l ++ (List.iota n).map Int.ofNat⟩ := by
  induction n with
  | zero => intro l; simp [pushLatticeIndexes, List.iota]
  | succ n ih =>
    intro l
    simp only [pushLatticeIndexes, StackArray.Push, ih, List.iota, List.map_cons,
      List.append_assoc, List.singleton_append]
    rfl

theorem getLast_iota (n : Nat) : ((List.iota (n + 1)).map Int.ofNat).getLast? = some 1 := by
  induction n with
  | zero => rfl
  | succ n ih =>
    rw [List.iota, List.map_cons]
    rw [List.iota, List.map_cons] at ih ⊢
    rw [List.getLast?_cons_cons]
    exact ih

theorem Init_eq (m : MorphConfiguration) (MaxPathLen : Lattice → Int) (sent : List Lattice)
    (hcap : 1 ≤ sumMaxPathLen MaxPathLen (rootLattice :: sent) 0) :
    m.Init MaxPathLen (some sent) =
      ⟨none,
        { toSimpleConfiguration :=
            { InternalStack := some ⟨[0]⟩, InternalQueue := some ⟨[]⟩,
              InternalArcs := some ⟨[]⟩, Last := "", InternalPrevious := none, Pointers := 0 }
          LatticeQueue := some ⟨(List.iota sent.length).map Int.ofNat⟩
          Lattices := rootLattice :: sent
          Mappings := [⟨"ROOT", [rootMorpheme]⟩]
          MorphNodes := [rootMorpheme]
          MorphPrevious := none }⟩ := by
  have hnot : ¬ sumMaxPathLen MaxPathLen (rootLattice :: sent) 0 < 1 := by omega
  have hq : pushLatticeIndexes sent.length (NewStackArray sent.length)
      = ⟨(List.iota sent.length).map Int.ofNat⟩ := by
    simpa [NewStackArray] using pushLatticeIndexes_eq sent.length []
  simp only [MorphConfiguration.Init, if_neg hnot, hq]
  rfl

/-- C10. For every lattice sentence of `N` lattices for which the storage size
computed by `Init`, the sum of `MaxPathLen` over the ROOT lattice and the
sentence, is at least the initial length 1 of `MorphNodes`, `Init` returns
normally with: `Lattices` of length `N + 1`, the ROOT lattice followed by the
lattices of the sentence in order; `MorphNodes = [ROOT morpheme]`; `Stack = [0]`;
`Queue` and `Arcs` empty; `LatticeQueue` holding `N, N-1, ..., 1` in the order of
the pushes, so that 1 is on top when `N > 0`; `Mappings` holding the one mapping
of the token ROOT to the ROOT morpheme; `Last` empty; no previous configuration;
`Pointers = 0`. -/
theorem Init_spec (m : MorphConfiguration) (MaxPathLen : Lattice → Int) (sent : List Lattice)
    (hcap : 1 ≤ sumMaxPathLen MaxPathLen (rootLattice :: sent) 0) :
    (m.Init MaxPathLen (some sent)).panic = none
    ∧ (m.Init MaxPathLen (some sent)).state.Lattices.length = sent.length + 1
    ∧ (m.Init MaxPathLen (some sent)).state.Lattices = rootLattice :: sent
    ∧ (m.Init MaxPathLen (some sent)).state.MorphNodes = [rootMorpheme]
    ∧ (m.Init MaxPathLen (some sent)).state.toSimpleConfiguration.InternalStack = some ⟨[0]⟩
    ∧ (m.Init MaxPathLen (some sent)).state.toSimpleConfiguration.InternalQueue = some ⟨[]⟩
    ∧ (m.Init MaxPathLen (some sent)).state.toSimpleConfiguration.InternalArcs = some ⟨[]⟩
    ∧ (m.Init MaxPathLen (some sent)).state.LatticeQueue
        = some ⟨(List.iota sent.length).map Int.ofNat⟩
    ∧ (0 < sent.length →
        (m.Init MaxPathLen (some sent)).state.LatticeQueue.bind StackArray.Peek = some 1)
    ∧ (m.Init MaxPathLen (some sent)).state.Mappings = [⟨"ROOT", [rootMorpheme]⟩]
    ∧ (m.Init MaxPathLen (some sent)).state.toSimpleConfiguration.Last = ""
    ∧ (m.Init MaxPathLen (some sent)).state.toSimpleConfiguration.InternalPrevious = none
    ∧ (m.Init MaxPathLen (some sent)).state.MorphPrevious = none
    ∧ (m.Init MaxPathLen (some sent)).state.toSimpleConfiguration.Pointers = 0 := by
  rw [Init_eq m MaxPathLen sent hcap]
  refine ⟨rfl, by simp, rfl, rfl, rfl, rfl, rfl, rfl, ?_, rfl, rfl, rfl, rfl, rfl⟩
  intro hpos
  obtain ⟨n, hn⟩ : ∃ n, sent.length = n + 1 := ⟨sent.length - 1, by omega⟩
  simp only [Option.some_bind, StackArray.Peek, hn]
  exact getLast_iota n

/-- An instance of C10: a sentence of two lattices, the storage size being the
number of morphemes. -/
theorem Init_spec_witness :
    (NewMorphConfiguration.Init (fun lat => lat.Morphemes.length)
        (some [⟨"dogs", [⟨(0, 0, 1), "dogs", "NOUN", "NOUN", none, 0⟩], none⟩,
          ⟨"bark", [⟨(1, 1, 2), "bark", "VERB", "VERB", none, 1⟩], none⟩])).state.LatticeQueue
      = some ⟨[2, 1]⟩ :=
  (Init_spec NewMorphConfiguration (fun lat => lat.Morphemes.length)
    [⟨"dogs", [⟨(0, 0, 1), "dogs", "NOUN", "NOUN", none, 0⟩], none⟩,
      ⟨"bark", [⟨(1, 1, 2), "bark", "VERB", "VERB", none, 1⟩], none⟩] (by decide)).2.2.2.2.2.2.2.1

end Morph


/-! # Properties of the operations on the configuration -/

namespace Morph

/-- C11. For every configuration `c` whose `LatticeQueue` and `Queue` are
initialised (not nil), `Terminal()` returns, and returns true exactly when the
`LatticeQueue` has size 0 and the `Queue` has size 0; hence the configuration
`Init` produces on a sentence of `N` lattices (the storage size it computes being
at least 1) is terminal exactly when `N = 0`. -/
theorem Terminal_iff (c : MorphConfiguration) (latticeQueue queue : StackArray)
    (hl : c.LatticeQueue = some latticeQueue)
    (hq : c.toSimpleConfiguration.InternalQueue = some queue) :
    c.Terminal = .ok (decide (latticeQueue.Size = 0 ∧ queue.Size = 0))
    ∧ (c.Terminal = .ok true ↔ latticeQueue.Size = 0 ∧ queue.Size = 0)
    ∧ (∀ (m : MorphConfiguration) (MaxPathLen : Lattice → Int) (sent : List Lattice),
        1 ≤ sumMaxPathLen MaxPathLen (rootLattice :: sent) 0 →
        ((m.Init MaxPathLen (some sent)).state.Terminal = .ok (decide (sent.length = 0))
          ∧ ((m.Init MaxPathLen (some sent)).state.Terminal = .ok true ↔ sent.length = 0))) := by
  have h1 : c.Terminal = .ok (decide (latticeQueue.Size = 0 ∧ queue.Size = 0)) := by
    simp only [MorphConfiguration.Terminal, hl, SimpleConfiguration.Queue, hq]
    by_cases h0 : latticeQueue.Size = 0 <;> simp [h0]
  refine ⟨h1, ?_, ?_⟩
  · rw [h1]; simp
  · intro m MaxPathLen sent hcap
    have h2 : (m.Init MaxPathLen (some sent)).state.Terminal
        = .ok (decide (sent.length = 0)) := by
      rw [Init_eq m MaxPathLen sent hcap]
      simp only [MorphConfiguration.Terminal, SimpleConfiguration.Queue, StackArray.Size]
      cases sent with
      | nil => simp [List.iota]
      | cons a rest => simp [List.iota]; omega
    refine ⟨h2, ?_⟩
    rw [h2]; simp

/-- An instance of C11: a configuration with an empty lattice queue and one node
in the queue is not terminal. -/
theorem Terminal_iff_witness :
    MorphConfiguration.Terminal
        ⟨⟨some ⟨[0]⟩, some ⟨[1]⟩, some ⟨[]⟩, "", none, 0⟩, some ⟨[]⟩, [], [], [], none⟩
      = .ok false :=
  (Terminal_iff ⟨⟨some ⟨[0]⟩, some ⟨[1]⟩, some ⟨[]⟩, "", none, 0⟩, some ⟨[]⟩, [], [], [], none⟩
    ⟨[]⟩ ⟨[1]⟩ rfl rfl).1

theorem getSequenceLoop_append_left (c : MorphConfiguration) (retval : List MorphConfiguration) :
    ∀ (r : List MorphConfiguration),
      getSequenceLoop c (r ++ retval) = r ++ getSequenceLoop c retval := by
  induction c, retval using getSequenceLoop.induct with
  | case1 s q l ms ns retval => intro r; simp [getSequenceLoop]
  | case2 s q l ms ns p retval ih =>
    intro r
    rw [getSequenceLoop, getSequenceLoop, List.append_assoc, ih]

theorem getSequenceLoop_append (c : MorphConfiguration) (retval : List MorphConfiguration) :
    getSequenceLoop c retval = retval ++ getSequenceLoop c [] := by
  have := getSequenceLoop_append_left c [] retval
  simpa using this

theorem getSequenceLoop_of_previous (c p : MorphConfiguration) (h : c.MorphPrevious = some p) :
    getSequenceLoop c [] = c :: getSequenceLoop p [] := by
  obtain ⟨s, q, l, ms, ns, prev⟩ := c
  simp only at h
  subst h
  rw [getSequenceLoop, getSequenceLoop_append]
  simp

theorem getSequenceLoop_of_no_previous (c : MorphConfiguration) (h : c.MorphPrevious = none) :
    getSequenceLoop c [] = [c] := by
  obtain ⟨s, q, l, ms, ns, prev⟩ := c
  simp only at h
  subst h
  simp [getSequenceLoop]

theorem Copy_ok (c c' : MorphConfiguration) (h : c.Copy = .ok c') :
    c'.MorphPrevious = some c
    ∧ c'.toSimpleConfiguration.InternalArcs = c.toSimpleConfiguration.InternalArcs.map ArcSetSimple.Copy
    ∧ c'.Mappings = c.Mappings ∧ c'.MorphNodes = c.MorphNodes
    ∧ c'.LatticeQueue = c.LatticeQueue ∧ c'.Lattices = c.Lattices := by
  unfold MorphConfiguration.Copy at h
  simp only at h
  split at h
  · cases h
  · injection h with h
    subst h
    refine ⟨rfl, rfl, rfl, rfl, ?_, rfl⟩
    cases hq : c.LatticeQueue <;> simp [StackArray.Copy]

theorem copyChain_head (k : Nat) (c : MorphConfiguration) :
    copyChain k c = c :: (copyChain k c).tail := by
  cases k with
  | zero => rfl
  | succ k =>
    simp only [copyChain]
    cases c.Copy <;> rfl

theorem copySteps_sequence (k : Nat) :
    ∀ (c0 c : MorphConfiguration), copySteps k c0 = .ok c →
      getSequenceLoop c [] = (copyChain k c0).tail.reverse ++ getSequenceLoop c0 []
      ∧ (c.toSimpleConfiguration.InternalArcs.isSome
          = c0.toSimpleConfiguration.InternalArcs.isSome)
      ∧ (copyChain k c0).length = k + 1 := by
  induction k with
  | zero =>
    intro c0 c h
    simp only [copySteps, Except.ok.injEq] at h
    subst h
    simp [copyChain]
  | succ k ih =>
    intro c0 c h
    simp only [copySteps] at h
    cases hc : c0.Copy with
    | error e => rw [hc] at h; cases h
    | ok c1 =>
      rw [hc] at h
      obtain ⟨hseq, harcs, hlen⟩ := ih c1 c h
      obtain ⟨hprev, ha, -⟩ := Copy_ok c0 c1 hc
      refine ⟨?_, ?_, ?_⟩
      · rw [hseq, getSequenceLoop_of_previous c1 c0 hprev]
        simp only [copyChain, hc, List.tail_cons]
        rw [copyChain_head k c1]
        simp
      · rw [harcs, ha]; simp
      · simp [copyChain, hc, hlen]

/-- C12, as amended. For every configuration `c` reached from the configuration
`c0` that `Init` yields by `k ≥ 0` successive calls of `Copy`, `GetSequence()` on
`c` returns the `k + 1` configurations of the chain ordered newest-to-oldest:
the reverse of the chain `c0, ..., c`, so that its first element is `c` and its
last element is `c0`. -/
theorem GetSequence_newest_first (m : MorphConfiguration) (MaxPathLen : Lattice → Int)
    (sent : List Lattice) (k : Nat) (c : MorphConfiguration)
    (hcap : 1 ≤ sumMaxPathLen MaxPathLen (rootLattice :: sent) 0)
    (hc : copySteps k (m.Init MaxPathLen (some sent)).state = .ok c) :
    c.GetSequence = (copyChain k (m.Init MaxPathLen (some sent)).state).reverse
    ∧ c.GetSequence.length = k + 1
    ∧ c.GetSequence.head? = some c
    ∧ c.GetSequence.getLast? = some (m.Init MaxPathLen (some sent)).state := by
  obtain ⟨hseq, harcs, hlen⟩ := copySteps_sequence k _ c hc
  have h0 := Init_eq m MaxPathLen sent hcap
  have hprev0 : (m.Init MaxPathLen (some sent)).state.MorphPrevious = none := by rw [h0]
  have harcs0 : (m.Init MaxPathLen (some sent)).state.toSimpleConfiguration.InternalArcs.isSome
      = true := by rw [h0]; rfl
  rw [getSequenceLoop_of_no_previous _ hprev0] at hseq
  have hG : c.GetSequence = getSequenceLoop c [] := by
    unfold MorphConfiguration.GetSequence SimpleConfiguration.Arcs
    rw [harcs0] at harcs
    cases ha : c.toSimpleConfiguration.InternalArcs with
    | none => rw [ha] at harcs; cases harcs
    | some a => rfl
  have hrev : getSequenceLoop c [] = (copyChain k (m.Init MaxPathLen (some sent)).state).reverse := by
    rw [hseq]
    conv_rhs => rw [copyChain_head k]
    simp
  rw [hG, hrev]
  refine ⟨rfl, by simp [hlen], ?_, ?_⟩
  · rw [← hrev]
    cases hp : c.MorphPrevious with
    | none => rw [getSequenceLoop_of_no_previous c hp]; rfl
    | some p => rw [getSequenceLoop_of_previous c p hp]; rfl
  · rw [copyChain_head k]
    simp

/-- An instance of C12: one `Copy` after `Init` on the empty sentence gives a
sequence of two configurations. -/
theorem GetSequence_newest_first_witness :
    ∃ c, copySteps 1 (NewMorphConfiguration.Init (fun lat => lat.Morphemes.length)
        (some [])).state = .ok c
      ∧ c.GetSequence.length = 2
      ∧ c.GetSequence.getLast?
          = some (NewMorphConfiguration.Init (fun lat => lat.Morphemes.length) (some [])).state :=
  ⟨_, rfl,
    (GetSequence_newest_first NewMorphConfiguration (fun lat => lat.Morphemes.length) [] 1 _
      (by decide) rfl).2.1,
    (GetSequence_newest_first NewMorphConfiguration (fun lat => lat.Morphemes.length) [] 1 _
      (by decide) rfl).2.2.2⟩

/-- C12, as stated, fails after one `Copy`: the first element of the sequence of
the copy is the copy itself, not the configuration `Init` produced, which comes
last. -/
theorem GetSequence_oldest_first_counterexample :
    ∃ c, copySteps 1 initOfEmptySentence = .ok c
      ∧ c.GetSequence.head? = some c
      ∧ c.GetSequence.getLast? = some initOfEmptySentence
      ∧ c.GetSequence.head? ≠ some initOfEmptySentence
      ∧ c.GetSequence.getLast? ≠ some c := by
  obtain ⟨c, hcopy⟩ : ∃ c, initOfEmptySentence.Copy = .ok c := ⟨_, rfl⟩
  obtain ⟨hprev, harcs, -⟩ := Copy_ok _ _ hcopy
  have h0 : initOfEmptySentence.MorphPrevious = none := rfl
  have hne : c ≠ initOfEmptySentence := by
    intro h
    rw [h, h0] at hprev
    cases hprev
  have hseq : c.GetSequence = [c, initOfEmptySentence] := by
    have ha : c.toSimpleConfiguration.InternalArcs = some ⟨[]⟩ := by rw [harcs]; rfl
    simp only [MorphConfiguration.GetSequence, SimpleConfiguration.Arcs, ha]
    rw [getSequenceLoop_of_previous c _ hprev, getSequenceLoop_of_no_previous _ h0]
  refine ⟨c, by simp [copySteps, hcopy], by rw [hseq]; rfl, by rw [hseq]; rfl, ?_, ?_⟩
  · rw [hseq]
    intro h
    exact hne (Option.some.inj h)
  · rw [hseq]
    intro h
    exact hne (Option.some.inj h).symm

/-- C14. For every configuration `c` with `|Mappings| ≤ |Lattices|`, `Copy()`
returns a configuration whose `Mappings`, `MorphNodes` and `LatticeQueue` hold
the same elements in the same order as those of `c`, whose `Lattices` is that of
`c` and whose `MorphPrevious` is `c`; the call reads `c` and writes none of its
fields. -/
theorem Copy_spec (c : MorphConfiguration) (h : c.Mappings.length ≤ c.Lattices.length) :
    ∃ c', c.Copy = .ok c'
      ∧ c'.Mappings = c.Mappings
      ∧ c'.Mappings.length = c.Mappings.length
      ∧ c'.MorphNodes = c.MorphNodes
      ∧ c'.MorphNodes.length = c.MorphNodes.length
      ∧ c'.LatticeQueue = c.LatticeQueue
      ∧ c'.Lattices = c.Lattices
      ∧ c'.MorphPrevious = some c := by
  have hnot : ¬ c.Lattices.length < c.Mappings.length := by omega
  have hcopy : c.Copy = .ok
      { toSimpleConfiguration := c.toSimpleConfiguration.Copy
        Mappings := c.Mappings
        MorphNodes := c.MorphNodes
        LatticeQueue := c.LatticeQueue
        Lattices := c.Lattices
        MorphPrevious := some c } := by
    simp only [MorphConfiguration.Copy, if_neg hnot]
    cases hq : c.LatticeQueue <;> simp [StackArray.Copy]
  exact ⟨_, hcopy, rfl, rfl, rfl, rfl, rfl, rfl, rfl⟩

/-- An instance of C14: the copy of the configuration `Init` yields on the empty
sentence points back to it. -/
theorem Copy_spec_witness :
    ∃ c', initOfEmptySentence.Copy = .ok c'
      ∧ c'.Mappings = [⟨"ROOT", [rootMorpheme]⟩]
      ∧ c'.MorphPrevious = some initOfEmptySentence := by
  obtain ⟨c', h1, h2, -, -, -, -, -, h3⟩ := Copy_spec initOfEmptySentence (by decide)
  exact ⟨c', h1, by rw [h2]; rfl, h3⟩

/-- C15, as amended. For every two configurations `a` and `b`, the `LatticeQueue`
of `a` being initialised, `a.Equal(b)` returns, and returns true exactly when
their `Stack`, `Queue`, `Arcs`, `LatticeQueue`, `Lattices`, `Mappings` and
`MorphNodes` are deeply equal: `Lattices` is compared as well. The result is a
function of these seven fields, so `Last`, the previous pointers and `Pointers`
do not influence it. -/
theorem Equal_iff (a b : MorphConfiguration) (q : StackArray) (hq : a.LatticeQueue = some q) :
    a.Equal (.morphConfiguration b) = .ok (decide
      (a.toSimpleConfiguration.InternalStack = b.toSimpleConfiguration.InternalStack
        ∧ a.toSimpleConfiguration.InternalQueue = b.toSimpleConfiguration.InternalQueue
        ∧ a.toSimpleConfiguration.InternalArcs = b.toSimpleConfiguration.InternalArcs
        ∧ a.LatticeQueue = b.LatticeQueue
        ∧ a.Lattices = b.Lattices
        ∧ a.Mappings = b.Mappings
        ∧ a.MorphNodes = b.MorphNodes))
    ∧ (a.Equal (.morphConfiguration b) = .ok true ↔
      (a.toSimpleConfiguration.InternalStack = b.toSimpleConfiguration.InternalStack
        ∧ a.toSimpleConfiguration.InternalQueue = b.toSimpleConfiguration.InternalQueue
        ∧ a.toSimpleConfiguration.InternalArcs = b.toSimpleConfiguration.InternalArcs
        ∧ a.LatticeQueue = b.LatticeQueue
        ∧ a.Lattices = b.Lattices
        ∧ a.Mappings = b.Mappings
        ∧ a.MorphNodes = b.MorphNodes)) := by
  have hlq : q.Equal b.LatticeQueue = decide (a.LatticeQueue = b.LatticeQueue) := by
    rw [hq]
    cases hb : b.LatticeQueue with
    | none => simp [StackArray.Equal]
    | some o =>
      obtain ⟨qa⟩ := q
      obtain ⟨oa⟩ := o
      simp [StackArray.Equal]
  have h1 : a.Equal (.morphConfiguration b) = .ok (decide
      (a.toSimpleConfiguration.InternalStack = b.toSimpleConfiguration.InternalStack
        ∧ a.toSimpleConfiguration.InternalQueue = b.toSimpleConfiguration.InternalQueue
        ∧ a.toSimpleConfiguration.InternalArcs = b.toSimpleConfiguration.InternalArcs
        ∧ a.LatticeQueue = b.LatticeQueue
        ∧ a.Lattices = b.Lattices
        ∧ a.Mappings = b.Mappings
        ∧ a.MorphNodes = b.MorphNodes)) := by
    simp only [MorphConfiguration.Equal, SimpleConfiguration.Equal, hq, hlq]
    by_cases e1 : a.toSimpleConfiguration.InternalStack = b.toSimpleConfiguration.InternalStack <;>
    by_cases e2 : a.toSimpleConfiguration.InternalQueue = b.toSimpleConfiguration.InternalQueue <;>
    by_cases e3 : a.toSimpleConfiguration.InternalArcs = b.toSimpleConfiguration.InternalArcs <;>
    by_cases e4 : a.Lattices = b.Lattices <;>
    by_cases e5 : a.Mappings = b.Mappings <;>
    by_cases e6 : a.MorphNodes = b.MorphNodes <;>
    simp [e1, e2, e3, e4, e5, e6]
  refine ⟨h1, ?_⟩
  rw [h1]
  simp

/-- An instance of C15: the configuration `Init` yields on the empty sentence is
equal to itself. -/
theorem Equal_iff_witness :
    initOfEmptySentence.Equal (.morphConfiguration initOfEmptySentence) = .ok true :=
  (Equal_iff initOfEmptySentence initOfEmptySentence ⟨[]⟩ rfl).1

/-- C15, as stated, fails: two configurations that agree on `Stack`, `Queue`,
`LatticeQueue`, `Arcs`, `Mappings` and `MorphNodes` and differ in `Lattices` only
are not equal for `Equal`. -/
theorem Equal_compares_Lattices_counterexample :
    initOfEmptySentence.toSimpleConfiguration.InternalStack
        = ({ initOfEmptySentence with Lattices := [] } : MorphConfiguration).toSimpleConfiguration.InternalStack
    ∧ initOfEmptySentence.toSimpleConfiguration.InternalQueue
        = ({ initOfEmptySentence with Lattices := [] } : MorphConfiguration).toSimpleConfiguration.InternalQueue
    ∧ initOfEmptySentence.toSimpleConfiguration.InternalArcs
        = ({ initOfEmptySentence with Lattices := [] } : MorphConfiguration).toSimpleConfiguration.InternalArcs
    ∧ initOfEmptySentence.LatticeQueue
        = ({ initOfEmptySentence with Lattices := [] } : MorphConfiguration).LatticeQueue
    ∧ initOfEmptySentence.Mappings
        = ({ initOfEmptySentence with Lattices := [] } : MorphConfiguration).Mappings
    ∧ initOfEmptySentence.MorphNodes
        = ({ initOfEmptySentence with Lattices := [] } : MorphConfiguration).MorphNodes
    ∧ initOfEmptySentence.Equal
        (.morphConfiguration { initOfEmptySentence with Lattices := [] }) = .ok false := by
  refine ⟨rfl, rfl, rfl, rfl, rfl, rfl, ?_⟩
  decide

end Morph


/-! # Sharing between a configuration and its copy -/

namespace Morph

theorem observe_of_Frame (mem mem' : Memory) (c : MorphConfigurationRefs)
    (h : Frame mem mem' c) : observe mem' c = observe mem c := by
  obtain ⟨hs, hm, hp, hn, -⟩ := h
  have hslice : mem'.mappingSlice c.Mappings = mem.mappingSlice c.Mappings := by
    simp only [Memory.mappingSlice, hm]
  have hstack : ∀ a, (c.Stack = a ∨ c.Queue = a ∨ c.LatticeQueue = a) →
      mem'.stackAt a = mem.stackAt a := by
    intro a ha
    cases a with
    | none => rfl
    | some i => simp only [Memory.stackAt, Option.some_bind]; exact hs i ha
  simp only [observe, hslice, Memory.morphSlice, hn]
  rw [hstack _ (Or.inl rfl), hstack _ (Or.inr (Or.inl rfl)), hstack _ (Or.inr (Or.inr rfl))]
  congr 1
  apply List.map_congr_left
  intro p hpmem
  cases p with
  | none => rfl
  | some i => simp only [Memory.mappingAt, Option.some_bind]; exact hp i hpmem

theorem Valid_of_Frame (mem mem' : Memory) (c : MorphConfigurationRefs)
    (h : Frame mem mem' c) (hv : Valid mem c) : Valid mem' c := by
  obtain ⟨hs, hm, hp, hn, l1, l2, l3, l4⟩ := h
  obtain ⟨v1, v2, v3, v4, v5, v6⟩ := hv
  have hslice : mem'.mappingSlice c.Mappings = mem.mappingSlice c.Mappings := by
    simp only [Memory.mappingSlice, hm]
  refine ⟨fun a ha => ?_, fun a ha => ?_, fun a ha => ?_, ?_, ?_, fun p hpm => ?_⟩
  · exact lt_of_lt_of_le (v1 a ha) l1
  · exact lt_of_lt_of_le (v2 a ha) l1
  · exact lt_of_lt_of_le (v3 a ha) l1
  · exact lt_of_lt_of_le v4 l2
  · exact lt_of_lt_of_le v5 l4
  · rw [hslice] at hpm
    exact lt_of_lt_of_le (v6 p hpm) l3

theorem Frame_refl (mem : Memory) (c : MorphConfigurationRefs) : Frame mem mem c :=
  ⟨fun _ _ => rfl, rfl, fun _ _ => rfl, rfl, le_refl _, le_refl _, le_refl _, le_refl _⟩

theorem appendSlice_get {α : Type} (arrays : List (List (Option α))) (s : Slice) (x : Option α)
    (j : Nat) (hj : j < arrays.length) (hne : s.array ≠ j) :
    (appendSlice arrays s x).1[j]? = arrays[j]?
    ∧ arrays.length ≤ (appendSlice arrays s x).1.length
    ∧ (appendSlice arrays s x).2.array ≠ j := by
  unfold appendSlice
  simp only
  split
  · refine ⟨?_, by simp, hne⟩
    simp [List.getElem?_set_ne hne]
  · refine ⟨?_, by simp, ?_⟩
    · simp [List.getElem?_append_left hj]
    · simp only; omega

theorem setSlice_get {α : Type} (arrays : List (List (Option α))) (s : Slice) (i : Nat)
    (x : Option α) (j : Nat) (hne : s.array ≠ j) :
    (setSlice arrays s i x)[j]? = arrays[j]?
    ∧ (setSlice arrays s i x).length = arrays.length := by
  unfold setSlice
  split
  · exact ⟨by simp [List.getElem?_set_ne hne], by simp⟩
  · exact ⟨rfl, rfl⟩

theorem set_stack_Frame (mem : Memory) (c c' : MorphConfigurationRefs) (a : Nat)
    (s : StackArray) (ha : c'.LatticeQueue = some a) (hsep : Separate c c') :
    Frame mem { mem with stackObjs := mem.stackObjs.set a s } c := by
  obtain ⟨h1, h2, h3⟩ := hsep.1 a ha
  refine ⟨fun b hb => ?_, rfl, fun _ _ => rfl, rfl, by simp, le_refl _, le_refl _, le_refl _⟩
  have hne : a ≠ b := by
    rintro rfl
    rcases hb with hb | hb | hb
    · exact h1 hb
    · exact h2 hb
    · exact h3 hb
  simp [List.getElem?_set_ne hne]

/-- A mutation of the sequences performed through `c'` leaves what `c` reads
untouched and keeps `c'` separate from `c`. -/
theorem apply_Frame (μ : Mutation) (mem : Memory) (c c' : MorphConfigurationRefs)
    (hon : μ.onSequences = true) (hv : Valid mem c) (hsep : Separate c c') :
    Frame mem (μ.apply mem c').1 c ∧ Separate c (μ.apply mem c').2 := by
  obtain ⟨v1, v2, v3, v4, v5, v6⟩ := hv
  have hmapp : ∀ (m : Mapping) (p : Nat), some p ∈ mem.mappingSlice c.Mappings →
      (mem.mappings ++ [m])[p]? = mem.mappings[p]? :=
    fun m p hp => List.getElem?_append_left (v6 p hp)
  cases μ with
  | extendSpellout i morph => simp [Mutation.onSequences] at hon
  | pushLatticeQueue v =>
    simp only [Mutation.apply]
    split
    · next a s ha _ => exact ⟨set_stack_Frame mem c c' a _ ha hsep, hsep⟩
    · exact ⟨Frame_refl mem c, hsep⟩
  | popLatticeQueue =>
    simp only [Mutation.apply]
    split
    · next a s ha _ => exact ⟨set_stack_Frame mem c c' a _ ha hsep, hsep⟩
    · exact ⟨Frame_refl mem c, hsep⟩
  | appendMapping mapping =>
    obtain ⟨g1, g2, g3⟩ := appendSlice_get mem.mappingArrays c'.Mappings
      (some mem.mappings.length) c.Mappings.array v4 hsep.2.1
    simp only [Mutation.apply]
    exact ⟨⟨fun _ _ => rfl, g1, hmapp mapping, rfl, le_refl _, g2, by simp, le_refl _⟩,
      hsep.1, g3, hsep.2.2⟩
  | setMapping i mapping =>
    obtain ⟨g1, g2⟩ := setSlice_get mem.mappingArrays c'.Mappings i
      (some mem.mappings.length) c.Mappings.array hsep.2.1
    simp only [Mutation.apply]
    exact ⟨⟨fun _ _ => rfl, g1, hmapp mapping, rfl, le_refl _, le_of_eq g2.symm, by simp,
      le_refl _⟩, hsep⟩
  | appendMorphNode morph =>
    obtain ⟨g1, g2, g3⟩ := appendSlice_get mem.morphArrays c'.MorphNodes
      (some morph) c.MorphNodes.array v5 hsep.2.2
    simp only [Mutation.apply]
    exact ⟨⟨fun _ _ => rfl, rfl, fun _ _ => rfl, g1, le_refl _, le_refl _, le_refl _, g2⟩,
      hsep.1, hsep.2.1, g3⟩
  | setMorphNode i morph =>
    obtain ⟨g1, g2⟩ := setSlice_get mem.morphArrays c'.MorphNodes i
      (some morph) c.MorphNodes.array hsep.2.2
    simp only [Mutation.apply]
    exact ⟨⟨fun _ _ => rfl, rfl, fun _ _ => rfl, g1, le_refl _, le_refl _, le_refl _,
      le_of_eq g2.symm⟩, hsep⟩

/-- Mutations of the sequences performed one after the other through `c'` leave
the observation through `c` unchanged. -/
theorem applyMutations_observe (μs : List Mutation) :
    ∀ (mem : Memory) (c c' : MorphConfigurationRefs),
      (∀ μ ∈ μs, μ.onSequences = true) → Valid mem c → Separate c c' →
      observe (applyMutations μs mem c').1 c = observe mem c := by
  induction μs with
  | nil => intro mem c c' _ _ _; rfl
  | cons μ rest ih =>
    intro mem c c' hon hv hsep
    obtain ⟨hf, hs⟩ := apply_Frame μ mem c c' (hon μ (List.mem_cons_self _ _)) hv hsep
    simp only [applyMutations]
    rw [ih _ c _ (fun ν hν => hon ν (List.mem_cons_of_mem _ hν))
      (Valid_of_Frame _ _ _ hf hv) hs]
    exact observe_of_Frame _ _ _ hf

theorem copyStack_spec (mem : Memory) (a : Option Nat) :
    (copyStack mem a).1.mappingArrays = mem.mappingArrays
    ∧ (copyStack mem a).1.mappings = mem.mappings
    ∧ (copyStack mem a).1.morphArrays = mem.morphArrays
    ∧ (∃ ext, (copyStack mem a).1.stackObjs = mem.stackObjs ++ ext)
    ∧ (∀ b, (copyStack mem a).2 = some b → mem.stackObjs.length ≤ b) := by
  unfold copyStack
  split
  · exact ⟨rfl, rfl, rfl, ⟨[], by simp⟩, fun b hb => by cases hb⟩
  · refine ⟨rfl, rfl, rfl, ⟨_, rfl⟩, fun b hb => ?_⟩
    simp only [Option.some.injEq] at hb
    omega

theorem copySlices_spec (mem : Memory) (m : MorphConfigurationRefs) :
    (copySlices mem m).1.stackObjs = mem.stackObjs
    ∧ (copySlices mem m).1.mappings = mem.mappings
    ∧ (∃ x, (copySlices mem m).1.mappingArrays = mem.mappingArrays ++ [x])
    ∧ (∃ x, (copySlices mem m).1.morphArrays = mem.morphArrays ++ [x])
    ∧ (copySlices mem m).2.1.array = mem.mappingArrays.length
    ∧ (copySlices mem m).2.2.array = mem.morphArrays.length :=
  ⟨rfl, rfl, ⟨_, rfl⟩, ⟨_, rfl⟩, rfl, rfl⟩

/-- The copy reads what the original holds and is separate from it. -/
theorem Copy_Frame (mem mem' : Memory) (c c' : MorphConfigurationRefs)
    (hv : Valid mem c) (hc : c.Copy mem = .ok (mem', c')) :
    Frame mem mem' c ∧ Separate c c' := by
  obtain ⟨v1, v2, v3, v4, v5, v6⟩ := hv
  unfold MorphConfigurationRefs.Copy at hc
  have A := copyStack_spec mem c.Stack
  rcases h1 : copyStack mem c.Stack with ⟨mem1, stack⟩
  rw [h1] at hc A
  simp only at hc
  have B := copyStack_spec mem1 c.Queue
  rcases h2 : copyStack mem1 c.Queue with ⟨mem2, queue⟩
  rw [h2] at hc B
  simp only at hc A B
  split at hc
  · cases hc
  · have C := copySlices_spec mem2 c
    rcases h3 : copySlices mem2 c with ⟨mem3, mappings, morphNodes⟩
    rw [h3] at hc C
    simp only at hc
    have D := copyStack_spec mem3 c.LatticeQueue
    rcases h4 : copyStack mem3 c.LatticeQueue with ⟨mem4, latticeQueue⟩
    rw [h4] at hc D
    simp only [Except.ok.injEq, Prod.mk.injEq] at hc A B C D
    obtain ⟨hmem, hconf⟩ := hc
    subst hmem hconf
    obtain ⟨a1, a2, a3, ⟨e1, a4⟩, -⟩ := A
    obtain ⟨b1, b2, b3, ⟨e2, b4⟩, -⟩ := B
    obtain ⟨c1, c2, ⟨x, c3⟩, ⟨y, c4⟩, c5, c6⟩ := C
    obtain ⟨d1, d2, d3, ⟨e3, d4⟩, d5⟩ := D
    have hst : mem4.stackObjs = mem.stackObjs ++ (e1 ++ e2 ++ e3) := by
      rw [d4, c1, b4, a4]; simp
    have hma : mem4.mappingArrays = mem.mappingArrays ++ [x] := by rw [d1, c3, b1, a1]
    have hmp : mem4.mappings = mem.mappings := by rw [d2, c2, b2, a2]
    have hmo : mem4.morphArrays = mem.morphArrays ++ [y] := by rw [d3, c4, b3, a3]
    refine ⟨⟨fun a ha => ?_, ?_, fun p _ => ?_, ?_, ?_, ?_, ?_, ?_⟩, ?_, ?_, ?_⟩
    · have hlt : a < mem.stackObjs.length := by
        rcases ha with ha | ha | ha
        · exact v1 a ha
        · exact v2 a ha
        · exact v3 a ha
      rw [hst, List.getElem?_append_left hlt]
    · rw [hma, List.getElem?_append_left v4]
    · rw [hmp]
    · rw [hmo, List.getElem?_append_left v5]
    · rw [hst]; simp
    · rw [hma]; simp
    · rw [hmp]
    · rw [hmo]; simp
    · intro a ha
      have hge := d5 a ha
      rw [c1, b4, a4] at hge
      simp only [List.length_append] at hge
      refine ⟨?_, ?_, ?_⟩
      · intro h; have := v1 a h; omega
      · intro h; have := v2 a h; omega
      · intro h; have := v3 a h; omega
    · show mappings.array ≠ c.Mappings.array
      rw [c5, b1, a1]; omega
    · show morphNodes.array ≠ c.MorphNodes.array
      rw [c6, b3, a3]; omega

theorem Valid_init : Valid initMemory initRefs := by
  refine ⟨?_, ?_, ?_, ?_, ?_, ?_⟩ <;> simp [initRefs, initMemory, Memory.mappingSlice]

/-- C13, as amended. For every configuration `c` whose pointers are valid and
`c' = c.Copy()`, no sequence of mutations of the sequences performed through `c'`
(pushing or popping its `LatticeQueue`, appending to or replacing an element of
its `Mappings` or `MorphNodes`) changes the `Stack`, `Queue`, `LatticeQueue`,
`Arcs`, `Mappings` (each with its spellout) or `MorphNodes` observed through `c`,
and neither does `Copy` itself. The `Mapping` objects are shared by `c` and
`c'`: extending the spellout of an entry through `c'` is not covered. -/
theorem Copy_sequences_not_shared (mem mem' : Memory) (c c' : MorphConfigurationRefs)
    (μs : List Mutation) (hv : Valid mem c) (hc : c.Copy mem = .ok (mem', c'))
    (hon : ∀ μ ∈ μs, μ.onSequences = true) :
    observe mem' c = observe mem c
    ∧ observe (applyMutations μs mem' c').1 c = observe mem c := by
  obtain ⟨hf, hsep⟩ := Copy_Frame mem mem' c c' hv hc
  have h1 := observe_of_Frame _ _ _ hf
  refine ⟨h1, ?_⟩
  rw [applyMutations_observe μs mem' c c' hon (Valid_of_Frame _ _ _ hf hv) hsep, h1]

/-- An instance of C13: six mutations of the sequences through the copy of the
configuration of `Init` on the empty sentence. -/
theorem Copy_sequences_not_shared_witness :
    ∃ mem' c', initRefs.Copy initMemory = .ok (mem', c')
      ∧ observe (applyMutations
          [.pushLatticeQueue 3, .appendMapping ⟨"a", []⟩, .setMapping 0 ⟨"b", []⟩,
            .appendMorphNode rootMorpheme, .setMorphNode 0 rootMorpheme, .popLatticeQueue]
          mem' c').1 initRefs = observe initMemory initRefs :=
  ⟨_, _, rfl,
    (Copy_sequences_not_shared initMemory _ initRefs _
      [.pushLatticeQueue 3, .appendMapping ⟨"a", []⟩, .setMapping 0 ⟨"b", []⟩,
        .appendMorphNode rootMorpheme, .setMorphNode 0 rootMorpheme, .popLatticeQueue]
      Valid_init rfl (by decide)).2⟩

/-- C13, as stated, fails: after `c' = c.Copy()`, extending through `c'` the
spellout of the mapping at index 0 changes the spellout of the mapping at index 0
observed through `c`, since both slices hold the pointer to the same `Mapping`
object. -/
theorem Copy_shares_Mapping_counterexample :
    ∃ mem' c', initRefs.Copy initMemory = .ok (mem', c')
      ∧ (observe initMemory initRefs).Mappings = [some ⟨"ROOT", [rootMorpheme]⟩]
      ∧ (observe ((Mutation.extendSpellout 0 rootMorpheme).apply mem' c').1 initRefs).Mappings
          = [some ⟨"ROOT", [rootMorpheme, rootMorpheme]⟩]
      ∧ observe ((Mutation.extendSpellout 0 rootMorpheme).apply mem' c').1 initRefs
          ≠ observe initMemory initRefs :=
  ⟨_, _, rfl, by decide, by decide, by decide⟩

end Morph


/-! # Properties of the segmentation writer -/

namespace Segmentation

open Morph

theorem foldl_writeMapping (rootToken : String) (graph : List Mapping) :
    ∀ (w : String), graph.foldl (writeMapping rootToken) w
      = w ++ gostrings.concatAll (tokenLines rootToken graph) := by
  induction graph with
  | nil => intro w; simp [tokenLines, gostrings.concatAll]
  | cons mapping rest ih =>
    intro w
    simp only [List.foldl_cons, ih, tokenLines]
    by_cases h : mapping.Token = rootToken
    · simp [writeMapping, h]
    · simp [writeMapping, h, tokenLine, gostrings.concatAll, String.append_assoc]

theorem Write_eq_text (rootToken : String) (graphs : List (List Mapping)) (w : String) :
    Write rootToken w graphs = w ++ segmentationText rootToken graphs := by
  induction graphs generalizing w with
  | nil => simp [Write, segmentationText, gostrings.concatAll]
  | cons graph rest ih =>
    have ih' := ih (writeGraph rootToken w graph)
    simp only [Write, List.foldl_cons] at ih' ⊢
    rw [ih']
    simp [writeGraph, foldl_writeMapping, segmentationText, gostrings.concatAll,
      String.append_assoc]

/-- C16. For every list of morph graphs, `Write` appends to the writer, for each
graph in order, one line `token TAB form1:form2:...:formK NEWLINE` for each
mapping whose token is not the ROOT token, in mapping order, the forms being
those of the spellout of the mapping joined by `:`, and then one empty line;
nothing else is written. -/
theorem Write_text (rootToken : String) (graphs : List (List Mapping)) (w : String) :
    Write rootToken w graphs = w ++ segmentationText rootToken graphs
    ∧ segmentationText rootToken graphs = gostrings.concatAll (graphs.map (fun graph =>
        gostrings.concatAll ((graph.filter (fun mapping => mapping.Token ≠ rootToken)).map
          (fun mapping => mapping.Token ++ "\t"
            ++ gostrings.Join (mapping.Spellout.map (fun morph => morph.Form)) ":" ++ "\n"))
          ++ "\n")) :=
  ⟨Write_eq_text rootToken graphs w, rfl⟩

/-- C17, as amended. For every graph whose mappings are the ROOT mapping at
index 0 followed by one mapping per sentence token, no sentence token having
the surface string of the ROOT token, `Write` emits exactly one token line per
sentence token, in order, that is `|Mappings| - 1` token lines, followed by the
empty line. -/
theorem Write_one_line_per_token (rootToken : String) (root : Mapping) (tokens : List Mapping)
    (w : String) (hroot : root.Token = rootToken)
    (hne : ∀ mapping ∈ tokens, mapping.Token ≠ rootToken) :
    Write rootToken w [root :: tokens]
        = w ++ gostrings.concatAll (tokens.map tokenLine) ++ "\n"
    ∧ tokenLines rootToken (root :: tokens) = tokens.map tokenLine
    ∧ (tokenLines rootToken (root :: tokens)).length = (root :: tokens).length - 1 := by
  have hl : tokenLines rootToken (root :: tokens) = tokens.map tokenLine := by
    simp only [tokenLines]
    rw [List.filter_cons_of_neg (by simp [hroot])]
    congr 1
    rw [List.filter_eq_self]
    intro mapping hm
    simpa using hne mapping hm
  refine ⟨?_, hl, by simp [hl]⟩
  rw [Write_eq_text]
  simp [segmentationText, hl, gostrings.concatAll, String.append_assoc]

/-- An instance of C17: a sentence of two tokens. -/
theorem Write_one_line_per_token_witness :
    Write ROOT_TOKEN "" [[⟨"ROOT", [rootMorpheme]⟩,
        ⟨"the", [⟨(0, 0, 1), "the", "DET", "DET", none, 0⟩]⟩,
        ⟨"bimba", [⟨(1, 1, 2), "b", "P", "P", none, 1⟩, ⟨(2, 2, 3), "imba", "N", "N", none, 1⟩]⟩]]
      = "the\tthe\nbimba\tb:imba\n\n" := by
  have h := (Write_one_line_per_token ROOT_TOKEN ⟨"ROOT", [rootMorpheme]⟩
    [⟨"the", [⟨(0, 0, 1), "the", "DET", "DET", none, 0⟩]⟩,
      ⟨"bimba", [⟨(1, 1, 2), "b", "P", "P", none, 1⟩, ⟨(2, 2, 3), "imba", "N", "N", none, 1⟩]⟩]
    "" rfl (by decide)).1
  rw [h]
  decide

/-- C17, as stated, fails: for a sentence whose one token has the surface string
`ROOT`, `Write` emits no token line, only the empty line, although the sentence
has `|Mappings| - 1 = 1` token. -/
theorem Write_drops_ROOT_named_token_counterexample :
    Write ROOT_TOKEN "" [[⟨"ROOT", [rootMorpheme]⟩,
        ⟨"ROOT", [⟨(0, 0, 1), "ROOT", "NNP", "NNP", none, 0⟩]⟩]] = "\n"
    ∧ (tokenLines ROOT_TOKEN [⟨"ROOT", [rootMorpheme]⟩,
        ⟨"ROOT", [⟨(0, 0, 1), "ROOT", "NNP", "NNP", none, 0⟩]⟩]).length = 0
    ∧ ([⟨"ROOT", [rootMorpheme]⟩,
        ⟨"ROOT", [⟨(0, 0, 1), "ROOT", "NNP", "NNP", none, 0⟩]⟩] : List Mapping).length - 1 = 1 := by
  decide

end Segmentation


/-! # Properties of the tabular reader -/

namespace conllu

open featurevector (mapGet mapSet mapKeys wrap64 inInt64 indexOutOfRange)

/-- C18, at the failing inputs. On a data line of two tab-separated fields `Read`
panics with an index out of range, in `ParseRow` at `record[2]`; on a non-empty
line whose first field is empty it panics at `record[0][0]`; and so does a token
row of one field, in `ParseTokenRow` at `record[1]`; a line that does not fit the
buffer of the reader panics as well. A well-formed line followed by an empty
line gives one sentence, and a ten-field line with a malformed ID gives an error
and no sentences. -/
theorem Read_panics_on_short_record :
    Read false [("1\tdogs", false), ("", false)] = .panic indexOutOfRange
    ∧ Read false [("\tdogs", false), ("", false)] = .panic indexOutOfRange
    ∧ Read false [("1-2", false), ("", false)] = .panic indexOutOfRange
    ∧ Read false [("1", true)] = .panic "Buffer not large enough, fix me :("
    ∧ (∃ sentence, Read false [("1\tdogs\tdog\tNOUN\tNN\t_\t0\troot\t_\t_", false), ("", false)]
        = .ok [sentence])
    ∧ (∃ err, Read false [("x\tdogs\tdog\tNOUN\tNN\t_\t0\troot\t_\t_", false), ("", false)]
        = .error [] err) := by
  exact ⟨by decide, by decide, by decide, by decide, ⟨_, rfl⟩, ⟨_, rfl⟩⟩

theorem mapGet_mapSet {K V : Type} [DecidableEq K] (m : List (K × V)) (k k' : K) (v : V) :
    mapGet (mapSet m k v) k' = if k = k' then some v else mapGet m k' := by
  induction m with
  | nil => simp [mapSet, mapGet]
  | cons p rest ih =>
    obtain ⟨a, b⟩ := p
    simp only [mapSet]
    by_cases h : a = k
    · subst h
      by_cases h2 : a = k' <;> simp [mapGet, h2]
    · rw [if_neg h]
      simp only [mapGet, ih]
      by_cases h2 : a = k'
      · subst h2
        simp [Ne.symm h]
      · simp [h2]

theorem mapKeys_mapSet {K V : Type} [DecidableEq K] (m : List (K × V)) (k : K) (v : V) :
    mapKeys (mapSet m k v) = if k ∈ mapKeys m then mapKeys m else mapKeys m ++ [k] := by
  induction m with
  | nil => simp [mapSet, mapKeys]
  | cons p rest ih =>
    obtain ⟨a, b⟩ := p
    simp only [mapSet]
    by_cases h : a = k
    · subst h
      simp [mapKeys]
    · rw [if_neg h]
      simp only [mapKeys, List.map_cons, List.mem_cons] at ih ⊢
      rw [ih]
      by_cases h2 : k ∈ List.map Prod.fst rest
      · simp [h2]
      · simp [h2, Ne.symm h]

theorem mapGet_isSome_iff {K V : Type} [DecidableEq K] (m : List (K × V)) (k : K) :
    (mapGet m k).isSome ↔ k ∈ mapKeys m := by
  induction m with
  | nil => simp [mapGet, mapKeys]
  | cons p rest ih =>
    obtain ⟨a, b⟩ := p
    simp only [mapGet, mapKeys, List.map_cons, List.mem_cons] at ih ⊢
    by_cases h : a = k
    · simp [h]
    · simp [h, ih, Ne.symm h]

/-- The value a key holds after the values `vs` have come in for it: the value
held before and `vs`, joined by `,`. -/
theorem Join_cons_append (e v : String) (vs : List String) :
    gostrings.Join ((e ++ "," ++ v) :: vs) "," = e ++ "," ++ gostrings.Join (v :: vs) "," := by
  cases vs with
  | nil => simp [gostrings.Join]
  | cons w ws => simp [gostrings.Join, String.append_assoc]

/-- The loop of `ParseFeatures` on well-formed items: it ends without an error,
keeps the keys distinct, and a key holds the value it held before followed by the
values of its items, joined by `,`. -/
theorem parseFeaturesLoop_spec (featureList : List String) :
    ∀ (featureMap : List (String × String)),
      (∀ item ∈ featureList, (gostrings.Split item '=').length = 2) →
      (mapKeys featureMap).Nodup →
      ∃ result, parseFeaturesLoop featureList featureMap = .ok result
        ∧ (mapKeys result).Nodup
        ∧ ∀ k, mapGet result k =
            match mapGet featureMap k,
              valuesOf (featureList.filterMap (fun item =>
                match gostrings.Split item '=' with
                | [key, value] => some (key, value)
                | _ => none)) k with
            | none, [] => none
            | none, v :: vs => some (gostrings.Join (v :: vs) ",")
            | some e, vs => some (gostrings.Join (e :: vs) ",") := by
  induction featureList with
  | nil =>
    intro featureMap _ hnd
    refine ⟨featureMap, rfl, hnd, fun k => ?_⟩
    cases h : mapGet featureMap k <;> simp [valuesOf, gostrings.Join]
  | cons item rest ih =>
    intro featureMap hform hnd
    have hitem := hform item (List.mem_cons_self _ _)
    have hrest : ∀ x ∈ rest, (gostrings.Split x '=').length = 2 :=
      fun x hx => hform x (List.mem_cons_of_mem _ hx)
    obtain ⟨key, value, hkv⟩ : ∃ key value, gostrings.Split item '=' = [key, value] := by
      match hs : gostrings.Split item '=', hitem with
      | [a, b], _ => exact ⟨a, b, rfl⟩
    have hnd' : ∀ v, (mapKeys (mapSet featureMap key v)).Nodup := by
      intro v
      rw [mapKeys_mapSet]
      split
      · exact hnd
      · next hk => exact List.Nodup.append hnd (List.nodup_singleton _) (by simpa using hk)
    simp only [parseFeaturesLoop, hkv, List.filterMap_cons]
    cases hg : mapGet featureMap key with
    | none =>
      obtain ⟨result, hr, hrnd, hget⟩ := ih (mapSet featureMap key value) hrest (hnd' _)
      refine ⟨result, hr, hrnd, fun k => ?_⟩
      rw [hget k, mapGet_mapSet]
      by_cases hk : key = k
      · subst hk
        simp [valuesOf, hg]
      · simp [valuesOf, hk]
    | some e =>
      obtain ⟨result, hr, hrnd, hget⟩ :=
        ih (mapSet featureMap key (e ++ "," ++ value)) hrest (hnd' _)
      refine ⟨result, hr, hrnd, fun k => ?_⟩
      rw [hget k, mapGet_mapSet]
      by_cases hk : key = k
      · subst hk
        simp [valuesOf, hg, Join_cons_append]
        rfl
      · simp [valuesOf, hk]

theorem ParseFeatures_spec_aux (featuresStr : String) (hne : featuresStr ≠ "_")
    (hform : WellFormedFeatures featuresStr) :
    (∃ featureMap, ParseFeatures featuresStr = .ok (some featureMap)
      ∧ (mapKeys featureMap).Nodup
      ∧ (∀ k, k ∈ mapKeys featureMap ↔ k ∈ (featureItems featuresStr).map Prod.fst)
      ∧ (∀ k, k ∈ mapKeys featureMap →
          mapGet featureMap k = some (gostrings.Join (valuesOf (featureItems featuresStr) k) ",")))
    ∧ ParseFeatures "_" = .ok none := by
  refine ⟨?_, rfl⟩
  obtain ⟨result, hr, hnd, hget⟩ :=
    parseFeaturesLoop_spec (gostrings.Split featuresStr '|') [] hform (by simp [mapKeys])
  have hlen : (gostrings.Split featuresStr '|').length ≠ 0 := by
    simp only [gostrings.Split, List.length_map]
    cases h : featuresStr.data with
    | nil => simp [gostrings.splitChars]
    | cons c cs =>
      simp only [gostrings.splitChars]
      split
      · simp
      · split <;> simp
  have hget' : ∀ k, mapGet result k =
      match valuesOf (featureItems featuresStr) k with
      | [] => none
      | v :: vs => some (gostrings.Join (v :: vs) ",") := by
    intro k
    rw [hget k]
    simp only [mapGet, featureItems]
    split <;> simp_all
  have hkeys : ∀ k, k ∈ mapKeys result ↔ k ∈ (featureItems featuresStr).map Prod.fst := by
    intro k
    rw [← mapGet_isSome_iff, hget' k]
    have hv : valuesOf (featureItems featuresStr) k = [] ↔
        k ∉ (featureItems featuresStr).map Prod.fst := by
      simp only [valuesOf, List.map_eq_nil_iff, List.filter_eq_nil_iff, List.mem_map]
      constructor
      · rintro h ⟨p, hp, rfl⟩
        exact h p hp (by simp)
      · intro h p hp hpk
        exact h ⟨p, hp, by simpa using hpk⟩
    cases hvs : valuesOf (featureItems featuresStr) k with
    | nil => simp [hv.mp hvs]
    | cons v vs =>
      have : ¬ (valuesOf (featureItems featuresStr) k = []) := by simp [hvs]
      simp only [Option.isSome_some, true_iff]
      by_contra hc
      exact this (hv.mpr hc)
  refine ⟨result, ?_, hnd, hkeys, fun k hk => ?_⟩
  · simp [ParseFeatures, hne, hlen, hr]
  · rw [hget' k]
    have hsome := (mapGet_isSome_iff result k).mpr hk
    rw [hget' k] at hsome
    cases hvs : valuesOf (featureItems featuresStr) k with
    | nil => rw [hvs] at hsome; simp at hsome
    | cons v vs => rfl

/-- C20. For every feature string other than `_` whose `|`-separated items each
have the form `key=value`, `ParseFeatures` returns without error a map whose keys
are exactly the keys occurring in the string and that maps each key to the values
given for it, in order of occurrence, joined by `,`; `ParseFeatures("_")` returns
the nil map, which is empty, and no error. -/
theorem ParseFeatures_spec (featuresStr : String) (hne : featuresStr ≠ "_")
    (hform : WellFormedFeatures featuresStr) :
    (∃ featureMap, ParseFeatures featuresStr = .ok (some featureMap)
      ∧ (mapKeys featureMap).Nodup
      ∧ (∀ k, k ∈ mapKeys featureMap ↔ k ∈ (featureItems featuresStr).map Prod.fst)
      ∧ (∀ k, k ∈ mapKeys featureMap →
          mapGet featureMap k = some (gostrings.Join (valuesOf (featureItems featuresStr) k) ",")))
    ∧ ParseFeatures "_" = .ok none :=
  ParseFeatures_spec_aux featuresStr hne hform

/-- An instance of C20: a key given twice. -/
theorem ParseFeatures_spec_witness :
    ∃ featureMap, ParseFeatures "a=b|c=d|a=e" = .ok (some featureMap)
      ∧ mapGet featureMap "a" = some "b,e" := by
  obtain ⟨⟨featureMap, h1, -, h2, h3⟩, -⟩ :=
    ParseFeatures_spec "a=b|c=d|a=e" (by decide) (by decide)
  refine ⟨featureMap, h1, ?_⟩
  rw [h3 "a" ((h2 "a").mpr (by decide))]
  decide

/-- The record of ten fields through `ParseRow`, check by check. -/
theorem ParseRow_flat (f0 f1 f2 f3 f4 f5 f6 f7 f8 f9 : String) :
    ParseRow false [f0, f1, f2, f3, f4, f5, f6, f7, f8, f9] =
      match ParseInt f0 with
      | .error e => .error zeroRow ("Error parsing ID field (" ++ f0 ++ "): " ++ e)
      | .ok id =>
        if ParseString f1 = "" then .error { zeroRow with ID := id } "Empty FORM field"
        else if ParseString f3 = "" then
          .error { zeroRow with ID := id, Form := ParseString f1, Lemma := ParseString f2 }
            "Empty UPOSTAG field"
        else if ParseString f4 = "" then
          .error { zeroRow with ID := id, Form := ParseString f1, Lemma := ParseString f2,
                                UPosTag := ParseString f3 } "Empty XPOSTAG field"
        else
          match ParseFeatures f5 with
          | .error e =>
            .error { zeroRow with ID := id, Form := ParseString f1, Lemma := ParseString f2,
                                  UPosTag := ParseString f3, XPosTag := ParseString f4 }
              ("Error parsing FEATS field (" ++ f5 ++ "): " ++ e)
          | .ok features =>
            match ParseInt f6 with
            | .error e =>
              .error { zeroRow with ID := id, Form := ParseString f1, Lemma := ParseString f2,
                                    UPosTag := ParseString f3, XPosTag := ParseString f4,
                                    Feats := features, FeatStr := ParseString f5 }
                ("Error parsing HEAD field (" ++ f6 ++ "): " ++ e)
            | .ok head =>
              if ParseString f7 = "" then
                .error { zeroRow with ID := id, Form := ParseString f1, Lemma := ParseString f2,
                                      UPosTag := ParseString f3, XPosTag := ParseString f4,
                                      Feats := features, FeatStr := ParseString f5, Head := head }
                  "Empty DEPREL field"
              else
                .ok { ID := id, Form := ParseString f1, Lemma := ParseString f2,
                      UPosTag := ParseString f3, XPosTag := ParseString f4,
                      Feats := features, FeatStr := ParseString f5, Head := head,
                      DepRel := ParseString f7,
                      Deps := if (ParseString f8).length > 0 then gostrings.Split (ParseString f8) '='
                        else [],
                      Misc := ParseString f9, TokenID := 0 } := by
  cases h0 : ParseInt f0 with
  | error e =>
    simp [ParseRow, earlyReturn, index, bind, Except.bind, throw, throwThe,
      MonadExceptOf.throw, pure, Except.pure, h0]
  | ok id =>
    by_cases h1 : ParseString f1 = ""
    · simp [ParseRow, earlyReturn, index, bind, Except.bind, throw, throwThe,
      MonadExceptOf.throw, pure, Except.pure, h0, h1]
    by_cases h3 : ParseString f3 = ""
    · simp [ParseRow, earlyReturn, index, bind, Except.bind, throw, throwThe,
      MonadExceptOf.throw, pure, Except.pure, h0, h1, h3]
    by_cases h4 : ParseString f4 = ""
    · simp [ParseRow, earlyReturn, index, bind, Except.bind, throw, throwThe,
      MonadExceptOf.throw, pure, Except.pure, h0, h1, h3, h4]
    cases h5 : ParseFeatures f5 with
    | error e =>
      simp [ParseRow, earlyReturn, index, bind, Except.bind, throw, throwThe,
      MonadExceptOf.throw, pure, Except.pure, h0, h1, h3, h4, h5]
    | ok features =>
      cases h6 : ParseInt f6 with
      | error e =>
        simp [ParseRow, earlyReturn, index, bind, Except.bind, throw, throwThe,
      MonadExceptOf.throw, pure, Except.pure, h0, h1, h3, h4, h5, h6]
      | ok head =>
        by_cases h7 : ParseString f7 = ""
        · simp [ParseRow, earlyReturn, index, bind, Except.bind, throw, throwThe,
      MonadExceptOf.throw, pure, Except.pure, h0, h1, h3, h4, h5, h6, h7]
        · by_cases h8 : (ParseString f8).length > 0
          · simp [ParseRow, earlyReturn, index, bind, Except.bind, throw, throwThe,
      MonadExceptOf.throw, pure, Except.pure, h0, h1, h3, h4, h5, h6, h7, h8, zeroRow]
          · simp [ParseRow, earlyReturn, index, bind, Except.bind, throw, throwThe,
      MonadExceptOf.throw, pure, Except.pure, h0, h1, h3, h4, h5, h6, h7, h8, zeroRow]


theorem ParseString_eq_empty (field : String) :
    ParseString field = "" ↔ TextFieldError field := by
  unfold ParseString TextFieldError
  by_cases h : field = "_" <;> simp [h]

theorem ParseString_of_not_error (field : String) (h : ¬ TextFieldError field) :
    ParseString field = field := by
  unfold ParseString
  rw [if_neg (fun e => h (Or.inl e))]

theorem ParseInt_ok_iff (field : String) (n : Int) :
    ParseInt field = .ok n ↔
      (field = "_" ∧ n = 0) ∨ (field ≠ "_" ∧ decimalInteger field = some n ∧ inInt64 n) := by
  unfold ParseInt
  by_cases h : field = "_"
  · simp only [h, if_true, Except.ok.injEq, true_and]
    constructor
    · intro e; exact Or.inl e.symm
    · rintro (e | ⟨e, -⟩)
      · exact e.symm
      · exact absurd rfl e
  · simp only [h, if_false, false_and, false_or, ne_eq, not_false_eq_true, true_and]
    rcases hsd : signAndDigits field.data with ⟨neg, digits⟩
    by_cases hok : digits ≠ [] ∧ digits.all Char.isDigit = true
    · have hnot : ¬ ((digits.isEmpty || !digits.all Char.isDigit) = true) := by
        simp [hok.1, hok.2]
      have e1 : strconvParseInt field =
          if inInt64 (if neg = true then -(digitsValue digits : Int) else (digitsValue digits : Int))
          then .ok (if neg = true then -(digitsValue digits : Int) else (digitsValue digits : Int))
          else .error ("strconv.ParseInt: parsing \"" ++ field ++ "\": value out of range") := by
        unfold strconvParseInt
        rw [hsd]
        simp only
        rw [if_neg hnot]
      have e2 : decimalInteger field =
          some (if neg = true then -(digitsValue digits : Int) else (digitsValue digits : Int)) := by
        unfold decimalInteger
        rw [hsd]
        simp only
        rw [if_pos hok]
      rw [e1, e2]
      by_cases hr : inInt64 (if neg = true then -(digitsValue digits : Int)
          else (digitsValue digits : Int))
      · rw [if_pos hr]
        constructor
        · intro e
          injection e with e
          subst e
          exact ⟨rfl, hr⟩
        · rintro ⟨e, -⟩
          injection e with e
          rw [e]
      · rw [if_neg hr]
        constructor
        · intro e; cases e
        · rintro ⟨e, hin⟩
          injection e with e
          rw [← e] at hin
          exact absurd hin hr
    · have hyes : (digits.isEmpty || !digits.all Char.isDigit) = true := by
        by_cases hd : digits = []
        · simp [hd]
        · have : ¬ digits.all Char.isDigit = true := fun h => hok ⟨hd, h⟩
          simp only [Bool.not_eq_true] at this
          simp [this]
      have e1 : ∃ e, strconvParseInt field = .error e := by
        unfold strconvParseInt
        rw [hsd]
        simp only
        rw [if_pos hyes]
        exact ⟨_, rfl⟩
      have e2 : decimalInteger field = none := by
        unfold decimalInteger
        rw [hsd]
        simp only
        rw [if_neg hok]
      obtain ⟨e, e1⟩ := e1
      rw [e1, e2]
      simp

theorem ParseInt_error_iff (field : String) :
    (∃ e, ParseInt field = .error e) ↔ IntFieldError field := by
  unfold IntFieldError
  constructor
  · rintro ⟨e, he⟩
    refine ⟨?_, fun n hn hin => ?_⟩
    · rintro rfl
      simp [ParseInt] at he
    · by_cases h : field = "_"
      · subst h; simp [ParseInt] at he
      · have := (ParseInt_ok_iff field n).mpr (Or.inr ⟨h, hn, hin⟩)
        rw [this] at he
        cases he
  · rintro ⟨hne, hall⟩
    cases hp : ParseInt field with
    | error e => exact ⟨e, rfl⟩
    | ok n =>
      rcases (ParseInt_ok_iff field n).mp hp with ⟨h, -⟩ | ⟨-, hd, hin⟩
      · exact absurd h hne
      · exact absurd hin (hall n hd)

theorem ParseInt_value (field : String) (n : Int) (h : ParseInt field = .ok n) :
    n = intFieldValue field := by
  unfold intFieldValue
  rcases (ParseInt_ok_iff field n).mp h with ⟨h1, h2⟩ | ⟨h1, h2, -⟩
  · simp [h1, h2]
  · simp [h1, h2]

theorem parseFeaturesLoop_error (featureList : List String) :
    ∀ (featureMap : List (String × String)),
      (∃ item ∈ featureList, (gostrings.Split item '=').length ≠ 2) →
      ∃ e, parseFeaturesLoop featureList featureMap = .error e := by
  induction featureList with
  | nil => intro _ h; obtain ⟨_, hm, _⟩ := h; cases hm
  | cons item rest ih =>
    intro featureMap h
    unfold parseFeaturesLoop
    split
    · next featName featValue hs =>
      have hrest : ∃ x ∈ rest, (gostrings.Split x '=').length ≠ 2 := by
        obtain ⟨x, hx, hlen⟩ := h
        rcases List.mem_cons.mp hx with rfl | hx
        · rw [hs] at hlen; exact absurd rfl hlen
        · exact ⟨x, hx, hlen⟩
      split
      · exact ih _ hrest
      · exact ih _ hrest
    · exact ⟨_, rfl⟩

theorem ParseFeatures_error_iff (field : String) :
    (∃ e, ParseFeatures field = .error e) ↔ FeatsFieldError field := by
  unfold FeatsFieldError
  by_cases hne : field = "_"
  · subst hne
    simp [ParseFeatures]
  · by_cases hw : WellFormedFeatures field
    · obtain ⟨⟨m, hm, -⟩, -⟩ := ParseFeatures_spec_aux field hne hw
      simp [hm, hw]
    · have hbad : ∃ item ∈ gostrings.Split field '|', (gostrings.Split item '=').length ≠ 2 := by
        unfold WellFormedFeatures at hw
        push_neg at hw
        exact hw
      obtain ⟨e, he⟩ := parseFeaturesLoop_error _ [] hbad
      have : ∃ e, ParseFeatures field = .error e := by
        unfold ParseFeatures
        rw [if_neg hne]
        simp only
        split
        · exact ⟨_, rfl⟩
        · rw [he]; exact ⟨_, rfl⟩
      simp [this, hne, hw]

theorem length_pos_iff (field : String) :
    (ParseString field).length > 0 ↔ ¬ TextFieldError field := by
  unfold ParseString TextFieldError
  by_cases h : field = "_"
  · simp [h]
  · simp only [h, if_false, false_or]
    obtain ⟨data⟩ := field
    cases data with
    | nil => simp [String.length]
    | cons c cs =>
      simp only [String.length, List.length_cons, gt_iff_lt, Nat.zero_lt_succ, true_iff]
      intro e
      have := congrArg String.data e
      simp at this

/-- C19, as amended. For every record of exactly ten fields, `IGNORE_LEMMA` being
false, `ParseRow` does not panic, and returns an error if and only if: ID or HEAD
is neither `_` nor a decimal integer (an optional sign and one or more digits)
that fits the 64-bit `int`; or FORM, UPOSTAG, XPOSTAG or DEPREL is `_` or empty;
or FEATS is not `_` and contains a `|`-separated item that does not split on `=`
into exactly two parts. Otherwise it returns the row in which `_` is read as 0
for ID and HEAD and as the empty string for LEMMA, the FEATS string, DEPS and
MISC, the numerals are read as their values, FEATS is parsed by `ParseFeatures`,
a non-empty DEPS is split on `=`, and every other field is copied. -/
theorem ParseRow_ten_fields (f0 f1 f2 f3 f4 f5 f6 f7 f8 f9 : String) :
    ((∃ row err, ParseRow false [f0, f1, f2, f3, f4, f5, f6, f7, f8, f9] = .error row err)
      ↔ RowError f0 f1 f3 f4 f5 f6 f7)
    ∧ (¬ RowError f0 f1 f3 f4 f5 f6 f7 →
      ∃ feats, ParseFeatures f5 = .ok feats
        ∧ ParseRow false [f0, f1, f2, f3, f4, f5, f6, f7, f8, f9] = .ok
          { ID := intFieldValue f0, Form := f1, Lemma := textFieldValue f2, UPosTag := f3,
            XPosTag := f4, Feats := feats, FeatStr := textFieldValue f5,
            Head := intFieldValue f6, DepRel := f7,
            Deps := if TextFieldError f8 then [] else gostrings.Split f8 '=',
            Misc := textFieldValue f9, TokenID := 0 })
    ∧ (∀ msg, ParseRow false [f0, f1, f2, f3, f4, f5, f6, f7, f8, f9] ≠ .panic msg) := by
  rw [ParseRow_flat]
  unfold RowError
  cases h0 : ParseInt f0 with
  | error e =>
    have E : IntFieldError f0 := (ParseInt_error_iff f0).mp ⟨e, h0⟩
    exact ⟨⟨fun _ => Or.inl E, fun _ => ⟨_, _, rfl⟩⟩, fun hn => absurd (Or.inl E) hn,
      fun msg h => by cases h⟩
  | ok id =>
    have N0 : ¬ IntFieldError f0 := fun h => by
      obtain ⟨e, he⟩ := (ParseInt_error_iff f0).mpr h
      rw [h0] at he; cases he
    simp only
    by_cases h1 : ParseString f1 = ""
    · have E := (ParseString_eq_empty f1).mp h1
      rw [if_pos h1]
      exact ⟨⟨fun _ => Or.inr (Or.inr (Or.inl E)), fun _ => ⟨_, _, rfl⟩⟩,
        fun hn => absurd (Or.inr (Or.inr (Or.inl E))) hn, fun msg h => by cases h⟩
    have N1 : ¬ TextFieldError f1 := fun h => h1 ((ParseString_eq_empty f1).mpr h)
    rw [if_neg h1]
    by_cases h3 : ParseString f3 = ""
    · have E := (ParseString_eq_empty f3).mp h3
      rw [if_pos h3]
      exact ⟨⟨fun _ => Or.inr (Or.inr (Or.inr (Or.inl E))), fun _ => ⟨_, _, rfl⟩⟩,
        fun hn => absurd (Or.inr (Or.inr (Or.inr (Or.inl E)))) hn, fun msg h => by cases h⟩
    have N3 : ¬ TextFieldError f3 := fun h => h3 ((ParseString_eq_empty f3).mpr h)
    rw [if_neg h3]
    by_cases h4 : ParseString f4 = ""
    · have E := (ParseString_eq_empty f4).mp h4
      rw [if_pos h4]
      exact ⟨⟨fun _ => Or.inr (Or.inr (Or.inr (Or.inr (Or.inl E)))), fun _ => ⟨_, _, rfl⟩⟩,
        fun hn => absurd (Or.inr (Or.inr (Or.inr (Or.inr (Or.inl E))))) hn,
        fun msg h => by cases h⟩
    have N4 : ¬ TextFieldError f4 := fun h => h4 ((ParseString_eq_empty f4).mpr h)
    rw [if_neg h4]
    cases h5 : ParseFeatures f5 with
    | error e =>
      have E : FeatsFieldError f5 := (ParseFeatures_error_iff f5).mp ⟨e, h5⟩
      exact ⟨⟨fun _ => Or.inr (Or.inr (Or.inr (Or.inr (Or.inr (Or.inr E))))),
          fun _ => ⟨_, _, rfl⟩⟩,
        fun hn => absurd (Or.inr (Or.inr (Or.inr (Or.inr (Or.inr (Or.inr E)))))) hn,
        fun msg h => by cases h⟩
    | ok features =>
      have N5 : ¬ FeatsFieldError f5 := fun h => by
        obtain ⟨e, he⟩ := (ParseFeatures_error_iff f5).mpr h
        rw [h5] at he; cases he
      simp only
      cases h6 : ParseInt f6 with
      | error e =>
        have E : IntFieldError f6 := (ParseInt_error_iff f6).mp ⟨e, h6⟩
        exact ⟨⟨fun _ => Or.inr (Or.inl E), fun _ => ⟨_, _, rfl⟩⟩,
          fun hn => absurd (Or.inr (Or.inl E)) hn, fun msg h => by cases h⟩
      | ok head =>
        have N6 : ¬ IntFieldError f6 := fun h => by
          obtain ⟨e, he⟩ := (ParseInt_error_iff f6).mpr h
          rw [h6] at he; cases he
        simp only
        by_cases h7 : ParseString f7 = ""
        · have E := (ParseString_eq_empty f7).mp h7
          rw [if_pos h7]
          exact ⟨⟨fun _ => Or.inr (Or.inr (Or.inr (Or.inr (Or.inr (Or.inl E))))),
              fun _ => ⟨_, _, rfl⟩⟩,
            fun hn => absurd (Or.inr (Or.inr (Or.inr (Or.inr (Or.inr (Or.inl E)))))) hn,
            fun msg h => by cases h⟩
        have N7 : ¬ TextFieldError f7 := fun h => h7 ((ParseString_eq_empty f7).mpr h)
        rw [if_neg h7]
        have hno : ¬ (IntFieldError f0 ∨ IntFieldError f6 ∨ TextFieldError f1 ∨ TextFieldError f3
            ∨ TextFieldError f4 ∨ TextFieldError f7 ∨ FeatsFieldError f5) := by
          rintro (h | h | h | h | h | h | h)
          · exact N0 h
          · exact N6 h
          · exact N1 h
          · exact N3 h
          · exact N4 h
          · exact N7 h
          · exact N5 h
        refine ⟨⟨fun h => ?_, fun h => absurd h hno⟩, fun _ => ⟨features, rfl, ?_⟩,
          fun msg h => by cases h⟩
        · obtain ⟨_, _, h⟩ := h
          cases h
        · rw [ParseInt_value f0 id h0, ParseInt_value f6 head h6,
            ParseString_of_not_error f1 N1, ParseString_of_not_error f3 N3,
            ParseString_of_not_error f4 N4, ParseString_of_not_error f7 N7]
          congr 2
          by_cases h8 : TextFieldError f8
          · rw [if_pos h8, if_neg (fun hp => ((length_pos_iff f8).mp hp) h8)]
          · rw [if_neg h8, if_pos ((length_pos_iff f8).mpr h8), ParseString_of_not_error f8 h8]

/-- C19, as stated, fails: a record whose ID is the decimal integer
`9223372036854775808` and whose other fields are in order is refused by `ParseRow`
with an error, the ID being outside the range of `int`. -/
theorem ParseRow_ID_out_of_range_counterexample :
    decimalInteger "9223372036854775808" = some 9223372036854775808
    ∧ (∃ row err, ParseRow false
        ["9223372036854775808", "dogs", "dog", "NOUN", "NN", "_", "0", "root", "_", "_"]
        = .error row err)
    ∧ (∃ row, ParseRow false
        ["9223372036854775807", "dogs", "dog", "NOUN", "NN", "_", "0", "root", "_", "_"]
        = .ok row) := by
  exact ⟨by decide, ⟨_, _, rfl⟩, ⟨_, rfl⟩⟩

end conllu


/-! # Further properties of history cells and stores -/

namespace featurevector

/-- C28: after `Add(g, d)` the generation of a cell is the maximum of its
generation before the call and `g`, hence not smaller than before; the call
keeps `PrevGeneration <= Generation`, which holds for every cell created by
`NewHistoryValue` with a generation that is not negative. -/
theorem Add_generations_monotone (h : HistoryValue) (g d : Int) :
    (h.Add g d).Generation = max h.Generation g
    ∧ h.Generation ≤ (h.Add g d).Generation
    ∧ (h.PrevGeneration ≤ h.Generation →
        (h.Add g d).PrevGeneration ≤ (h.Add g d).Generation)
    ∧ (∀ g0 v : Int, 0 ≤ g0 →
        (NewHistoryValue g0 v).PrevGeneration ≤ (NewHistoryValue g0 v).Generation) := by
  obtain ⟨-, hgen, hprev, -⟩ := Add_fields h g d
  rw [hgen, hprev]
  refine ⟨?_, ?_, ?_, ?_⟩
  · split <;> omega
  · split <;> omega
  · intro hle
    split <;> omega
  · intro g0 v hg0
    simpa [NewHistoryValue] using hg0

/-- C30: for a cell created by `NewHistoryValue(0, v)`, a first `Add(g, d)` with
`g > 0` leaves `Total` at 0, and a following `Integrate(G)` with `G >= g` sets
`Value` to `(G - g) * (v + d)` in 64-bit arithmetic (exactly that product when
it is in range), for whatever `v`: the share `g * v` of the generations before
`g` is not part of the result. -/
theorem first_Add_skips_accumulation (v g d G : Int) (hg : 0 < g) (_hG : g ≤ G) :
    ((NewHistoryValue 0 v).Add g d).Total = 0
    ∧ (((NewHistoryValue 0 v).Add g d).Integrate G).Value = wrap64 ((G - g) * (v + d))
    ∧ (inInt64 ((G - g) * (v + d)) →
        (((NewHistoryValue 0 v).Add g d).Integrate G).Value = (G - g) * (v + d)) := by
  obtain ⟨htot, hgen, -, hval⟩ := Add_fields (NewHistoryValue 0 v) g d
  have h1 : ((NewHistoryValue 0 v).Add g d).Total = 0 := by
    rw [htot]; simp [NewHistoryValue]
  have h2 : ((NewHistoryValue 0 v).Add g d).Generation = g := by
    rw [hgen]; simp [NewHistoryValue, hg]
  have h3 : ((NewHistoryValue 0 v).Add g d).Value = wrap64 (v + d) := by
    rw [hval]; simp [NewHistoryValue]
  have h4 : (((NewHistoryValue 0 v).Add g d).Integrate G).Value
      = wrap64 ((G - g) * (v + d)) := by
    rw [Integrate_value, h1, h2, h3]
    apply wrap64_congr
    simpa using (wrap64_modEq (v + d)).mul_left (G - g)
  exact ⟨h1, h4, fun hr => by rw [h4, wrap64_of_inInt64 hr]⟩

theorem first_Add_skips_accumulation_witness :
    ((NewHistoryValue 0 2).Add 5 1).Total = 0
    ∧ (((NewHistoryValue 0 2).Add 5 1).Integrate 7).Value = wrap64 ((7 - 5) * (2 + 1))
    ∧ (inInt64 ((7 - 5) * (2 + 1)) →
        (((NewHistoryValue 0 2).Add 5 1).Integrate 7).Value = (7 - 5) * (2 + 1)) :=
  first_Add_skips_accumulation 2 5 1 7 (by decide) (by decide)

/-- C26: `AvgSparse.Value` and `AvgSparse.SetScores` read the outer map without
taking the lock of the model. While one goroutine runs `Add` for a feature not
yet in the map and holds the exclusive lock, a second goroutine running `Value`
(or `SetScores`) performs its read of the map: the read holds no shared lock
and falls between `Lock` and the insertion. `Add` itself inserts under the
exclusive lock in every schedule of that length, and `UpdateScalarDivide`,
which takes the shared lock, waits until `Add` has released the exclusive one. -/
theorem Value_reads_without_lock :
    (interleave [false, true, false, false, false] ⟨0, false⟩ ValueOps (AddOps false)
      = [⟨false, .Lock, ⟨0, false⟩⟩, ⟨true, .readVals, ⟨0, true⟩⟩,
          ⟨false, .readVals, ⟨0, true⟩⟩, ⟨false, .writeVals, ⟨0, true⟩⟩,
          ⟨false, .Unlock, ⟨0, true⟩⟩])
    ∧ (interleave [false, true, false, false, false] ⟨0, false⟩ ValueOps
        (AddOps false)).any LockStep.readUnderWriter = true
    ∧ (interleave [false, true, false, false, false] ⟨0, false⟩ ValueOps
        (AddOps false)).any LockStep.unlockedRead = true
    ∧ (interleave [false, true, false, false, false] ⟨0, false⟩ SetScoresOps
        (AddOps false)).any LockStep.readUnderWriter = true
    ∧ (∀ sched : List Bool, sched.length = 5 →
        (interleave sched ⟨0, false⟩ ValueOps (AddOps false)).any LockStep.unlockedWrite
          = false)
    ∧ (interleave [false, true, false, false, false, true, true, true] ⟨0, false⟩
        UpdateScalarDivideOps (AddOps false)).any LockStep.readUnderWriter = false := by
  refine ⟨by decide, by decide, by decide, by decide, ?_, by decide⟩
  intro sched hlen
  match sched, hlen with
  | [a, b, c, d, e], _ =>
    revert a b c d e
    decide

end featurevector


namespace featurevector

/-! ## Dense and sparse stores -/

theorem LockedArray_Add_natCast (a : LockedArray) (g d : Int) (n : Nat) :
    a.Add g n d = .ok ⟨(a.Vals ++ List.replicate (n + 1 - a.Vals.length) none).set n
      (some (cellAfterAdd ((a.Vals[n]?).join) g d))⟩ := by
  unfold LockedArray.Add
  by_cases hlt : n < a.Vals.length
  · have h1 : ((n : Int) < (a.Vals.length : Int)) := by exact_mod_cast hlt
    rw [if_pos h1]
    have h2 : n + 1 - a.Vals.length = 0 := by omega
    have h3 : a.Vals[n]? = some (a.Vals[n]) := List.getElem?_eq_getElem hlt
    simp only [sliceGet, sliceSet, Int.toNat_ofNat, Int.ofNat_zero_le, if_true, h3, h2,
      List.replicate_zero, List.append_nil, hlt, and_self, Option.join]
    cases hc : a.Vals[n] <;> simp [cellAfterAdd, Except.map]
  · have h1 : ¬ ((n : Int) < (a.Vals.length : Int)) := by exact_mod_cast hlt
    rw [if_neg h1]
    have h2 : ((n : Int) + 1).toNat = n + 1 := by omega
    have h3 : a.Vals[n]? = none := List.getElem?_eq_none (by omega)
    have h4 : (0 : Int) ≤ (n : Int) + 1 := by omega
    have h5 : a.Vals.length ≤ n + 1 := by omega
    have h6 : n < a.Vals.length + (n + 1 - a.Vals.length) := by omega
    have h7 : ¬ ((n : Int) ≥ ((a.Vals.length + (n + 1 - a.Vals.length) : Nat) : Int)) := by
      omega
    simp only [LockedArray.ExtendFor, makeSlice, h4, if_true, h2, List.length_replicate, h5,
      List.drop_replicate, List.length_append, h7, if_false, sliceSet, Int.toNat_ofNat,
      Int.ofNat_zero_le, h6, and_self, h3, Option.join, cellAfterAdd, Except.map]
    rfl

theorem LockedArray_GetValue_natCast (a : LockedArray) (n : Nat) :
    a.GetValue n = .ok ((a.Vals[n]?).join) := by
  unfold LockedArray.GetValue
  by_cases hlt : n < a.Vals.length
  · have h1 : ((n : Int) < (a.Vals.length : Int)) := by exact_mod_cast hlt
    rw [if_pos h1]
    simp [sliceGet, List.getElem?_eq_getElem hlt, Option.join]
  · have h1 : ¬ ((n : Int) < (a.Vals.length : Int)) := by exact_mod_cast hlt
    rw [if_neg h1, List.getElem?_eq_none (by omega)]
    rfl

theorem join_getElem?_append_replicate (vals : List (Option HistoryValue)) (k j : Nat) :
    ((vals ++ List.replicate k none)[j]?).join = (vals[j]?).join := by
  rw [List.getElem?_append]
  split
  · rfl
  · rename_i h
    rw [List.getElem?_replicate, List.getElem?_eq_none (show vals.length ≤ j by omega)]
    split <;> rfl

/-- The slots of a dense store after `Add`. -/
theorem LockedArray_Add_cells (a : LockedArray) (g d : Int) (n : Nat) :
    ∃ a', a.Add g n d = .ok a' ∧ ∀ j : Nat,
      (a'.Vals[j]?).join
        = if j = n then some (cellAfterAdd ((a.Vals[n]?).join) g d) else (a.Vals[j]?).join := by
  refine ⟨_, LockedArray_Add_natCast a g d n, fun j => ?_⟩
  simp only [List.getElem?_set, List.length_append, List.length_replicate]
  by_cases hj : j = n
  · subst hj
    have : j < a.Vals.length + (j + 1 - a.Vals.length) := by omega
    simp [this, Option.join]
  · have hj' : ¬ n = j := fun h => hj h.symm
    rw [if_neg hj', if_neg hj]
    exact join_getElem?_append_replicate _ _ _

theorem mem_of_mapGet {K V : Type} [DecidableEq K] (m : List (K × V)) (k : K) (v : V)
    (h : mapGet m k = some v) : (k, v) ∈ m := by
  induction m with
  | nil => simp [mapGet] at h
  | cons p rest ih =>
    obtain ⟨a, b⟩ := p
    simp only [mapGet] at h
    split at h
    · rename_i heq
      simp only [Option.some.injEq] at h
      subst heq; subst h
      exact List.mem_cons_self _ _
    · exact List.mem_cons_of_mem _ (ih h)

theorem mem_mapSet {K V : Type} [DecidableEq K] (m : List (K × V)) (k : K) (v : V)
    (p : K × V) (h : p ∈ mapSet m k v) : p ∈ m ∨ p = (k, v) := by
  induction m with
  | nil => simpa [mapSet] using h
  | cons q rest ih =>
    obtain ⟨a, b⟩ := q
    simp only [mapSet] at h
    split at h
    · rcases List.mem_cons.1 h with h1 | h1
      · exact Or.inr h1
      · exact Or.inl (List.mem_cons_of_mem _ h1)
    · rcases List.mem_cons.1 h with h1 | h1
      · exact Or.inl (h1 ▸ List.mem_cons_self _ _)
      · rcases ih h1 with h2 | h2
        · exact Or.inl (List.mem_cons_of_mem _ h2)
        · exact Or.inr h2

theorem NoNil_mapSet (m : LockedMap) (hm : NoNil m) (k : Int) (c : HistoryValue) :
    NoNil ⟨mapSet m.Vals k (some c)⟩ := by
  intro p hp
  rcases mem_mapSet m.Vals k (some c) p hp with h | h
  · exact hm p h
  · rw [h]; simp

/-- The entries of a sparse store after `Add`. -/
theorem LockedMap_Add_cells (m : LockedMap) (hm : NoNil m) (g t d : Int) :
    ∃ m', m.Add g t d = .ok m' ∧ NoNil m' ∧ ∀ k : Int,
      (mapGet m'.Vals k).join
        = if k = t then some (cellAfterAdd ((mapGet m.Vals t).join) g d)
          else (mapGet m.Vals k).join := by
  unfold LockedMap.Add
  cases hc : mapGet m.Vals t with
  | none =>
    refine ⟨_, rfl, NoNil_mapSet m hm t _, fun k => ?_⟩
    · simp only [conllu.mapGet_mapSet]
      by_cases hk : k = t
      · subst hk; simp [cellAfterAdd, Option.join]
      · have hk' : ¬ t = k := fun h => hk h.symm
        rw [if_neg hk', if_neg hk]
  | some c =>
    cases c with
    | none => exact absurd rfl (hm _ (mem_of_mapGet _ _ _ hc))
    | some h =>
      refine ⟨_, rfl, NoNil_mapSet m hm t _, fun k => ?_⟩
      · simp only [conllu.mapGet_mapSet]
        by_cases hk : k = t
        · subst hk; simp [cellAfterAdd, Option.join]
        · have hk' : ¬ t = k := fun h => hk h.symm
          rw [if_neg hk', if_neg hk]

theorem LockedMap_GetValue_eq (m : LockedMap) (k : Int) :
    m.GetValue k = (mapGet m.Vals k).join := by
  unfold LockedMap.GetValue
  cases mapGet m.Vals k with
  | none => rfl
  | some c => cases c <;> rfl

theorem Agree_AddAll (calls : List AddCall) :
    ∀ (a : LockedArray) (m : LockedMap), Agree a m → (∀ c ∈ calls, 0 ≤ c.transition) →
      ∃ a' m', a.AddAll calls = .ok a' ∧ m.AddAll calls = .ok m' ∧ Agree a' m' := by
  induction calls with
  | nil => intro a m h _; exact ⟨a, m, rfl, rfl, h⟩
  | cons c rest ih =>
    intro a m h hpos
    obtain ⟨n, hn⟩ := Int.eq_ofNat_of_zero_le (hpos c (List.mem_cons_self _ _))
    obtain ⟨a1, ha1, hcells⟩ := LockedArray_Add_cells a c.generation c.amount n
    obtain ⟨m1, hm1, hnn, hmcells⟩ := LockedMap_Add_cells m h.1 c.generation c.transition c.amount
    have hagree : Agree a1 m1 := by
      refine ⟨hnn, fun j => ?_⟩
      rw [hcells j, hmcells j, hn, h.2 n, h.2 j]
      by_cases hj : j = n
      · simp [hj]
      · have : ¬ ((j : Int) = (n : Int)) := by exact_mod_cast hj
        rw [if_neg hj, if_neg this]
    obtain ⟨a', m', ha', hm', hag⟩ :=
      ih a1 m1 hagree (fun c' hc' => hpos c' (List.mem_cons_of_mem _ hc'))
    refine ⟨a', m', ?_, ?_, hag⟩
    · simp only [LockedArray.AddAll]
      rw [hn, ha1]
      exact ha'
    · simp only [LockedMap.AddAll]
      rw [hm1]
      exact hm'

theorem rangeUpdate_integrateEntry (g : Int) (vals : List (Int × Option HistoryValue))
    (h : ∀ p ∈ vals, p.2 ≠ none) :
    rangeUpdate (integrateEntry g) vals
      = ⟨none, vals.map (fun p => (p.1, p.2.map (fun c => c.Integrate g)))⟩ := by
  induction vals with
  | nil => rfl
  | cons p rest ih =>
    obtain ⟨k, c⟩ := p
    cases c with
    | none => exact absurd rfl (h (k, none) (List.mem_cons_self _ _))
    | some c =>
      simp only [rangeUpdate, integrateEntry, List.map_cons]
      rw [ih (fun p hp => h p (List.mem_cons_of_mem _ hp))]
      rfl

theorem LockedMap_Integrate_cells (m : LockedMap) (hm : NoNil m) (g : Int) :
    ∃ m', m.Integrate g = ⟨none, m'⟩ ∧ ∀ k : Int,
      (mapGet m'.Vals k).join = ((mapGet m.Vals k).join).map (fun c => c.Integrate g) := by
  refine ⟨⟨m.Vals.map (fun p => (p.1, p.2.map (fun c => c.Integrate g)))⟩, ?_, fun k => ?_⟩
  · unfold LockedMap.Integrate
    rw [rangeUpdate_integrateEntry g m.Vals hm]
  · rw [mapGet_map_snd m.Vals (fun _ v => v.map (fun c => c.Integrate g)) k]
    cases mapGet m.Vals k with
    | none => rfl
    | some c => cases c <;> rfl

theorem LockedArray_Integrate_cells (a : LockedArray) (g : Int) (n : Nat) :
    ((a.Integrate g).Vals[n]?).join = ((a.Vals[n]?).join).map (fun c => c.Integrate g) := by
  simp only [LockedArray.Integrate, List.getElem?_map]
  cases a.Vals[n]? with
  | none => rfl
  | some c => cases c <;> rfl

/-- C27: a sequence of calls `Add(g_i, t_i, f_i, d_i)` with no negative
transition, applied to an empty `LockedArray` and to an empty `LockedMap`, is
carried out by both stores, and for every transition `t >= 0` the two stores
then return the same thing from `GetValue(t)`: nil in both, or a cell with the
same four fields. After `Integrate(g)` on both stores (which the sparse store
completes too) the same holds. -/
theorem dense_sparse_interchangeable (calls : List AddCall)
    (hpos : ∀ c ∈ calls, 0 ≤ c.transition) :
    ∃ a m, LockedArray.AddAll ⟨[]⟩ calls = .ok a ∧ LockedMap.AddAll ⟨[]⟩ calls = .ok m
      ∧ (∀ t : Int, 0 ≤ t → a.GetValue t = .ok (m.GetValue t))
      ∧ ∀ g : Int, ∃ m', m.Integrate g = ⟨none, m'⟩
          ∧ ∀ t : Int, 0 ≤ t → (a.Integrate g).GetValue t = .ok (m'.GetValue t) := by
  have h0 : Agree ⟨[]⟩ ⟨[]⟩ := ⟨fun p hp => by simp at hp, fun n => by simp [mapGet]⟩
  obtain ⟨a, m, ha, hm, hnn, hcells⟩ := Agree_AddAll calls ⟨[]⟩ ⟨[]⟩ h0 hpos
  refine ⟨a, m, ha, hm, ?_, fun g => ?_⟩
  · intro t ht
    obtain ⟨n, rfl⟩ := Int.eq_ofNat_of_zero_le ht
    rw [LockedArray_GetValue_natCast, LockedMap_GetValue_eq, hcells n]
  · obtain ⟨m', hm', hc'⟩ := LockedMap_Integrate_cells m hnn g
    refine ⟨m', hm', fun t ht => ?_⟩
    obtain ⟨n, rfl⟩ := Int.eq_ofNat_of_zero_le ht
    rw [LockedArray_GetValue_natCast, LockedMap_GetValue_eq, hc' n,
      LockedArray_Integrate_cells, hcells n]

theorem dense_sparse_interchangeable_witness :
    ∃ a m, LockedArray.AddAll ⟨[]⟩ [⟨1, 2, 5⟩, ⟨3, 0, 7⟩, ⟨4, 2, -1⟩] = .ok a
      ∧ LockedMap.AddAll ⟨[]⟩ [⟨1, 2, 5⟩, ⟨3, 0, 7⟩, ⟨4, 2, -1⟩] = .ok m
      ∧ (∀ t : Int, 0 ≤ t → a.GetValue t = .ok (m.GetValue t))
      ∧ ∀ g : Int, ∃ m', m.Integrate g = ⟨none, m'⟩
          ∧ ∀ t : Int, 0 ≤ t → (a.Integrate g).GetValue t = .ok (m'.GetValue t) :=
  dense_sparse_interchangeable [⟨1, 2, 5⟩, ⟨3, 0, 7⟩, ⟨4, 2, -1⟩] (by decide)

end featurevector


/-! # Properties of the order of strings -/

namespace gosort

theorem less_total : ∀ x y : List Char, less x y = false ∨ less y x = false
  | [], [] => Or.inl rfl
  | [], _ :: _ => Or.inr rfl
  | _ :: _, [] => Or.inl rfl
  | a :: as, b :: bs => by
    simp only [less]
    rcases Nat.lt_trichotomy a.toNat b.toNat with h | h | h
    · right
      rw [if_neg (by omega), if_pos h]
    · rw [h]
      simp only [Nat.lt_irrefl, if_false]
      exact less_total as bs
    · left
      rw [if_neg (by omega), if_pos h]

theorem less_antisymm : ∀ x y : List Char, less x y = false → less y x = false → x = y
  | [], [], _, _ => rfl
  | [], _ :: _, h, _ => by simp [less] at h
  | _ :: _, [], _, h => by simp [less] at h
  | a :: as, b :: bs, h1, h2 => by
    simp only [less] at h1 h2
    rcases Nat.lt_trichotomy a.toNat b.toNat with h | h | h
    · rw [if_pos h] at h1; simp at h1
    · rw [h] at h1
      rw [h] at h2
      simp only [Nat.lt_irrefl, if_false] at h1 h2
      have hab : a = b := by
        have := congrArg Char.ofNat h
        simpa using this
      rw [hab, less_antisymm as bs h1 h2]
    · rw [if_pos h] at h2; simp at h2

theorem less_nil_right (z : List Char) : less z [] = false := by
  cases z <;> rfl

theorem less_trans : ∀ x y z : List Char, less y x = false → less z y = false →
    less z x = false
  | [], _, z, _, _ => less_nil_right z
  | _ :: _, [], _, h, _ => by simp [less] at h
  | _ :: _, _ :: _, [], _, h => by simp [less] at h
  | a :: as, b :: bs, c :: cs, h1, h2 => by
    simp only [less] at h1 h2 ⊢
    rcases Nat.lt_trichotomy b.toNat a.toNat with h | h | h
    · rw [if_pos h] at h1; simp at h1
    · rw [h] at h1 h2
      simp only [Nat.lt_irrefl, if_false] at h1
      rcases Nat.lt_trichotomy c.toNat a.toNat with h' | h' | h'
      · rw [if_pos h'] at h2; simp at h2
      · rw [h'] at h2 ⊢
        simp only [Nat.lt_irrefl, if_false] at h2 ⊢
        exact less_trans as bs cs h1 h2
      · rw [if_neg (by omega), if_pos h']
    · rcases Nat.lt_trichotomy c.toNat b.toNat with h' | h' | h'
      · rw [if_pos h'] at h2; simp at h2
      · rw [h']
        rw [if_neg (by omega), if_pos h]
      · rw [if_neg (by omega), if_pos (by omega)]

instance : IsTotal String LE := ⟨fun a b => less_total b.data a.data⟩

instance : IsTrans String LE := ⟨fun a b c h1 h2 => less_trans a.data b.data c.data h1 h2⟩

instance : IsAntisymm String LE :=
  ⟨fun a b h1 h2 => String.ext (less_antisymm a.data b.data h2 h1)⟩

theorem Strings_sorted (strs : List String) : (Strings strs).Sorted LE :=
  List.sorted_insertionSort LE strs

theorem Strings_perm (strs : List String) : (Strings strs).Perm strs :=
  List.perm_insertionSort LE strs

theorem Strings_eq_of_perm {l₁ l₂ : List String} (h : l₁.Perm l₂) : Strings l₁ = Strings l₂ :=
  List.eq_of_perm_of_sorted (((Strings_perm l₁).trans h).trans (Strings_perm l₂).symm)
    (Strings_sorted l₁) (Strings_sorted l₂)

end gosort


/-! # Properties of the feature views and of the tabular writer -/

namespace conllu

open featurevector (Run mapGet mapSet)

/-- C21: a record whose FEATS field is `_` is parsed into a row with an empty
`FeatStr`; `Row.String` writes that empty string, not `_`, so the ten fields
obtained by splitting the text on TAB are rejected by `ParseRow` with the error
raised for the FEATS field. -/
theorem Row_String_not_read_back :
    ParseRow false ["1", "dogs", "dog", "NOUN", "NN", "_", "0", "root", "_", "_"]
      = .ok
          { zeroRow with
            ID := 1, Form := "dogs", Lemma := "dog", UPosTag := "NOUN", XPosTag := "NN",
            DepRel := "root" }
    ∧ Row.String
          { zeroRow with
            ID := 1, Form := "dogs", Lemma := "dog", UPosTag := "NOUN", XPosTag := "NN",
            DepRel := "root" }
        = "1\tdogs\tdog\tNOUN\tNN\t\t0\troot\t\t"
    ∧ gostrings.Split "1\tdogs\tdog\tNOUN\tNN\t\t0\troot\t\t" '\t'
        = ["1", "dogs", "dog", "NOUN", "NN", "", "0", "root", "", ""]
    ∧ ParseRow false ["1", "dogs", "dog", "NOUN", "NN", "", "0", "root", "", ""]
        = .error
            { zeroRow with
              ID := 1, Form := "dogs", Lemma := "dog", UPosTag := "NOUN", XPosTag := "NN" }
            "Error parsing FEATS field (): Wrong number of fields for split of feature" := by
  refine ⟨by decide, by decide, by decide, by decide⟩

/-- C22: `MorphGraph2ConllCorpus` and `Graph2ConllUCorpus` store in every
element of their result the `*Sentence` that the converter returns, while
`Write` asserts the type `Sentence`: on the result of either converter for a
corpus that is not empty, `Write` panics at the type assertion of the first
element and writes nothing. The last two conjuncts are the corpus of one graph
with one morpheme. -/
theorem Write_panics_on_converted_corpus :
    (∀ (ROOT_LABEL w : String) (graph : MorphDependencyGraph)
        (corpus : List MorphDependencyGraph) (sents : List SentValue),
        MorphGraph2ConllCorpus ROOT_LABEL (graph :: corpus) = .ok sents →
        Write w sents = ⟨some sentenceAssertion, w⟩)
    ∧ (∀ (ROOT_LABEL w : String) (IGNORE_LEMMA : Bool) (nodeID : TaggedDepNode → Int)
        (nodeString : TaggedDepNode → String) (eMHost eMSuffix : util.EnumSet String)
        (graph : LabeledDependencyGraph) (corpus : List LabeledDependencyGraph)
        (sents : List SentValue),
        Graph2ConllUCorpus ROOT_LABEL IGNORE_LEMMA nodeID nodeString eMHost eMSuffix
          (graph :: corpus) = .ok sents →
        Write w sents = ⟨some sentenceAssertion, w⟩)
    ∧ MorphGraph2ConllCorpus "ROOT"
        [⟨[], [], [0], [(0, ⟨⟨(0, 0, 1), "dogs", "dog", "NOUN", "NOUN", none, 0, ""⟩,
          0, 0, 0, 0, 0, 0, 0⟩)]⟩]
        = .ok [.pointer ⟨[(1,
            { zeroRow with
              ID := 1, Form := "dogs", UPosTag := "NOUN", XPosTag := "NOUN", Head := 1,
              DepRel := "None" })], []⟩]
    ∧ Write ""
        [.pointer ⟨[(1,
            { zeroRow with
              ID := 1, Form := "dogs", UPosTag := "NOUN", XPosTag := "NOUN", Head := 1,
              DepRel := "None" })], []⟩]
        = ⟨some sentenceAssertion, ""⟩
    ∧ Write ""
        [.sentence ⟨[(1,
            { zeroRow with
              ID := 1, Form := "dogs", UPosTag := "NOUN", XPosTag := "NOUN", Head := 1,
              DepRel := "None" })], []⟩]
        = ⟨none, "1\tdogs\t\tNOUN\tNOUN\t\t1\tNone\t\t\n\n"⟩ := by
  refine ⟨?_, ?_, by decide, by decide, by decide⟩
  · intro ROOT_LABEL w graph corpus sents h
    simp only [MorphGraph2ConllCorpus] at h
    cases h1 : MorphGraph2ConllU ROOT_LABEL graph with
    | error e => rw [h1] at h; simp at h
    | ok sent =>
      rw [h1] at h
      simp only at h
      cases h2 : MorphGraph2ConllCorpus ROOT_LABEL corpus with
      | error e => rw [h2] at h; simp at h
      | ok rest =>
        rw [h2] at h
        simp only [Except.ok.injEq] at h
        subst h
        rfl
  · intro ROOT_LABEL w IGNORE_LEMMA nodeID nodeString eMHost eMSuffix graph corpus sents h
    simp only [Graph2ConllUCorpus] at h
    cases h1 : Graph2ConllU ROOT_LABEL IGNORE_LEMMA nodeID nodeString graph eMHost eMSuffix with
    | error e => rw [h1] at h; simp at h
    | ok sent =>
      rw [h1] at h
      simp only at h
      cases h2 : Graph2ConllUCorpus ROOT_LABEL IGNORE_LEMMA nodeID nodeString eMHost eMSuffix
          corpus with
      | error e => rw [h2] at h; simp at h
      | ok rest =>
        rw [h2] at h
        simp only [Except.ok.injEq] at h
        subst h
        rfl

theorem morphStrs_short_name (wantSuf : Bool) (entries : List (String × String))
    (h : ∃ p ∈ entries, p.1.utf8ByteSize < 3) :
    morphStrs wantSuf entries = .error sliceBoundsOutOfRange := by
  induction entries with
  | nil => simp at h
  | cons p rest ih =>
    obtain ⟨name, value⟩ := p
    simp only [morphStrs, startsWithSuf]
    by_cases hn : name.utf8ByteSize < 3
    · rw [if_pos hn]
    · rw [if_neg hn]
      have h' : ∃ p ∈ rest, p.1.utf8ByteSize < 3 := by
        obtain ⟨q, hq, hq2⟩ := h
        rcases List.mem_cons.1 hq with rfl | hq'
        · exact absurd hq2 hn
        · exact ⟨q, hq', hq2⟩
      rw [ih h']

/-- C23: a feature whose name has fewer than three bytes makes the slice
expression `name[0:3]` of `MorphHost` and of `MorphSuffix` panic, whatever the
other features are: neither view is returned. The map with the single feature
`n=s` is one such map; on a map whose names have three bytes or more the two
views are returned and split the features. -/
theorem MorphHost_panics_on_short_name :
    Features.MorphHost (some [("n", "s")]) = .error sliceBoundsOutOfRange
    ∧ Features.MorphSuffix (some [("n", "s")]) = .error sliceBoundsOutOfRange
    ∧ (∀ entries : List (String × String), (∃ p ∈ entries, p.1.utf8ByteSize < 3) →
        Features.MorphHost (some entries) = .error sliceBoundsOutOfRange
        ∧ Features.MorphSuffix (some entries) = .error sliceBoundsOutOfRange)
    ∧ Features.MorphHost (some [("num", "S"), ("suf_gen", "M"), ("gen", "F")])
        = .ok "gen=F|num=S"
    ∧ Features.MorphSuffix (some [("num", "S"), ("suf_gen", "M"), ("gen", "F")])
        = .ok "suf_gen=M" := by
  refine ⟨by decide, by decide, ?_, by decide, by decide⟩
  intro entries h
  simp [Features.MorphHost, Features.MorphSuffix, morphStrs_short_name _ entries h]

/-- C24, as the spec states it, fails: for the map with the entries `a=y` and
`a1=x` the key `a` comes before the key `a1`, so the serialisation in ascending
order of the keys is `a=y|a1=x`, while `FormatFeatures` returns `a1=x|a=y`,
because it sorts the strings `key=value` and `1` is smaller than `=`. -/
theorem FormatFeatures_sorts_entries_counterexample :
    FormatFeatures (some [("a", "y"), ("a1", "x")]) = "a1=x|a=y"
    ∧ formatByKey (some [("a", "y"), ("a1", "x")]) = "a=y|a1=x"
    ∧ gosort.LE "a" "a1" ∧ ¬ gosort.LE "a1" "a"
    ∧ FormatFeatures (some [("a", "y"), ("a1", "x")])
        ≠ formatByKey (some [("a", "y"), ("a1", "x")]) := by
  refine ⟨by decide, by decide, by decide, by decide, by decide⟩

/-- C24, amended: `FormatFeatures` returns `_` for a nil or empty map; for a map
that is not empty it returns the strings `key=value` of the entries joined by
`|`, each entry once, in ascending order of these strings; and the result is
the same for every order in which the entries of the map are visited. -/
theorem FormatFeatures_sorted_entries :
    FormatFeatures none = "_" ∧ FormatFeatures (some []) = "_"
    ∧ (∀ entries : List (String × String), entries ≠ [] →
        ∃ strs, FormatFeatures (some entries) = gostrings.Join strs "|"
          ∧ strs.Perm (entries.map (fun kv => formatEntry kv.1 kv.2))
          ∧ strs.Sorted gosort.LE)
    ∧ (∀ entries entries' : List (String × String), entries.Perm entries' →
        FormatFeatures (some entries) = FormatFeatures (some entries')) := by
  refine ⟨rfl, rfl, ?_, ?_⟩
  · intro entries hne
    refine ⟨gosort.Strings (entries.map (fun kv => formatEntry kv.1 kv.2)), ?_,
      gosort.Strings_perm _, gosort.Strings_sorted _⟩
    cases entries with
    | nil => exact absurd rfl hne
    | cons p rest => rfl
  · intro entries entries' hperm
    cases entries with
    | nil =>
      have : entries' = [] := List.Perm.eq_nil hperm.symm
      rw [this]
    | cons p rest =>
      cases entries' with
      | nil => exact absurd (List.Perm.eq_nil hperm) (by simp)
      | cons q rest' =>
        simp only [FormatFeatures]
        rw [gosort.Strings_eq_of_perm (hperm.map _)]

end conllu


/-! # Properties of the enumerations -/

namespace util

theorem EnumSet_Add_new {α : Type} [DecidableEq α] (e : EnumSet α) (v : α)
    (hv : v ∉ e.Values) (hf : e.Frozen = false) :
    e.Add v = (⟨e.Values ++ [v], false⟩, ((e.Values.length : Nat) : Int), true) := by
  unfold EnumSet.Add
  rw [if_neg hv, hf]
  cases e
  simp at hf
  simp [hf]

theorem EnumSet_IndexOf_getElem {α : Type} [DecidableEq α] (e : EnumSet α)
    (hnd : e.Values.Nodup) (i : Nat) (v : α) (hi : e.Values[i]? = some v) :
    e.IndexOf v = ((i : Int), true) := by
  obtain ⟨hlt, hget⟩ := List.getElem?_eq_some.1 hi
  have hmem : v ∈ e.Values := hget ▸ List.getElem_mem _
  unfold EnumSet.IndexOf
  rw [if_pos hmem, ← hget, List.indexOf_getElem hnd i hlt]

end util

namespace morphparse

open util

theorem addAll_values (names : List String) :
    ∀ e : EnumSet String, e.Frozen = false → (e.Values ++ names).Nodup →
      addAll names e = ⟨e.Values ++ names, false⟩ := by
  induction names with
  | nil =>
    intro e hf _
    cases e
    simp at hf
    simp [addAll, hf]
  | cons name rest ih =>
    intro e hf hnd
    have hnot : name ∉ e.Values := by
      intro hmem
      have := (List.nodup_append.1 hnd).2.2
      exact this hmem (List.mem_cons_self _ _)
    simp only [addAll]
    rw [EnumSet_Add_new e name hnot hf]
    have hnd' : ((e.Values ++ [name]) ++ rest).Nodup := by simpa using hnd
    rw [ih ⟨e.Values ++ [name], false⟩ rfl hnd']
    simp

theorem append_left_injective (pre : String) :
    Function.Injective (fun s : String => pre ++ s) := by
  intro a b h
  have := congrArg String.data h
  simp only [String.data_append, List.append_cancel_left_eq] at this
  exact String.ext this

theorem LABELS_nodup (ROOT_LABEL : String) (hroot : ROOT_LABEL ∉ labelNames) :
    (LABELS ROOT_LABEL).Nodup := by
  unfold LABELS
  rw [List.nodup_append]
  refine ⟨by decide, List.nodup_singleton _, ?_⟩
  intro x hx hx'
  rw [List.mem_singleton] at hx'
  exact hroot (hx' ▸ hx)

theorem key_LA (t : String) : ("LA-" ++ t).data.take 2 = ['L', 'A'] := by
  rw [String.data_append]; rfl

theorem key_RA (t : String) : ("RA-" ++ t).data.take 2 = ['R', 'A'] := by
  rw [String.data_append]; rfl

theorem key_base (x : String) (hx : x ∈ ["NO", "SH", "RE", "PR", "IDLE"]) :
    x.data.take 2 ≠ ['L', 'A'] ∧ x.data.take 2 ≠ ['R', 'A'] := by
  simp only [List.mem_cons, List.mem_singleton, List.not_mem_nil, or_false] at hx
  rcases hx with rfl | rfl | rfl | rfl | rfl <;> exact ⟨by decide, by decide⟩

theorem transNames_nodup (labels : List String) (h : labels.Nodup) :
    (transNames labels).Nodup := by
  unfold transNames
  rw [List.nodup_append, List.nodup_append]
  refine ⟨⟨by decide, h.map (append_left_injective "LA-"), ?_⟩,
    h.map (append_left_injective "RA-"), ?_⟩
  · intro x hx hx'
    obtain ⟨t, -, rfl⟩ := List.mem_map.1 hx'
    exact (key_base _ hx).1 (key_LA t)
  · intro x hx hx'
    obtain ⟨t, -, rfl⟩ := List.mem_map.1 hx'
    rcases List.mem_append.1 hx with h1 | h1
    · exact (key_base _ h1).2 (key_RA t)
    · obtain ⟨t', -, h2⟩ := List.mem_map.1 h1
      have := key_LA t'
      rw [h2, key_RA] at this
      exact absurd this (by decide)

theorem SetupMorphTransEnum_eq (ROOT_LABEL : String) (vars : Vars)
    (h : (LABELS ROOT_LABEL).Nodup) :
    SetupMorphTransEnum ROOT_LABEL vars
      = { vars with
          ETrans := some ⟨transNames (LABELS ROOT_LABEL), false⟩, SH := 1, RE := 2, PR := 3,
          IDLE := 4, LA := 5, RA := 5 + ((LABELS ROOT_LABEL).length : Nat),
          MD := 5 + ((LABELS ROOT_LABEL).length : Nat) + ((LABELS ROOT_LABEL).length : Nat) } := by
  have hnd := transNames_nodup _ h
  unfold transNames at hnd
  have hnd1 : (["NO", "SH", "RE", "PR", "IDLE"]
      ++ (LABELS ROOT_LABEL).map (fun t => "LA-" ++ t)).Nodup := (List.nodup_append.1 hnd).1
  have e0 : ∀ n : Int, (NewEnumSet String n).Add "NO" = (⟨["NO"], false⟩, 0, true) :=
    fun _ => rfl
  have e1 : (⟨["NO"], false⟩ : EnumSet String).Add "SH" = (⟨["NO", "SH"], false⟩, 1, true) := by
    decide
  have e2 : (⟨["NO", "SH"], false⟩ : EnumSet String).Add "RE"
      = (⟨["NO", "SH", "RE"], false⟩, 2, true) := by decide
  have e3 : (⟨["NO", "SH", "RE"], false⟩ : EnumSet String).Add "PR"
      = (⟨["NO", "SH", "RE", "PR"], false⟩, 3, true) := by decide
  have e4 : (⟨["NO", "SH", "RE", "PR"], false⟩ : EnumSet String).Add "IDLE"
      = (⟨["NO", "SH", "RE", "PR", "IDLE"], false⟩, 4, true) := by decide
  have a1 := addAll_values ((LABELS ROOT_LABEL).map (fun t => "LA-" ++ t))
    ⟨["NO", "SH", "RE", "PR", "IDLE"], false⟩ rfl hnd1
  have a2 := addAll_values ((LABELS ROOT_LABEL).map (fun t => "RA-" ++ t))
    ⟨["NO", "SH", "RE", "PR", "IDLE"] ++ (LABELS ROOT_LABEL).map (fun t => "LA-" ++ t), false⟩
    rfl hnd
  simp only [SetupMorphTransEnum, e0, e1, e2, e3, e4, a1, a2, EnumSet.Len, transNames,
    List.length_append, List.length_map, List.length_cons, List.length_nil]
  congr 1

theorem SetupRelationEnum_eq (ROOT_LABEL : String) (vars : Vars) (hnil : vars.ERel = none)
    (h : (LABELS ROOT_LABEL).Nodup) :
    SetupRelationEnum ROOT_LABEL vars = { vars with ERel := some ⟨LABELS ROOT_LABEL, true⟩ } := by
  unfold SetupRelationEnum
  rw [hnil]
  have a := addAll_values (LABELS ROOT_LABEL) (NewEnumSet String (LABELS ROOT_LABEL).length) rfl
    (by simpa [NewEnumSet] using h)
  simp only [NewEnumSet] at a ⊢
  rw [a]
  simp

theorem transNames_LA (labels : List String) (i : Nat) (l : String) (h : labels[i]? = some l) :
    (transNames labels)[5 + i]? = some ("LA-" ++ l) := by
  obtain ⟨hlt, hget⟩ := List.getElem?_eq_some.1 h
  unfold transNames
  rw [List.append_assoc, List.getElem?_append_right (by simp), List.getElem?_append_left
    (by simpa using hlt)]
  simp [h]

theorem transNames_RA (labels : List String) (i : Nat) (l : String) (h : labels[i]? = some l) :
    (transNames labels)[5 + labels.length + i]? = some ("RA-" ++ l) := by
  unfold transNames
  rw [List.getElem?_append_right (by simp; omega)]
  have e : 5 + labels.length + i
      - (["NO", "SH", "RE", "PR", "IDLE"] ++ labels.map (fun t => "LA-" ++ t)).length = i := by
    simp; omega
  rw [e]
  simp [h]

/-- C25: with the enumeration registry assigning the indices 0, 1, 2, ... to new
names in the order of their insertion, and `nlp.ROOT_LABEL` not one of the 44
labels written out in `LABELS`, `SetupEnum` on package variables whose `ERel` is
nil leaves: `NO` at index 0, `SH = 1`, `RE = 2`, `PR = 3`, `IDLE = 4`, `LA = 5`,
`RA = LA + |LABELS|`, `MD = RA + |LABELS|`; `LA-` + `LABELS[i]` at index `LA + i`
and `RA-` + `LABELS[i]` at index `RA + i`; for a relation with index `k` in
`ERel`, `LA-l` at `LA + k` and `RA-l` at `RA + k`; the four single transitions
below `LA`, then `[LA, RA)`, `[RA, MD)` and, from `MD` on, the indices of the
names added later. -/
theorem SetupEnum_indices (ROOT_LABEL : String) (hroot : ROOT_LABEL ∉ labelNames)
    (vars : Vars) (hnil : vars.ERel = none) :
    ∃ ERel ETrans : EnumSet String,
      (SetupEnum ROOT_LABEL vars).ERel = some ERel
      ∧ (SetupEnum ROOT_LABEL vars).ETrans = some ETrans
      ∧ ETrans.IndexOf "NO" = (0, true)
      ∧ ETrans.IndexOf "SH" = ((SetupEnum ROOT_LABEL vars).SH, true)
      ∧ ETrans.IndexOf "RE" = ((SetupEnum ROOT_LABEL vars).RE, true)
      ∧ ETrans.IndexOf "PR" = ((SetupEnum ROOT_LABEL vars).PR, true)
      ∧ ETrans.IndexOf "IDLE" = ((SetupEnum ROOT_LABEL vars).IDLE, true)
      ∧ (SetupEnum ROOT_LABEL vars).SH = 1 ∧ (SetupEnum ROOT_LABEL vars).RE = 2
      ∧ (SetupEnum ROOT_LABEL vars).PR = 3 ∧ (SetupEnum ROOT_LABEL vars).IDLE = 4
      ∧ (SetupEnum ROOT_LABEL vars).LA = 5
      ∧ (SetupEnum ROOT_LABEL vars).RA
          = (SetupEnum ROOT_LABEL vars).LA + ((LABELS ROOT_LABEL).length : Nat)
      ∧ (SetupEnum ROOT_LABEL vars).MD
          = (SetupEnum ROOT_LABEL vars).RA + ((LABELS ROOT_LABEL).length : Nat)
      ∧ (∀ (i : Nat) (l : String), (LABELS ROOT_LABEL)[i]? = some l →
          ETrans.IndexOf ("LA-" ++ l) = ((SetupEnum ROOT_LABEL vars).LA + (i : Nat), true)
          ∧ ETrans.IndexOf ("RA-" ++ l) = ((SetupEnum ROOT_LABEL vars).RA + (i : Nat), true))
      ∧ (∀ (l : String) (k : Int), ERel.IndexOf l = (k, true) →
          ETrans.IndexOf ("LA-" ++ l) = ((SetupEnum ROOT_LABEL vars).LA + k, true)
          ∧ ETrans.IndexOf ("RA-" ++ l) = ((SetupEnum ROOT_LABEL vars).RA + k, true))
      ∧ (SetupEnum ROOT_LABEL vars).IDLE < (SetupEnum ROOT_LABEL vars).LA
      ∧ (SetupEnum ROOT_LABEL vars).LA < (SetupEnum ROOT_LABEL vars).RA
      ∧ (SetupEnum ROOT_LABEL vars).RA < (SetupEnum ROOT_LABEL vars).MD
      ∧ ETrans.Len = (SetupEnum ROOT_LABEL vars).MD := by
  have hL := LABELS_nodup ROOT_LABEL hroot
  have hT := transNames_nodup _ hL
  have hlen : (LABELS ROOT_LABEL).length = 45 := by simp [LABELS, labelNames]
  have hv : SetupEnum ROOT_LABEL vars
      = { vars with
          ERel := some ⟨LABELS ROOT_LABEL, true⟩
          ETrans := some ⟨transNames (LABELS ROOT_LABEL), false⟩, SH := 1, RE := 2, PR := 3,
          IDLE := 4, LA := 5, RA := 5 + ((LABELS ROOT_LABEL).length : Nat),
          MD := 5 + ((LABELS ROOT_LABEL).length : Nat) + ((LABELS ROOT_LABEL).length : Nat),
          EWord := some (NewEnumSet String APPROX_WORDS)
          EPOS := some (NewEnumSet String APPROX_POS)
          EWPOS := some (NewEnumSet (String × String) (APPROX_WORDS * 5)) } := by
    unfold SetupEnum
    rw [SetupRelationEnum_eq ROOT_LABEL vars hnil hL, SetupMorphTransEnum_eq ROOT_LABEL _ hL]
  have hidx : ∀ (i : Nat) (v : String), (transNames (LABELS ROOT_LABEL))[i]? = some v →
      (⟨transNames (LABELS ROOT_LABEL), false⟩ : EnumSet String).IndexOf v = ((i : Int), true) :=
    fun i v h => EnumSet_IndexOf_getElem ⟨_, false⟩ hT i v h
  have hLA : ∀ (i : Nat) (l : String), (LABELS ROOT_LABEL)[i]? = some l →
      (⟨transNames (LABELS ROOT_LABEL), false⟩ : EnumSet String).IndexOf ("LA-" ++ l)
        = ((5 : Int) + (i : Nat), true)
      ∧ (⟨transNames (LABELS ROOT_LABEL), false⟩ : EnumSet String).IndexOf ("RA-" ++ l)
        = ((5 : Int) + ((LABELS ROOT_LABEL).length : Nat) + (i : Nat), true) := by
    intro i l h
    constructor
    · rw [hidx _ _ (transNames_LA _ i l h)]; push_cast; rfl
    · rw [hidx _ _ (transNames_RA _ i l h)]; push_cast; rfl
  rw [hv]
  refine ⟨_, _, rfl, rfl, hidx 0 _ rfl, hidx 1 _ rfl, hidx 2 _ rfl, hidx 3 _ rfl, hidx 4 _ rfl,
    rfl, rfl, rfl, rfl, rfl, rfl, rfl, hLA, ?_, ?_, ?_, ?_, ?_⟩
  · intro l k hk
    simp only [EnumSet.IndexOf] at hk
    split at hk
    · rename_i hmem
      simp only [Prod.mk.injEq, and_true] at hk
      have hlt : List.indexOf l (LABELS ROOT_LABEL) < (LABELS ROOT_LABEL).length :=
        List.indexOf_lt_length.2 hmem
      have hget : (LABELS ROOT_LABEL)[List.indexOf l (LABELS ROOT_LABEL)]? = some l := by
        rw [List.getElem?_eq_getElem hlt, List.getElem_indexOf hlt]
      rw [← hk]
      exact hLA _ l hget
    · simp at hk
  · show (4 : Int) < 5
    decide
  · simp only [hlen]; decide
  · simp only [hlen]; decide
  · simp only [EnumSet.Len, transNames, List.length_append, List.length_map, List.length_cons,
      List.length_nil]
    push_cast
    ring

theorem SetupEnum_indices_witness :
    ∃ ERel ETrans : EnumSet String,
      (SetupEnum "ROOT" initialVars).ERel = some ERel
      ∧ (SetupEnum "ROOT" initialVars).ETrans = some ETrans
      ∧ ETrans.IndexOf "NO" = (0, true)
      ∧ ETrans.IndexOf "SH" = ((SetupEnum "ROOT" initialVars).SH, true)
      ∧ ETrans.IndexOf "RE" = ((SetupEnum "ROOT" initialVars).RE, true)
      ∧ ETrans.IndexOf "PR" = ((SetupEnum "ROOT" initialVars).PR, true)
      ∧ ETrans.IndexOf "IDLE" = ((SetupEnum "ROOT" initialVars).IDLE, true)
      ∧ (SetupEnum "ROOT" initialVars).SH = 1 ∧ (SetupEnum "ROOT" initialVars).RE = 2
      ∧ (SetupEnum "ROOT" initialVars).PR = 3 ∧ (SetupEnum "ROOT" initialVars).IDLE = 4
      ∧ (SetupEnum "ROOT" initialVars).LA = 5
      ∧ (SetupEnum "ROOT" initialVars).RA
          = (SetupEnum "ROOT" initialVars).LA + ((LABELS "ROOT").length : Nat)
      ∧ (SetupEnum "ROOT" initialVars).MD
          = (SetupEnum "ROOT" initialVars).RA + ((LABELS "ROOT").length : Nat)
      ∧ (∀ (i : Nat) (l : String), (LABELS "ROOT")[i]? = some l →
          ETrans.IndexOf ("LA-" ++ l) = ((SetupEnum "ROOT" initialVars).LA + (i : Nat), true)
          ∧ ETrans.IndexOf ("RA-" ++ l) = ((SetupEnum "ROOT" initialVars).RA + (i : Nat), true))
      ∧ (∀ (l : String) (k : Int), ERel.IndexOf l = (k, true) →
          ETrans.IndexOf ("LA-" ++ l) = ((SetupEnum "ROOT" initialVars).LA + k, true)
          ∧ ETrans.IndexOf ("RA-" ++ l) = ((SetupEnum "ROOT" initialVars).RA + k, true))
      ∧ (SetupEnum "ROOT" initialVars).IDLE < (SetupEnum "ROOT" initialVars).LA
      ∧ (SetupEnum "ROOT" initialVars).LA < (SetupEnum "ROOT" initialVars).RA
      ∧ (SetupEnum "ROOT" initialVars).RA < (SetupEnum "ROOT" initialVars).MD
      ∧ ETrans.Len = (SetupEnum "ROOT" initialVars).MD :=
  SetupEnum_indices "ROOT" (by decide) initialVars rfl

end morphparse


/-! # Properties of the conversion to a morphological graph -/

namespace conllu

open featurevector (mapGet mapSet wrap64 indexOutOfRange sliceGet sliceSet)

theorem morphStrs_ok (wantSuf : Bool) (entries : List (String × String))
    (h : ∀ p ∈ entries, 3 ≤ p.1.utf8ByteSize) : ∃ strs, morphStrs wantSuf entries = .ok strs := by
  induction entries with
  | nil => exact ⟨[], rfl⟩
  | cons p rest ih =>
    obtain ⟨name, value⟩ := p
    obtain ⟨strs, hstrs⟩ := ih (fun q hq => h q (List.mem_cons_of_mem _ hq))
    have hn : ¬ name.utf8ByteSize < 3 := by
      have := h (name, value) (List.mem_cons_self _ _)
      simp only at this
      omega
    simp only [morphStrs, startsWithSuf, if_neg hn, hstrs]
    exact ⟨_, rfl⟩

theorem MorphHost_ok (f : Features) (h : ∀ p ∈ f.getD [], 3 ≤ p.1.utf8ByteSize) :
    (∃ host, f.MorphHost = .ok host) ∧ ∃ suffix, f.MorphSuffix = .ok suffix := by
  obtain ⟨s1, h1⟩ := morphStrs_ok false _ h
  obtain ⟨s2, h2⟩ := morphStrs_ok true _ h
  exact ⟨⟨gostrings.Join (gosort.Strings s1) "|", by simp only [Features.MorphHost, h1]⟩,
    ⟨gostrings.Join (gosort.Strings s2) "|", by simp only [Features.MorphSuffix, h2]⟩⟩

theorem wordOf_ok (WORD_TYPE : String) (row : Row) (h : KnownWordType WORD_TYPE) :
    ∃ word, wordOf WORD_TYPE row = .ok word := by
  rcases h with rfl | rfl | rfl
  · exact ⟨_, rfl⟩
  · exact ⟨_, rfl⟩
  · unfold wordOf
    by_cases hl : row.Lemma ≠ ""
    · exact ⟨row.Lemma, by simp [hl]⟩
    · exact ⟨row.Form, by simp [hl]⟩

/-- One turn of the main loop, when nothing panics. -/
theorem morphGraphRow_ok (WORD_TYPE : String) (sent : Sentence) (i : Int) (st : MorphGraphState)
    (hw : KnownWordType WORD_TYPE)
    (hfeat : ∀ p ∈ (rowAt sent i).Feats.getD [], 3 ≤ p.1.utf8ByteSize)
    (hi : 0 ≤ i - 1) (harcs : (i - 1).toNat < st.arcs.length)
    (lattice : Lattice) (ht : 0 ≤ (rowAt sent i).TokenID)
    (hlat : st.lattices[(rowAt sent i).TokenID.toNat]? = some lattice) :
    ∃ st' em, morphGraphRow WORD_TYPE sent i st = .ok st'
      ∧ st'.lattices = st.lattices.set (rowAt sent i).TokenID.toNat
          (extendLattice lattice st.curLatNode em)
      ∧ em.Morpheme.Edge = (st.curLatNode, st.curLatNode, st.curLatNode + 1)
      ∧ st'.curLatNode = st.curLatNode + 1
      ∧ st'.arcs.length = st.arcs.length := by
  obtain ⟨word, hword⟩ := wordOf_ok WORD_TYPE (rowAt sent i) hw
  obtain ⟨⟨host, hhost⟩, ⟨suffix, hsuffix⟩⟩ := MorphHost_ok _ hfeat
  have hset : ∀ a, sliceSet st.arcs (i - 1) a = .ok (st.arcs.set (i - 1).toNat a) := by
    intro a
    unfold sliceSet
    rw [if_pos ⟨hi, harcs⟩]
  have hget : sliceGet st.lattices (rowAt sent i).TokenID = .ok lattice := by
    unfold sliceGet
    rw [if_pos ht, hlat]
  unfold morphGraphRow
  simp only [hword, hhost, hsuffix, hset, hget]
  refine ⟨_, _, rfl, rfl, rfl, rfl, ?_⟩
  simp

end conllu


namespace conllu

open featurevector (mapGet mapSet wrap64 indexOutOfRange sliceGet sliceSet)

theorem tokenRows_succ (sent : Sentence) (t : Int) (k : Nat) :
    tokenRows sent t (k + 1)
      = if (rowAt sent ((k : Int) + 1)).TokenID = t then tokenRows sent t k ++ [k]
        else tokenRows sent t k := by
  unfold tokenRows
  rw [List.range_succ, List.filter_append]
  by_cases h : (rowAt sent ((k : Int) + 1)).TokenID = t
  · simp [h]
  · simp [h]

theorem mapSet_ne_nil {K V : Type} [DecidableEq K] (m : List (K × V)) (k : K) (v : V) :
    mapSet m k v ≠ [] := by
  cases m with
  | nil => simp [mapSet]
  | cons p rest =>
    obtain ⟨a, b⟩ := p
    simp only [mapSet]
    split <;> simp

/-- The lattice of the token of row `k + 1` after the turn of the loop for that
row. -/
theorem extendLattice_OK (sent : Sentence) (t : Int) (k : Nat) (lattice : Lattice)
    (em : EMorpheme) (h : LatticeOK sent t k lattice)
    (hem : em.Morpheme.Edge = ((k : Int), (k : Int), (k : Int) + 1))
    (ht : (rowAt sent ((k : Int) + 1)).TokenID = t) :
    LatticeOK sent t (k + 1) (extendLattice lattice (k : Int) em) := by
  obtain ⟨h1, h2, h3, h4⟩ := h
  have hM : (extendLattice lattice (k : Int) em).Morphemes = lattice.Morphemes ++ [em] := by
    unfold extendLattice; split <;> rfl
  have hN : (extendLattice lattice (k : Int) em).Next ≠ [] := by
    unfold extendLattice; split <;> exact mapSet_ne_nil _ _ _
  have hT : (extendLattice lattice (k : Int) em).TopId = (k : Int) + 1 := by
    unfold extendLattice; split <;> rfl
  have hB : (extendLattice lattice (k : Int) em).BottomId
      = if lattice.Next.length = 0 then (k : Int) else lattice.BottomId := by
    unfold extendLattice; split <;> rfl
  refine ⟨?_, ?_, ?_, ?_⟩
  · rw [hM, tokenRows_succ, if_pos ht, List.map_append, List.map_append, h1]
    simp [hem, edgeOf]
  · rw [hM]
    constructor
    · intro hn; exact absurd hn hN
    · intro hn; simp at hn
  · intro m hm
    rw [hM] at hm
    rw [hB]
    cases hmor : lattice.Morphemes with
    | nil =>
      rw [hmor] at hm
      simp only [List.nil_append, List.head?_cons, Option.some.injEq] at hm
      have : lattice.Next.length = 0 := by rw [h2.2 hmor]; rfl
      rw [if_pos this, ← hm, hem]
    | cons m0 rest =>
      rw [hmor] at hm
      simp only [List.cons_append, List.head?_cons, Option.some.injEq] at hm
      have hne : lattice.Next ≠ [] := fun hn => by
        have := h2.1 hn
        rw [hmor] at this
        simp at this
      have : ¬ lattice.Next.length = 0 := fun hl => hne (List.length_eq_zero.1 hl)
      rw [if_neg this]
      exact h3 m (by rw [hmor, ← hm]; rfl)
  · intro m hm
    rw [hM, List.getLast?_append] at hm
    simp only [List.getLast?_singleton, Option.or, Option.some.injEq] at hm
    rw [hT, ← hm, hem]

/-- One turn of the main loop keeps the invariant. -/
theorem LoopInv_step (WORD_TYPE : String) (sent : Sentence) (hw : KnownWordType WORD_TYPE)
    (hrows : RowsOK sent) (k : Nat) (hk : k < sent.Deps.length) (st : MorphGraphState)
    (hinv : LoopInv sent k st) :
    ∃ st', morphGraphRow WORD_TYPE sent ((k : Int) + 1) st = .ok st' ∧ LoopInv sent (k + 1) st' := by
  obtain ⟨hcur, hlen, harcs, hlats⟩ := hinv
  obtain ⟨hfeat, htok0, htok1⟩ := hrows k hk
  have ht0 : (rowAt sent ((k : Int) + 1)).TokenID.toNat < sent.Tokens.length := by omega
  have hcast : (((rowAt sent ((k : Int) + 1)).TokenID.toNat : Nat) : Int)
      = (rowAt sent ((k : Int) + 1)).TokenID := Int.toNat_of_nonneg htok0
  obtain ⟨lattice, hlat, hok⟩ := hlats _ ht0
  obtain ⟨st', em, hrow, hl', hem, hc', ha'⟩ :=
    morphGraphRow_ok WORD_TYPE sent ((k : Int) + 1) st hw hfeat (by omega) (by omega) lattice
      htok0 hlat
  refine ⟨st', hrow, ?_, ?_, ?_, ?_⟩
  · rw [hc', hcur]; push_cast; rfl
  · rw [hl', List.length_set, hlen]
  · rw [ha', harcs]
  · intro t ht
    rw [hl']
    by_cases hte : t = (rowAt sent ((k : Int) + 1)).TokenID.toNat
    · refine ⟨extendLattice lattice st.curLatNode em, ?_, ?_⟩
      · rw [hte, List.getElem?_set_self (by omega)]
      · rw [hcur] at hem ⊢
        rw [hcast] at hok
        rw [hte, hcast]
        exact extendLattice_OK sent _ k lattice em hok hem rfl
    · obtain ⟨lat, hlat', hok'⟩ := hlats t ht
      refine ⟨lat, ?_, ?_⟩
      · rw [List.getElem?_set_ne (fun h => hte h.symm)]
        exact hlat'
      · have hne : ¬ (rowAt sent ((k : Int) + 1)).TokenID = (t : Int) := by
          intro h
          apply hte
          rw [h]
          simp
        obtain ⟨h1, h2, h3, h4⟩ := hok'
        refine ⟨?_, h2, h3, h4⟩
        rw [tokenRows_succ, if_neg hne]
        exact h1

/-- The main loop from a state that satisfies the invariant. -/
theorem morphGraphLoop_ok (WORD_TYPE : String) (sent : Sentence) (hw : KnownWordType WORD_TYPE)
    (hrows : RowsOK sent) (count : Nat) :
    ∀ (k : Nat) (st : MorphGraphState), k + count = sent.Deps.length → LoopInv sent k st →
      ∃ st', morphGraphLoop WORD_TYPE sent count ((k : Int) + 1) st = .ok st'
        ∧ LoopInv sent (k + count) st' := by
  induction count with
  | zero => intro k st _ hinv; exact ⟨st, rfl, hinv⟩
  | succ count ih =>
    intro k st hk hinv
    obtain ⟨st1, hrow, hinv1⟩ := LoopInv_step WORD_TYPE sent hw hrows k (by omega) st hinv
    obtain ⟨st', hloop, hinv'⟩ := ih (k + 1) st1 (by omega) hinv1
    refine ⟨st', ?_, ?_⟩
    · simp only [morphGraphLoop, hrow]
      have : ((k : Int) + 1 + 1) = (((k + 1 : Nat) : Int) + 1) := by push_cast; rfl
      rw [this]
      exact hloop
    · have : k + (count + 1) = k + 1 + count := by omega
      rw [this]
      exact hinv'

theorem LoopInv_init (sent : Sentence) (enums : EnumSets) :
    LoopInv sent 0 (initialState sent enums) := by
  unfold initialState
  refine ⟨rfl, by simp [initialLattices], by simp, ?_⟩
  intro t ht
  refine ⟨⟨sent.Tokens[t], [], [], [], 0, 0⟩, ?_, ?_⟩
  · simp only [initialLattices, List.getElem?_map, List.getElem?_eq_getElem ht, Option.map_some']
  · refine ⟨by simp [tokenRows], by simp, by simp, by simp⟩

theorem mappingsOf_ok (GenSpellouts : Lattice → List (List EMorpheme)) (lattices : List Lattice)
    (h : ∀ lat ∈ lattices, GenSpellouts lat ≠ []) :
    ∃ mappings, mappingsOf GenSpellouts lattices = .ok mappings := by
  induction lattices with
  | nil => exact ⟨[], rfl⟩
  | cons lat rest ih =>
    obtain ⟨mappings, hm⟩ := ih (fun l hl => h l (List.mem_cons_of_mem _ hl))
    have hne := h lat (List.mem_cons_self _ _)
    cases hs : GenSpellouts lat with
    | nil => exact absurd hs hne
    | cons spellout others =>
      exact ⟨⟨lat.Token, spellout⟩ :: mappings, by simp only [mappingsOf, hs, hm]⟩

end conllu


namespace conllu

open featurevector (mapGet mapSet)

/-- C29, as the spec states it, fails: a sentence whose rows have the ids 1..n
and valid token ids is not always turned into a graph. With a word type other
than `form`, `lemma` and `lemma+f` the function panics on the first row, and
with a feature name shorter than three bytes it panics in `MorphHost`. -/
theorem ConllU2MorphGraph_panics_counterexample :
    threeRows.Deps.map Prod.fst = [1, 2, 3]
    ∧ (∀ p ∈ threeRows.Deps, 0 ≤ p.2.TokenID ∧ p.2.TokenID < threeRows.Tokens.length)
    ∧ ConllU2MorphGraph "word" wholeLattice threeRows emptyEnums
        = .error "Unknown WORD_TYPE word"
    ∧ shortNameRow.Deps.map Prod.fst = [1]
    ∧ (∀ p ∈ shortNameRow.Deps, 0 ≤ p.2.TokenID ∧ p.2.TokenID < shortNameRow.Tokens.length)
    ∧ ConllU2MorphGraph "lemma+f" wholeLattice shortNameRow emptyEnums
        = .error sliceBoundsOutOfRange := by
  refine ⟨by decide, by decide, by decide, by decide, by decide, by decide⟩

/-- C29, amended: for a word type among `form`, `lemma` and `lemma+f` and a
sentence whose rows (the rows of the keys 1..n) have valid token ids and feature
names of three bytes or more, the main loop of `ConllU2MorphGraph` completes;
the lattice of each token then holds one morpheme per row of the token, in the
order of the rows, the morpheme of the i-th row having id `i-1`, source node
`i-1` and target node `i`; the i-th row has its morpheme in the lattice of its
token; `BottomId` is the source node of the first morpheme of a lattice and
`TopId` the target node of its last one; and the function returns a graph with
these lattices when `GenSpellouts` gives each of them a spellout. -/
theorem ConllU2MorphGraph_lattices (WORD_TYPE : String)
    (GenSpellouts : Lattice → List (List EMorpheme)) (sent : Sentence) (enums : EnumSets)
    (hw : KnownWordType WORD_TYPE) (hrows : RowsOK sent) :
    ∃ st, morphGraphLoop WORD_TYPE sent sent.Deps.length 1 (initialState sent enums) = .ok st
      ∧ st.lattices.length = sent.Tokens.length
      ∧ (∀ t : Nat, t < sent.Tokens.length → ∃ lattice, st.lattices[t]? = some lattice
          ∧ lattice.Morphemes.map (fun m => m.Morpheme.Edge)
              = (tokenRows sent (t : Int) sent.Deps.length).map edgeOf
          ∧ (∀ m, lattice.Morphemes.head? = some m → lattice.BottomId = m.Morpheme.Edge.2.1)
          ∧ (∀ m, lattice.Morphemes.getLast? = some m → lattice.TopId = m.Morpheme.Edge.2.2))
      ∧ (∀ j : Nat, j < sent.Deps.length →
          ∃ lattice, st.lattices[(rowAt sent ((j : Int) + 1)).TokenID.toNat]? = some lattice
            ∧ ((j : Int), (j : Int), (j : Int) + 1)
                ∈ lattice.Morphemes.map (fun m => m.Morpheme.Edge))
      ∧ ((∀ lat ∈ st.lattices, GenSpellouts lat ≠ []) →
          ∃ mappings, ConllU2MorphGraph WORD_TYPE GenSpellouts sent enums
            = .ok (⟨st.nodes, st.arcs, mappings, st.lattices⟩, st.enums)) := by
  obtain ⟨st, hloop, hcur, hlen, harcs, hlats⟩ :=
    morphGraphLoop_ok WORD_TYPE sent hw hrows sent.Deps.length 0 (initialState sent enums)
      (by omega) (LoopInv_init sent enums)
  have hloop' : morphGraphLoop WORD_TYPE sent sent.Deps.length 1 (initialState sent enums)
      = .ok st := by
    have : ((0 : Nat) : Int) + 1 = 1 := by norm_num
    rw [this] at hloop
    exact hloop
  rw [Nat.zero_add] at hlats
  refine ⟨st, hloop', hlen, ?_, ?_, ?_⟩
  · intro t ht
    obtain ⟨lattice, hl, h1, -, h3, h4⟩ := hlats t ht
    exact ⟨lattice, hl, h1, h3, h4⟩
  · intro j hj
    obtain ⟨-, h0, h1⟩ := hrows j hj
    have hcast : (((rowAt sent ((j : Int) + 1)).TokenID.toNat : Nat) : Int)
        = (rowAt sent ((j : Int) + 1)).TokenID := Int.toNat_of_nonneg h0
    obtain ⟨lattice, hl, h1', -, -, -⟩ := hlats (rowAt sent ((j : Int) + 1)).TokenID.toNat
      (by omega)
    refine ⟨lattice, hl, ?_⟩
    rw [h1', hcast]
    refine List.mem_map.2 ⟨j, ?_, rfl⟩
    unfold tokenRows
    simp [hj]
  · intro hspell
    obtain ⟨mappings, hm⟩ := mappingsOf_ok GenSpellouts st.lattices hspell
    exact ⟨mappings, by simp only [ConllU2MorphGraph, hloop', hm]⟩

theorem ConllU2MorphGraph_lattices_witness :
    ∃ st, morphGraphLoop "lemma+f" threeRows threeRows.Deps.length 1
        (initialState threeRows emptyEnums) = .ok st
      ∧ st.lattices.length = threeRows.Tokens.length
      ∧ (∀ t : Nat, t < threeRows.Tokens.length → ∃ lattice, st.lattices[t]? = some lattice
          ∧ lattice.Morphemes.map (fun m => m.Morpheme.Edge)
              = (tokenRows threeRows (t : Int) threeRows.Deps.length).map edgeOf
          ∧ (∀ m, lattice.Morphemes.head? = some m → lattice.BottomId = m.Morpheme.Edge.2.1)
          ∧ (∀ m, lattice.Morphemes.getLast? = some m → lattice.TopId = m.Morpheme.Edge.2.2))
      ∧ (∀ j : Nat, j < threeRows.Deps.length →
          ∃ lattice,
            st.lattices[(rowAt threeRows ((j : Int) + 1)).TokenID.toNat]? = some lattice
            ∧ ((j : Int), (j : Int), (j : Int) + 1)
                ∈ lattice.Morphemes.map (fun m => m.Morpheme.Edge))
      ∧ ((∀ lat ∈ st.lattices, wholeLattice lat ≠ []) →
          ∃ mappings, ConllU2MorphGraph "lemma+f" wholeLattice threeRows emptyEnums
            = .ok (⟨st.nodes, st.arcs, mappings, st.lattices⟩, st.enums)) :=
  ConllU2MorphGraph_lattices "lemma+f" wholeLattice threeRows emptyEnums
    (Or.inr (Or.inr rfl))
    (by
      intro j hj
      have hj' : j < 3 := hj
      interval_cases j <;> decide)

end conllu


/-! # Agreement of the scoring paths, of the converters and of the texts -/

namespace featurevector

/-- C33: on the sparse model reached by `MakeAvgSparse(false)`,
`Deserialize({f: [1]}, 0)` and `Add(1, 5, f, 3)`, the store of `f` is a `LockedMap`
with cells under the keys 0 and 5. `SetScores(f, s)` on the empty vector adds
the cell of key 5 and returns `[1, 0, 0, 0, 0, 3]`, while `Value(5, f)` is 0,
because `Len()` is the number of entries, 2: `s'[5] = 3` is not
`s[5] + Value(5, f) = 0`. On the dense model built by the same calls the two
paths agree. -/
theorem SetScores_disagrees_with_Value_sparse :
    (((MakeAvgSparse String false).Deserialize (some [("f", [1])]) 0).state.Add 1 5 "f" 3)
        = ⟨none, ⟨false, some [("f", .map ⟨[(0, some ⟨0, 0, 1, 0⟩), (5, some ⟨1, 0, 3, 0⟩)]⟩)]⟩⟩
    ∧ (((MakeAvgSparse String false).Deserialize (some [("f", [1])]) 0).state.Add 1 5 "f"
        3).state.SetScores "f" [] 0 = .ok [1, 0, 0, 0, 0, 3]
    ∧ (((MakeAvgSparse String false).Deserialize (some [("f", [1])]) 0).state.Add 1 5 "f"
        3).state.Value 5 "f" = .ok 0
    ∧ scoreAt [1, 0, 0, 0, 0, 3] 5 ≠ scoreAt [] 5 + 0
    ∧ (((MakeAvgSparse String true).Deserialize (some [("f", [1])]) 0).state.Add 1 5 "f"
        3).state.SetScores "f" [] 0 = .ok [1, 0, 0, 0, 0, 3]
    ∧ (((MakeAvgSparse String true).Deserialize (some [("f", [1])]) 0).state.Add 1 5 "f"
        3).state.Value 5 "f" = .ok 3 := by
  decide

end featurevector

namespace conllu

/-- C37: a token row `1-3` announces three rows, but the sentence ends after
one; the counter `numForms` is not reset at the empty line, so the first row of
the next sentence is taken for a row of that token: no token is added to the
new sentence, and the row receives `TokenID = len(Tokens) - 1 = -1` in a
sentence without tokens. `Read` succeeds. -/
theorem Read_leaves_TokenID_out_of_range :
    ∃ first second row,
      Read false
          [("1-3\tabc", false), ("1\ta\t_\tX\tX\t_\t0\tr\t_\t_", false), ("", false),
            ("1\tb\t_\tX\tX\t_\t0\tr\t_\t_", false), ("", false)]
        = .ok [first, second]
      ∧ second.Tokens = []
      ∧ second.Deps = [(1, row)]
      ∧ row.Form = "b"
      ∧ row.TokenID = -1
      ∧ ¬ (0 ≤ row.TokenID ∧ row.TokenID < second.Tokens.length) := by
  refine ⟨_, _, _, rfl, rfl, rfl, rfl, rfl, by decide⟩

/-- C39: for a graph of one vertex and no arc, `Graph2ConllU` produces the row
with ID 1, Head 0 and DepRel `None`, and `MorphGraph2ConllU` the row with ID 1,
Head 1 and DepRel `None`: without an arc the first sets `headID = -1`, the
second `headID = 0`, and both write `headID + 1`. For a vertex with an arc the
two agree. -/
theorem converters_disagree_without_arc :
    (∃ sent row,
      Graph2ConllU "ROOT" false (fun n => n.Id) (fun n => n.RawToken)
          ⟨[], [], [0], [(0, .tagged ⟨0, 0, 0, 0, 0, 0, "dogs", "NOUN", "dog"⟩)]⟩
          ⟨[""], false⟩ ⟨[""], false⟩ = .ok sent
        ∧ sent.Deps = [(1, row)] ∧ row.ID = 1 ∧ row.Head = 0 ∧ row.DepRel = "None")
    ∧ (∃ sent row,
      MorphGraph2ConllU "ROOT"
          ⟨[], [], [0], [(0, ⟨⟨(0, 0, 1), "dogs", "dog", "NOUN", "NOUN", none, 0, ""⟩,
            0, 0, 0, 0, 0, 0, 0⟩)]⟩ = .ok sent
        ∧ sent.Deps = [(1, row)] ∧ row.ID = 1 ∧ row.Head = 1 ∧ row.DepRel = "None")
    ∧ (∃ sent row,
      Graph2ConllU "ROOT" false (fun n => n.Id) (fun n => n.RawToken)
          ⟨[7], [(7, ⟨3, 0, "subj"⟩)], [0],
            [(0, .tagged ⟨0, 0, 0, 0, 0, 0, "dogs", "NOUN", "dog"⟩)]⟩
          ⟨[""], false⟩ ⟨[""], false⟩ = .ok sent
        ∧ sent.Deps = [(1, row)] ∧ row.Head = 4 ∧ row.DepRel = "subj")
    ∧ (∃ sent row,
      MorphGraph2ConllU "ROOT"
          ⟨[7], [(7, ⟨3, 0, "subj"⟩)], [0],
            [(0, ⟨⟨(0, 0, 1), "dogs", "dog", "NOUN", "NOUN", none, 0, ""⟩,
              0, 0, 0, 0, 0, 0, 0⟩)]⟩ = .ok sent
        ∧ sent.Deps = [(1, row)] ∧ row.Head = 4 ∧ row.DepRel = "subj") := by
  refine ⟨⟨_, _, rfl, rfl, rfl, rfl, rfl⟩, ⟨_, _, rfl, rfl, rfl, rfl, rfl⟩,
    ⟨_, _, rfl, rfl, rfl, rfl⟩, ⟨_, _, rfl, rfl, rfl, rfl⟩⟩

theorem Join_cons_data (x : String) (xs : List String) (sep : String) :
    ∃ tail, (gostrings.Join (x :: xs) sep).data = x.data ++ tail := by
  cases xs with
  | nil => exact ⟨[], by simp [gostrings.Join]⟩
  | cons y ys =>
    exact ⟨sep.data ++ (gostrings.Join (y :: ys) sep).data, by
      simp [gostrings.Join, String.data_append]⟩

theorem FormatFeatures_has_separator (p : String × String) (rest : List (String × String)) :
    '=' ∈ (FormatFeatures (some (p :: rest))).data := by
  simp only [FormatFeatures]
  have hperm := gosort.Strings_perm ((p :: rest).map (fun kv => formatEntry kv.1 kv.2))
  cases hs : gosort.Strings ((p :: rest).map (fun kv => formatEntry kv.1 kv.2)) with
  | nil =>
    rw [hs] at hperm
    have := hperm.length_eq
    simp at this
  | cons x xs =>
    have hx : x ∈ (p :: rest).map (fun kv => formatEntry kv.1 kv.2) := by
      apply hperm.subset
      rw [hs]
      exact List.mem_cons_self _ _
    obtain ⟨kv, -, hkv⟩ := List.mem_map.1 hx
    obtain ⟨tail, htail⟩ := Join_cons_data x xs "|"
    rw [htail, ← hkv]
    simp [formatEntry, String.data_append]

/-- C40: `Features.String` returns `_` for every value, nil, empty or not
empty, whatever `fmt.Sprintf` would print for the map; on a map that is not
empty `FormatFeatures` returns a text that contains `=`, so the two never
agree there. -/
theorem Features_String_always_underscore (printed : List (String × String) → String) :
    (∀ f : Features, Features.String printed f = "_")
    ∧ (∀ (p : String × String) (rest : List (String × String)),
        FormatFeatures (some (p :: rest)) ≠ Features.String printed (some (p :: rest))) := by
  have h1 : ∀ f : Features, Features.String printed f = "_" := by
    intro f
    unfold Features.String
    cases f with
    | none => simp
    | some entries => simp
  refine ⟨h1, fun p rest heq => ?_⟩
  rw [h1] at heq
  have := FormatFeatures_has_separator p rest
  rw [heq] at this
  simp at this

end conllu


namespace featurevector

/-! ## Serialising a restored model -/

theorem enumFrom_cells (generation : Int) (datav : List Int) :
    ∀ n : Nat,
      ((datav.map (fun value => some (NewHistoryValue generation value))).enumFrom n).map
          (fun p => ((p.1 : Int), p.2))
        = sparseCells generation datav (n : Int) := by
  induction datav with
  | nil => intro n; rfl
  | cons value rest ih =>
    intro n
    simp only [List.map_cons, List.enumFrom_cons, sparseCells]
    rw [ih (n + 1)]
    push_cast
    rfl

theorem restoredStore_Each (dense : Bool) (generation : Int) (datav : List Int) :
    (restoredStore dense generation datav).Each = sparseCells generation datav 0 := by
  unfold restoredStore
  cases dense
  · rfl
  · simp only [if_true, TransitionScoreStore.Each, LockedArray.Each, List.enum]
    exact enumFrom_cells generation datav 0

theorem serializeScores_cells (generation : Int) (rest : List Int) :
    ∀ pre : List Int,
      serializeScores (sparseCells generation rest (pre.length : Int))
          (pre ++ List.replicate rest.length 0)
        = .ok (pre ++ rest) := by
  induction rest with
  | nil => intro pre; simp [sparseCells, serializeScores]
  | cons value rest ih =>
    intro pre
    simp only [sparseCells, serializeScores, sliceSet, NewHistoryValue]
    have hlt : (0 : Int) ≤ (pre.length : Int) ∧
        (pre.length : Int).toNat < (pre ++ List.replicate (value :: rest).length (0 : Int)).length := by
      simp
    rw [if_pos hlt]
    have hset : (pre ++ List.replicate (value :: rest).length (0 : Int)).set
        (pre.length : Int).toNat value = (pre ++ [value]) ++ List.replicate rest.length 0 := by
      simp [List.replicate_succ]
    simp only [hset]
    have := ih (pre ++ [value])
    simp only [List.length_append, List.length_singleton, Nat.cast_add, Nat.cast_one,
      List.append_assoc, List.singleton_append] at this
    simpa using this

theorem serializeLoop_restored {F : Type} [DecidableEq F] (dense : Bool) (generation : Int)
    (s : List (F × List Int)) :
    ∀ retval : List (F × List Int), (mapKeys s).Nodup → (∀ k ∈ mapKeys s, k ∉ mapKeys retval) →
      serializeLoop (s.map (fun p => (p.1, restoredStore dense generation p.2))) retval
        = .ok (retval ++ s) := by
  induction s with
  | nil => intro retval _ _; simp [serializeLoop]
  | cons p rest ih =>
    intro retval hnd hdis
    obtain ⟨k, datav⟩ := p
    simp only [mapKeys, List.map_cons, List.nodup_cons, List.mem_cons, forall_eq_or_imp] at hnd hdis
    have hscores : serializeScores (restoredStore dense generation datav).Each
        (List.replicate datav.length 0) = .ok datav := by
      rw [restoredStore_Each]
      have := serializeScores_cells generation datav []
      simpa using this
    simp only [List.map_cons, serializeLoop, restoredStore_Len, makeSlice, Int.toNat_ofNat,
      Int.ofNat_zero_le, if_true, hscores]
    rw [mapSet_of_not_mem retval k datav hdis.1, ih]
    · simp
    · exact hnd.2
    · intro k' hk'
      simp only [mapKeys, List.map_append, List.map_cons, List.map_nil, List.mem_append,
        List.mem_singleton, not_or]
      refine ⟨hdis.2 k' hk', ?_⟩
      rintro rfl
      exact hnd.1 hk'

/-- C31: for every serialised map `s` (a map: its features are pairwise
distinct), every generation `g` and both settings of `Dense`, `Deserialize(s, g)`
returns normally and `Serialize` on the model it leaves returns `s`: the same
features, and for each feature the same values in the same slots. -/
theorem Serialize_Deserialize {F : Type} [DecidableEq F] (v : AvgSparse F)
    (s : List (F × List Int)) (g : Int) (hs : (mapKeys s).Nodup) :
    (v.Deserialize (some s) g).panic = none
    ∧ (v.Deserialize (some s) g).state.Serialize = .ok s := by
  rw [Deserialize_eq v s g hs]
  refine ⟨rfl, ?_⟩
  simp only [AvgSparse.Serialize, AvgSparse.entries, Option.getD_some]
  rw [serializeLoop_restored v.Dense g s [] hs (by simp [mapKeys])]
  simp

theorem Serialize_Deserialize_witness :
    ((MakeAvgSparse String false).Deserialize (some [("f", [4, 0, -7]), ("g", [])]) 9).panic
      = none
    ∧ ((MakeAvgSparse String false).Deserialize
        (some [("f", [4, 0, -7]), ("g", [])]) 9).state.Serialize
      = .ok [("f", [4, 0, -7]), ("g", [])] :=
  Serialize_Deserialize (MakeAvgSparse String false) [("f", [4, 0, -7]), ("g", [])] 9
    (by decide)

end featurevector


namespace Morph

/-! ## The sequence of a configuration -/

theorem getSequenceLoop_eq_previousChain (m : MorphConfiguration) :
    getSequenceLoop m [] = previousChain m := by
  induction m using previousChain.induct with
  | case1 s q l ms ns => simp [getSequenceLoop, previousChain]
  | case2 s q l ms ns p ih =>
    rw [getSequenceLoop_of_previous _ p rfl, ih, previousChain]

theorem previousChain_length (m : MorphConfiguration) :
    (previousChain m).length = 1 + previousLinks m := by
  induction m using previousChain.induct with
  | case1 s q l ms ns => simp [previousChain, previousLinks]
  | case2 s q l ms ns p ih =>
    rw [previousChain, previousLinks, List.length_cons, ih]
    omega

/-- C35: `GetSequence` returns the empty sequence when the arc set of the
configuration is nil. Otherwise it returns the configurations of the
`MorphPrevious` chain of the receiver, each once and the receiver first, so its
length is 1 plus the number of links of the chain; after `Init` (on a sentence
for which it completes) followed by `k` calls of `Copy` the chain has `k` links
and the sequence `k + 1` configurations. The chain of a configuration is
finite, so the loop ends. -/
theorem GetSequence_chain (m : MorphConfiguration) :
    (m.toSimpleConfiguration.Arcs = none → m.GetSequence = [])
    ∧ (m.toSimpleConfiguration.Arcs ≠ none →
        m.GetSequence = previousChain m ∧ m.GetSequence.length = 1 + previousLinks m)
    ∧ (∀ (MaxPathLen : Lattice → Int) (sent : List Lattice) (k : Nat) (c : MorphConfiguration),
        1 ≤ sumMaxPathLen MaxPathLen (rootLattice :: sent) 0 →
        copySteps k (m.Init MaxPathLen (some sent)).state = .ok c →
        c.GetSequence.length = k + 1 ∧ previousLinks c = k) := by
  refine ⟨?_, ?_, ?_⟩
  · intro h
    simp [MorphConfiguration.GetSequence, h]
  · intro h
    have hG : m.GetSequence = previousChain m := by
      unfold MorphConfiguration.GetSequence
      cases ha : m.toSimpleConfiguration.Arcs with
      | none => exact absurd ha h
      | some a => exact getSequenceLoop_eq_previousChain m
    exact ⟨hG, by rw [hG, previousChain_length]⟩
  · intro MaxPathLen sent k c hcap hc
    obtain ⟨hseq, harcs, hlen⟩ := copySteps_sequence k _ c hc
    have h0 := Init_eq m MaxPathLen sent hcap
    have hprev0 : (m.Init MaxPathLen (some sent)).state.MorphPrevious = none := by rw [h0]
    have harcs0 : (m.Init MaxPathLen (some sent)).state.toSimpleConfiguration.InternalArcs.isSome
        = true := by rw [h0]; rfl
    rw [getSequenceLoop_of_no_previous _ hprev0] at hseq
    have hchain : (previousChain c).length = k + 1 := by
      rw [← getSequenceLoop_eq_previousChain, hseq]
      simp only [List.length_append, List.length_reverse, List.length_tail, hlen,
        List.length_singleton]
      omega
    have hG : c.GetSequence = previousChain c := by
      unfold MorphConfiguration.GetSequence SimpleConfiguration.Arcs
      rw [harcs0] at harcs
      cases ha : c.toSimpleConfiguration.InternalArcs with
      | none => rw [ha] at harcs; cases harcs
      | some a => exact getSequenceLoop_eq_previousChain c
    refine ⟨by rw [hG, hchain], ?_⟩
    have := previousChain_length c
    omega

end Morph


namespace conllu

open featurevector (mapGet mapSet mapKeys wrap64 inInt64 indexOutOfRange)

/-! ## The sentences returned by `Read` -/

/-- One turn of the loop of `Read`: an empty line appends the current sentence,
any other line that is accepted leaves the sentences as they are. -/
theorem readLine_sentences (IGNORE_LEMMA : Bool) (st st' : ReadState) (curLine : String)
    (isPrefix : Bool) (h : readLine IGNORE_LEMMA st curLine isPrefix = .ok st') :
    st'.sentences
      = if curLine.length = 0 then st.sentences ++ [st.currentSent] else st.sentences := by
  unfold readLine at h
  simp only [bind, Except.bind, throw, throwThe, MonadExceptOf.throw, pure, Except.pure,
    index] at h
  by_cases hp : isPrefix = true
  · simp [hp] at h
  · by_cases hl : curLine.length = 0
    · simp [hp, hl] at h
      rw [if_pos hl, ← h]
    · rw [if_neg hl]
      simp only [hp, hl, if_false] at h
      repeat' split at h
      all_goals cases h
      all_goals rfl

theorem readLine_error (IGNORE_LEMMA : Bool) (st : ReadState) (curLine : String)
    (isPrefix : Bool) (outcome : GoResult (List Sentence))
    (h : readLine IGNORE_LEMMA st curLine isPrefix = .error outcome) :
    ∀ sentences, outcome ≠ .ok sentences := by
  unfold readLine at h
  simp only [bind, Except.bind, throw, throwThe, MonadExceptOf.throw, pure, Except.pure,
    index] at h
  intro sentences hs
  subst hs
  by_cases hp : isPrefix = true
  · simp [hp] at h
  · by_cases hl : curLine.length = 0
    · simp [hp, hl] at h
    · simp only [hp, hl, if_false] at h
      repeat' split at h
      all_goals cases h
      all_goals
        rename_i heq
        split at heq <;> cases heq

theorem readLoop_error (IGNORE_LEMMA : Bool) (lines : List (String × Bool)) :
    ∀ (st : ReadState) (outcome : GoResult (List Sentence)),
      readLoop IGNORE_LEMMA lines st = .error outcome → ∀ sentences, outcome ≠ .ok sentences := by
  induction lines with
  | nil => intro st outcome h; cases h
  | cons line rest ih =>
    intro st outcome h
    obtain ⟨curLine, isPrefix⟩ := line
    simp only [readLoop] at h
    cases h1 : readLine IGNORE_LEMMA st curLine isPrefix with
    | error outcome1 =>
      rw [h1] at h
      simp only [Except.error.injEq] at h
      subst h
      exact readLine_error IGNORE_LEMMA st curLine isPrefix _ h1
    | ok st1 =>
      rw [h1] at h
      exact ih st1 outcome h

/-- The outcome of `Read` is `ok` exactly when the loop ends normally. -/
theorem Read_ok_iff (IGNORE_LEMMA : Bool) (lines : List (String × Bool))
    (sentences : List Sentence) :
    Read IGNORE_LEMMA lines = .ok sentences ↔
      ∃ st, readLoop IGNORE_LEMMA lines
          { sentences := [], i := 0, token := "", numForms := 0, currentSent := NewSentence }
          = .ok st ∧ st.sentences = sentences := by
  unfold Read
  cases h1 : readLoop IGNORE_LEMMA lines
      { sentences := [], i := 0, token := "", numForms := 0, currentSent := NewSentence } with
  | error outcome =>
    constructor
    · intro h
      exact absurd h (readLoop_error IGNORE_LEMMA lines _ outcome h1 sentences)
    · rintro ⟨st, hst, -⟩
      cases hst
  | ok st =>
    constructor
    · intro h
      simp only [GoResult.ok.injEq] at h
      exact ⟨st, rfl, h⟩
    · rintro ⟨st', hst, hs⟩
      simp only [Except.ok.injEq] at hst
      subst hst
      simp [hs]

theorem readLoop_sentences_length (IGNORE_LEMMA : Bool) (lines : List (String × Bool)) :
    ∀ st st' : ReadState, readLoop IGNORE_LEMMA lines st = .ok st' →
      st'.sentences.length = st.sentences.length + emptyLines lines := by
  induction lines with
  | nil =>
    intro st st' h
    simp only [readLoop, Except.ok.injEq] at h
    subst h
    simp [emptyLines]
  | cons line rest ih =>
    intro st st' h
    obtain ⟨curLine, isPrefix⟩ := line
    simp only [readLoop] at h
    cases h1 : readLine IGNORE_LEMMA st curLine isPrefix with
    | error outcome => rw [h1] at h; cases h
    | ok st1 =>
      rw [h1] at h
      have h2 := readLine_sentences IGNORE_LEMMA st st1 curLine isPrefix h1
      have h3 := ih st1 st' h
      rw [h3, h2]
      by_cases hl : curLine.length = 0
      · simp [emptyLines, hl]; omega
      · simp [emptyLines, hl]

theorem readLoop_no_empty (IGNORE_LEMMA : Bool) (lines : List (String × Bool))
    (hne : ∀ line ∈ lines, line.1.length ≠ 0) :
    ∀ st st' : ReadState, readLoop IGNORE_LEMMA lines st = .ok st' →
      st'.sentences = st.sentences := by
  induction lines with
  | nil =>
    intro st st' h
    simp only [readLoop, Except.ok.injEq] at h
    subst h
    rfl
  | cons line rest ih =>
    intro st st' h
    obtain ⟨curLine, isPrefix⟩ := line
    simp only [readLoop] at h
    cases h1 : readLine IGNORE_LEMMA st curLine isPrefix with
    | error outcome => rw [h1] at h; cases h
    | ok st1 =>
      rw [h1] at h
      have h2 := readLine_sentences IGNORE_LEMMA st st1 curLine isPrefix h1
      rw [if_neg (hne (curLine, isPrefix) (List.mem_cons_self _ _))] at h2
      rw [ih (fun l hl => hne l (List.mem_cons_of_mem _ hl)) st1 st' h, h2]

theorem readLoop_append (IGNORE_LEMMA : Bool) (l1 l2 : List (String × Bool)) :
    ∀ st : ReadState, readLoop IGNORE_LEMMA (l1 ++ l2) st
      = match readLoop IGNORE_LEMMA l1 st with
        | .error outcome => .error outcome
        | .ok st1 => readLoop IGNORE_LEMMA l2 st1 := by
  induction l1 with
  | nil => intro st; rfl
  | cons line rest ih =>
    intro st
    obtain ⟨curLine, isPrefix⟩ := line
    simp only [List.cons_append, readLoop]
    cases h1 : readLine IGNORE_LEMMA st curLine isPrefix with
    | error outcome => rfl
    | ok st1 => exact ih st1

theorem splitChars_head (sep c : Char) (cs : List Char) (h : c ≠ sep) :
    ∃ piece pieces, gostrings.splitChars sep (c :: cs) = (c :: piece) :: pieces := by
  simp only [gostrings.splitChars, if_neg h]
  cases gostrings.splitChars sep cs with
  | nil => exact ⟨[], [], rfl⟩
  | cons piece pieces => exact ⟨piece, pieces, rfl⟩

/-- A line whose first character is `#` leaves the variables of `Read` as they
are. -/
theorem readLine_comment (IGNORE_LEMMA : Bool) (st : ReadState) (curLine : String)
    (h : curLine.data.head? = some '#') :
    readLine IGNORE_LEMMA st curLine false = .ok st := by
  obtain ⟨data⟩ := curLine
  cases data with
  | nil => simp at h
  | cons c cs =>
    simp only [List.head?_cons, Option.some.injEq] at h
    subst h
    obtain ⟨piece, pieces, hsplit⟩ := splitChars_head '\t' '#' cs (by decide)
    have hlen : ¬ (String.mk ('#' :: cs)).length = 0 := by
      simp [String.length]
    unfold readLine
    simp only [bind, Except.bind, throw, throwThe, MonadExceptOf.throw, pure, Except.pure,
      index, gostrings.Split, hsplit, hlen, List.map_cons, List.getElem?_cons_zero,
      if_false, Bool.false_eq_true, if_true]

/-- C38: when `Read` succeeds, the number of sentences it returns is the number
of empty lines of the input; the lines that follow the last empty line are not
part of any sentence returned (the result is the same without them); a line
whose first character is `#` contributes nothing (the result is the same
without it); and an empty line closes the current sentence also when it has no
rows. -/
theorem Read_sentence_count (IGNORE_LEMMA : Bool) :
    (∀ lines sentences, Read IGNORE_LEMMA lines = .ok sentences →
      sentences.length = emptyLines lines)
    ∧ (∀ l1 l2 sentences, (∀ line ∈ l2, line.1.length ≠ 0) →
        Read IGNORE_LEMMA (l1 ++ l2) = .ok sentences → Read IGNORE_LEMMA l1 = .ok sentences)
    ∧ (∀ l1 l2 (comment : String), comment.data.head? = some '#' →
        Read IGNORE_LEMMA (l1 ++ (comment, false) :: l2) = Read IGNORE_LEMMA (l1 ++ l2))
    ∧ Read IGNORE_LEMMA [("", false), ("", false)] = .ok [NewSentence, NewSentence] := by
  refine ⟨?_, ?_, ?_, ?_⟩
  · intro lines sentences h
    obtain ⟨st, hst, hs⟩ := (Read_ok_iff IGNORE_LEMMA lines sentences).1 h
    have := readLoop_sentences_length IGNORE_LEMMA lines _ st hst
    rw [← hs, this]
    simp
  · intro l1 l2 sentences hne h
    obtain ⟨st, hst, hs⟩ := (Read_ok_iff IGNORE_LEMMA _ sentences).1 h
    rw [readLoop_append] at hst
    cases h1 : readLoop IGNORE_LEMMA l1
        { sentences := [], i := 0, token := "", numForms := 0, currentSent := NewSentence } with
    | error outcome => rw [h1] at hst; cases hst
    | ok st1 =>
      rw [h1] at hst
      simp only at hst
      refine (Read_ok_iff IGNORE_LEMMA l1 sentences).2 ⟨st1, h1, ?_⟩
      rw [← hs, readLoop_no_empty IGNORE_LEMMA l2 hne st1 st hst]
  · intro l1 l2 comment hc
    unfold Read
    rw [readLoop_append, readLoop_append]
    cases h1 : readLoop IGNORE_LEMMA l1
        { sentences := [], i := 0, token := "", numForms := 0, currentSent := NewSentence } with
    | error outcome => rfl
    | ok st1 =>
      simp only [readLoop, readLine_comment IGNORE_LEMMA st1 comment hc]
  · cases IGNORE_LEMMA <;> decide

end conllu


namespace featurevector

/-! ## `Value` before and after `Add` -/

theorem Value_absent {F : Type} [DecidableEq F] (v : AvgSparse F) (t : Int) (f : F)
    (h : mapGet v.entries f = none) : v.Value t f = .ok 0 := by
  simp [AvgSparse.Value, h]

theorem Value_array_natCast {F : Type} [DecidableEq F] (v : AvgSparse F) (f : F)
    (l : LockedArray) (n : Nat) (h : mapGet v.entries f = some (.array l)) :
    v.Value n f = .ok (cellValue ((l.Vals[n]?).join)) := by
  simp only [AvgSparse.Value, h, TransitionScoreStore.Len, LockedArray.Len,
    TransitionScoreStore.GetValue, LockedArray_GetValue_natCast]
  by_cases hlt : n < l.Vals.length
  · have h1 : ((n : Int) < (l.Vals.length : Int)) := by exact_mod_cast hlt
    rw [if_pos h1]
    cases (l.Vals[n]?).join <;> rfl
  · have h1 : ¬ ((n : Int) < (l.Vals.length : Int)) := by exact_mod_cast hlt
    rw [if_neg h1, List.getElem?_eq_none (by omega)]
    rfl

theorem Value_array_neg {F : Type} [DecidableEq F] (v : AvgSparse F) (f : F)
    (l : LockedArray) (t : Int) (h : mapGet v.entries f = some (.array l)) (ht : t < 0) :
    v.Value t f = .error indexOutOfRange := by
  have h1 : t < (l.Vals.length : Int) := by omega
  have h2 : ¬ (0 ≤ t) := by omega
  simp [AvgSparse.Value, h, TransitionScoreStore.Len, LockedArray.Len,
    TransitionScoreStore.GetValue, LockedArray.GetValue, h1, sliceGet, h2]

theorem cellAfterAdd_Value (c : Option HistoryValue) (g d : Int) (hd : inInt64 d) :
    (cellAfterAdd c g d).Value = wrap64 (cellValue c + d) := by
  cases c with
  | none => simp [cellAfterAdd, cellValue, NewHistoryValue, wrap64_of_inInt64 hd]
  | some h => exact (Add_fields h g d).2.2.2

/-- `Add` on a model whose stores are all dense, for a transition that is not
negative. -/
theorem Add_AllDense {F : Type} [DecidableEq F] (v : AvgSparse F) (hv : AllDense v)
    (g : Int) (n : Nat) (f : F) (d : Int) :
    ∃ l', v.Add g n f d = ⟨none, { v with Vals := some (mapSet v.entries f (.array l')) }⟩
      ∧ (∀ j : Nat, (l'.Vals[j]?).join
          = if j = n then
              some (cellAfterAdd
                (match mapGet v.entries f with
                  | some (.array l) => (l.Vals[n]?).join
                  | _ => none) g d)
            else
              match mapGet v.entries f with
              | some (.array l) => (l.Vals[j]?).join
              | _ => none)
      ∧ (mapGet v.entries f = none →
          l' = ⟨List.replicate n none ++ [some (NewHistoryValue g d)]⟩) := by
  obtain ⟨m, hm, hall⟩ := hv
  have hentries : v.entries = m := by simp [AvgSparse.entries, hm]
  cases hget : mapGet v.entries f with
  | none =>
    have h1 : (0 : Int) ≤ (n : Int) + 1 := by omega
    have h2 : ((n : Int) + 1).toNat = n + 1 := by omega
    have h3 : (0 : Int) ≤ (n : Int) ∧ (n : Int).toNat < (List.replicate (n + 1)
        (none : Option HistoryValue)).length := by simp
    have hset : (List.replicate (n + 1) (none : Option HistoryValue)).set n
        (some (NewHistoryValue g d)) = List.replicate n none ++ [some (NewHistoryValue g d)] := by
      rw [List.replicate_succ', List.set_append_right _ _ (by simp)]
      simp
    refine ⟨⟨List.replicate n none ++ [some (NewHistoryValue g d)]⟩, ?_, ?_, fun _ => rfl⟩
    · have hget' : mapGet m f = none := by rw [← hentries]; exact hget
      simp only [AvgSparse.Add, makeSlice, h1, if_true, h2, sliceSet, h3, and_self,
        Int.toNat_ofNat, hset, hm, hentries, hget']
      simp
    · intro j
      simp only [cellAfterAdd]
      by_cases hj : j = n
      · subst hj
        simp [Option.join]
      · rw [if_neg hj]
        rcases Nat.lt_or_ge j n with hlt | hge
        · rw [List.getElem?_append_left (by simpa using hlt)]
          simp [hlt, Option.join]
        · rw [List.getElem?_eq_none (by simp; omega)]
          rfl
  | some s =>
    obtain ⟨l, hl⟩ := hall (f, s) (by rw [← hentries]; exact mem_of_mapGet _ _ _ hget)
    simp only at hl
    subst hl
    obtain ⟨l', hl', hcells⟩ := LockedArray_Add_cells l g d n
    refine ⟨l', ?_, ?_, fun h => by cases h⟩
    · simp only [AvgSparse.Add, hget, TransitionScoreStore.Add, hl', Except.map]
    · intro j
      exact hcells j

theorem AllDense_of_Built {F : Type} [DecidableEq F] (v : AvgSparse F) (h : Built v) :
    AllDense v := by
  induction h with
  | make dense => exact ⟨[], rfl, fun p hp => by simp at hp⟩
  | add v v' g t f d _ hadd ih =>
    obtain ⟨m, hm, hall⟩ := ih
    have hentries : v.entries = m := by simp [AvgSparse.entries, hm]
    unfold AvgSparse.Add at hadd
    rw [hentries] at hadd
    cases hget : mapGet m f with
    | none =>
      rw [hget] at hadd
      simp only [hm] at hadd
      split at hadd
      · cases hadd
      · split at hadd
        · cases hadd
        · injection hadd with _ hst
          subst hst
          refine ⟨_, rfl, fun p hp => ?_⟩
          rcases mem_mapSet _ _ _ p hp with h1 | h1
          · exact hall p h1
          · exact ⟨_, by rw [h1]⟩
    | some s =>
      rw [hget] at hadd
      obtain ⟨l, hl⟩ := hall (f, s) (mem_of_mapGet _ _ _ hget)
      simp only at hl
      subst hl
      simp only [TransitionScoreStore.Add] at hadd
      cases hl' : l.Add g t d with
      | error e => rw [hl'] at hadd; cases hadd
      | ok l' =>
        rw [hl'] at hadd
        injection hadd with _ hst
        subst hst
        refine ⟨_, rfl, fun p hp => ?_⟩
        rcases mem_mapSet _ _ _ p hp with h1 | h1
        · exact hall p h1
        · exact ⟨l', by rw [h1]⟩

/-- C32: for a model built from `MakeAvgSparse` by calls of `Add` and a call
`Add(g, t, f, d)` with `t >= 0` (`d` an int64), the call returns; `Value(t, f)`
afterwards is `Value(t, f)` before plus `d` (in 64-bit arithmetic); `Value(t', f')`
is unchanged for every other pair `(t', f')` of a feature and a transition
index `t' >= 0` (and for a negative `t'` too when `f'` is another feature or `f`
was in the model already); and when `f` was not in the model, its new store is
a dense store of length `t + 1` whose only cell is at slot `t`, with
`Generation = g` and `Value = d`. -/
theorem Add_then_Value {F : Type} [DecidableEq F] (v : AvgSparse F) (hv : Built v)
    (g t : Int) (f : F) (d : Int) (ht : 0 ≤ t) (hd : inInt64 d) :
    ∃ v' x, v.Add g t f d = ⟨none, v'⟩
      ∧ v.Value t f = .ok x
      ∧ v'.Value t f = .ok (wrap64 (x + d))
      ∧ (∀ (t' : Int) (f' : F), (t', f') ≠ (t, f) →
          (0 ≤ t' ∨ f' ≠ f ∨ mapGet v.entries f ≠ none) → v'.Value t' f' = v.Value t' f')
      ∧ (mapGet v.entries f = none →
          mapGet v'.entries f
            = some (.array ⟨List.replicate t.toNat none ++ [some ⟨g, 0, d, 0⟩]⟩)) := by
  obtain ⟨n, rfl⟩ := Int.eq_ofNat_of_zero_le ht
  have hdense := AllDense_of_Built v hv
  obtain ⟨l', hadd, hcells, hnew⟩ := Add_AllDense v hdense g n f d
  have hget' : ∀ f', mapGet (AvgSparse.entries
      { v with Vals := some (mapSet v.entries f (.array l')) }) f'
      = if f = f' then some (.array l') else mapGet v.entries f' := by
    intro f'
    simp only [AvgSparse.entries, Option.getD_some]
    exact conllu.mapGet_mapSet _ _ _ _
  have hself := hget' f
  rw [if_pos rfl] at hself
  -- the cell of `(t, f)` before the call
  have hbefore : ∀ j : Nat, v.Value j f
      = .ok (cellValue (match mapGet v.entries f with
          | some (.array l) => (l.Vals[j]?).join
          | _ => none)) := by
    intro j
    cases hg : mapGet v.entries f with
    | none => exact Value_absent v j f hg
    | some s =>
      obtain ⟨m, hm, hall⟩ := hdense
      have hentries : v.entries = m := by simp [AvgSparse.entries, hm]
      obtain ⟨l, hl⟩ := hall (f, s) (by rw [← hentries]; exact mem_of_mapGet _ _ _ hg)
      simp only at hl
      subst hl
      exact Value_array_natCast v f l j hg
  refine ⟨_, _, hadd, hbefore n, ?_, ?_, ?_⟩
  · rw [Value_array_natCast _ f l' n hself, hcells n, if_pos rfl]
    show Except.ok (cellAfterAdd _ g d).Value = _
    rw [cellAfterAdd_Value _ g d hd]
  · intro t' f' hne hcond
    by_cases hf : f' = f
    · subst hf
      have htne : t' ≠ (n : Int) := fun h => hne (by rw [h])
      by_cases ht' : 0 ≤ t'
      · obtain ⟨j, rfl⟩ := Int.eq_ofNat_of_zero_le ht'
        have hj : j ≠ n := fun h => htne (by rw [h])
        rw [Value_array_natCast _ f' l' j hself, hcells j, if_neg hj, hbefore j]
      · have hex : mapGet v.entries f' ≠ none := by
          rcases hcond with h | h | h
          · exact absurd h ht'
          · exact absurd rfl h
          · exact h
        cases hg : mapGet v.entries f' with
        | none => exact absurd hg hex
        | some s =>
          obtain ⟨m, hm, hall⟩ := hdense
          have hentries : v.entries = m := by simp [AvgSparse.entries, hm]
          obtain ⟨l, hl⟩ := hall (f', s) (by rw [← hentries]; exact mem_of_mapGet _ _ _ hg)
          simp only at hl
          subst hl
          rw [Value_array_neg _ f' l' t' hself (by omega), Value_array_neg v f' l t' hg (by omega)]
    · have hother := hget' f'
      rw [if_neg (fun h => hf h.symm)] at hother
      simp only [AvgSparse.Value, hother]
  · intro hnone
    rw [hself, hnew hnone]
    simp [NewHistoryValue]

/-- An instance of C32: a second `Add` on the cell of transition 2. -/
theorem Add_then_Value_witness :
    ∃ v' x, ((MakeAvgSparse String false).Add 1 2 "f" 5).state.Add 3 2 "f" 4 = ⟨none, v'⟩
      ∧ ((MakeAvgSparse String false).Add 1 2 "f" 5).state.Value 2 "f" = .ok x
      ∧ v'.Value 2 "f" = .ok (wrap64 (x + 4))
      ∧ (∀ (t' : Int) (f' : String), (t', f') ≠ (2, "f") →
          (0 ≤ t' ∨ f' ≠ "f"
            ∨ mapGet ((MakeAvgSparse String false).Add 1 2 "f" 5).state.entries "f" ≠ none) →
          v'.Value t' f' = ((MakeAvgSparse String false).Add 1 2 "f" 5).state.Value t' f')
      ∧ (mapGet ((MakeAvgSparse String false).Add 1 2 "f" 5).state.entries "f" = none →
          mapGet v'.entries "f"
            = some (.array ⟨List.replicate (2 : Int).toNat none ++ [some ⟨3, 0, 4, 0⟩]⟩)) :=
  Add_then_Value ((MakeAvgSparse String false).Add 1 2 "f" 5).state
    (Built.add _ _ 1 2 "f" 5 (Built.make false) rfl) 3 2 "f" 4 (by decide)
    (by constructor <;> decide)

end featurevector


namespace conllu

open featurevector (mapGet mapSet mapKeys)

/-! ## Reading back a formatted feature map -/

theorem splitChars_of_not_mem (sep : Char) (l : List Char) (h : sep ∉ l) :
    gostrings.splitChars sep l = [l] := by
  induction l with
  | nil => rfl
  | cons c cs ih =>
    simp only [List.mem_cons, not_or] at h
    have hc : ¬ c = sep := fun e => h.1 e.symm
    simp only [gostrings.splitChars, if_neg hc, ih h.2]

theorem splitChars_append (sep : Char) (a b : List Char) (h : sep ∉ a) :
    gostrings.splitChars sep (a ++ sep :: b) = a :: gostrings.splitChars sep b := by
  induction a with
  | nil => simp [gostrings.splitChars]
  | cons c cs ih =>
    simp only [List.mem_cons, not_or] at h
    have hc : ¬ c = sep := fun e => h.1 e.symm
    show gostrings.splitChars sep (c :: (cs ++ sep :: b)) = _
    simp only [gostrings.splitChars, if_neg hc, ih h.2]

theorem Split_Join (strs : List String) (hne : strs ≠ []) (h : ∀ s ∈ strs, '|' ∉ s.data) :
    gostrings.Split (gostrings.Join strs "|") '|' = strs := by
  induction strs with
  | nil => exact absurd rfl hne
  | cons x rest ih =>
    cases rest with
    | nil =>
      simp only [gostrings.Join, gostrings.Split,
        splitChars_of_not_mem '|' x.data (h x (List.mem_cons_self _ _)), List.map_cons,
        List.map_nil]
    | cons y ys =>
      have hx := h x (List.mem_cons_self _ _)
      have ih' := ih (by simp) (fun s hs => h s (List.mem_cons_of_mem _ hs))
      simp only [gostrings.Split] at ih' ⊢
      have hdata : (gostrings.Join (x :: y :: ys) "|").data
          = x.data ++ '|' :: (gostrings.Join (y :: ys) "|").data := by
        simp [gostrings.Join, String.data_append]
      rw [hdata, splitChars_append '|' _ _ hx, List.map_cons, ih']

theorem Split_formatEntry (k v : String) (hk : '=' ∉ k.data) (hv : '=' ∉ v.data) :
    gostrings.Split (formatEntry k v) '=' = [k, v] := by
  have hdata : (formatEntry k v).data = k.data ++ '=' :: v.data := by
    simp [formatEntry, String.data_append]
  simp only [gostrings.Split, hdata, splitChars_append '=' _ _ hk,
    splitChars_of_not_mem '=' _ hv, List.map_cons, List.map_nil]

/-- The entries of a map under one key. -/
theorem filter_key (entries : List (String × String)) (hnd : (mapKeys entries).Nodup)
    (k : String) :
    entries.filter (fun item => item.1 = k)
      = match mapGet entries k with
        | some v => [(k, v)]
        | none => [] := by
  induction entries with
  | nil => rfl
  | cons p rest ih =>
    obtain ⟨a, b⟩ := p
    simp only [mapKeys, List.map_cons, List.nodup_cons] at hnd
    have ih' := ih hnd.2
    simp only [List.filter_cons, mapGet]
    by_cases hak : a = k
    · subst hak
      have hnone : mapGet rest a = none := by
        cases hg : mapGet rest a with
        | none => rfl
        | some v =>
          exact absurd (List.mem_map.2 ⟨(a, v), featurevector.mem_of_mapGet _ _ _ hg, rfl⟩) hnd.1
      rw [hnone] at ih'
      simp [ih']
    · simp [hak, ih']

/-- Reading a formatted non-empty map: the items are the formatted entries in
sorted order, and every key holds its one value. -/
theorem ParseFeatures_FormatFeatures_cons (p : String × String)
    (rest : List (String × String)) (hnd : (mapKeys (p :: rest)).Nodup)
    (hchars : ∀ q ∈ p :: rest,
      '|' ∉ q.1.data ∧ '=' ∉ q.1.data ∧ '|' ∉ q.2.data ∧ '=' ∉ q.2.data) :
    ∃ result, ParseFeatures (FormatFeatures (some (p :: rest))) = .ok (some result)
      ∧ (mapKeys result).Nodup
      ∧ ∀ k, mapGet result k = mapGet (p :: rest) k := by
  have hne : FormatFeatures (some (p :: rest)) ≠ "_" := by
    intro h
    have hmem := FormatFeatures_has_separator p rest
    rw [h] at hmem
    exact absurd hmem (by decide)
  let formatted := (p :: rest).map (fun kv => formatEntry kv.1 kv.2)
  have hperm : (gosort.Strings formatted).Perm formatted := gosort.Strings_perm formatted
  have hsne : gosort.Strings formatted ≠ [] := by
    intro h
    rw [h] at hperm
    have := hperm.length_eq
    simp [formatted] at this
  have hbar : ∀ s ∈ gosort.Strings formatted, '|' ∉ s.data := by
    intro s hs
    obtain ⟨kv, hkv, rfl⟩ := List.mem_map.1 (hperm.subset hs)
    obtain ⟨h1, -, h2, -⟩ := hchars kv hkv
    simp only [formatEntry, String.data_append, List.mem_append, not_or]
    exact ⟨⟨h1, by decide⟩, h2⟩
  have hsplit : gostrings.Split (FormatFeatures (some (p :: rest))) '|'
      = gosort.Strings formatted := by
    simp only [FormatFeatures]
    exact Split_Join _ hsne hbar
  have hparse : ∀ s ∈ formatted, ∃ kv ∈ p :: rest,
      gostrings.Split s '=' = [kv.1, kv.2] := by
    intro s hs
    obtain ⟨kv, hkv, rfl⟩ := List.mem_map.1 hs
    obtain ⟨-, h1, -, h2⟩ := hchars kv hkv
    exact ⟨kv, hkv, Split_formatEntry kv.1 kv.2 h1 h2⟩
  have hform : ∀ item ∈ gosort.Strings formatted, (gostrings.Split item '=').length = 2 := by
    intro item hitem
    obtain ⟨kv, -, hkv⟩ := hparse item (hperm.subset hitem)
    rw [hkv]
    rfl
  obtain ⟨result, hr, hrnd, hget⟩ :=
    parseFeaturesLoop_spec (gosort.Strings formatted) [] hform (by simp [mapKeys])
  have hitems : formatted.filterMap (fun item =>
      match gostrings.Split item '=' with
      | [key, value] => some (key, value)
      | _ => none) = p :: rest := by
    have hall : ∀ (l : List (String × String)),
        (∀ q ∈ l, '=' ∉ q.1.data ∧ '=' ∉ q.2.data) →
        (l.map (fun kv => formatEntry kv.1 kv.2)).filterMap (fun item =>
          match gostrings.Split item '=' with
          | [key, value] => some (key, value)
          | _ => none) = l := by
      intro l
      induction l with
      | nil => intro _; rfl
      | cons q qs ih =>
        intro hq
        obtain ⟨h1, h2⟩ := hq q (List.mem_cons_self _ _)
        simp only [List.map_cons, List.filterMap_cons, Split_formatEntry q.1 q.2 h1 h2]
        rw [ih (fun x hx => hq x (List.mem_cons_of_mem _ hx))]
    exact hall _ (fun q hq => ⟨(hchars q hq).2.1, (hchars q hq).2.2.2⟩)
  have hpermItems := hperm.filterMap (fun item =>
      match gostrings.Split item '=' with
      | [key, value] => some (key, value)
      | _ => none)
  rw [hitems] at hpermItems
  refine ⟨result, ?_, hrnd, fun k => ?_⟩
  · have hlen : (gosort.Strings formatted).length ≠ 0 := by
      intro h
      exact hsne (List.length_eq_zero.1 h)
    simp only [ParseFeatures, if_neg hne, hsplit, if_neg hlen, hr]
  · have hget' := hget k
    simp only [valuesOf, mapGet] at hget'
    generalize hI : List.filterMap _ (gosort.Strings formatted) = items at hget'
    have hpermI : items.Perm (p :: rest) := by
      rw [← hI]
      exact hpermItems
    have hfilter := (hpermI.filter (fun item => decide (item.1 = k)))
    rw [filter_key (p :: rest) hnd k] at hfilter
    rw [hget']
    cases hg : mapGet (p :: rest) k with
    | none =>
      rw [hg] at hfilter
      rw [List.perm_nil.1 hfilter]
      rfl
    | some v =>
      rw [hg] at hfilter
      rw [List.perm_singleton.1 hfilter]
      rfl

/-- C36. `ParseFeatures(FormatFeatures(m))` returns, without an error, a map
with exactly the entries of `m`, for every feature map `m` whose keys and values
contain neither `|` nor `=`: every key holds in the result the value it holds
in `m`, a key absent from `m` is absent from the result, and a nil or empty `m`
comes back as the nil map. -/
theorem ParseFeatures_FormatFeatures (m : Features)
    (hnd : (mapKeys (m.getD [])).Nodup)
    (hchars : ∀ q ∈ m.getD [],
      '|' ∉ q.1.data ∧ '=' ∉ q.1.data ∧ '|' ∉ q.2.data ∧ '=' ∉ q.2.data) :
    ∃ result, ParseFeatures (FormatFeatures m) = .ok result
      ∧ (mapKeys (result.getD [])).Nodup
      ∧ (∀ k, mapGet (result.getD []) k = mapGet (m.getD []) k)
      ∧ (m.getD [] = [] → result = none) := by
  match m, hnd, hchars with
  | none, _, _ => exact ⟨none, rfl, by simp [mapKeys], fun _ => rfl, fun _ => rfl⟩
  | some [], _, _ => exact ⟨none, rfl, by simp [mapKeys], fun _ => rfl, fun _ => rfl⟩
  | some (p :: rest), hnd, hchars =>
    obtain ⟨result, hr, hrnd, hget⟩ := ParseFeatures_FormatFeatures_cons p rest hnd hchars
    exact ⟨some result, hr, hrnd, hget, fun h => by simp at h⟩

/-- An instance of C36: a map of two entries whose keys sort in the order
opposite to the one they were inserted in. -/
theorem ParseFeatures_FormatFeatures_witness :
    (mapKeys ((some [("num", "S"), ("gen", "F")] : Features).getD [])).Nodup
    ∧ ∃ result, ParseFeatures (FormatFeatures (some [("num", "S"), ("gen", "F")])) = .ok result
      ∧ (mapKeys (result.getD [])).Nodup
      ∧ (∀ k, mapGet (result.getD []) k = mapGet [("num", "S"), ("gen", "F")] k)
      ∧ ((some [("num", "S"), ("gen", "F")] : Features).getD [] = [] → result = none) :=
  ⟨by decide, ParseFeatures_FormatFeatures (some [("num", "S"), ("gen", "F")]) (by decide)
    (by decide)⟩

end conllu


namespace Morph

/-! ## The capacity computed by `Init` -/

theorem Init_panic_iff (m : MorphConfiguration) (MaxPathLen : Lattice → Int)
    (sent : List Lattice) :
    (m.Init MaxPathLen (some sent)).panic = none
      ↔ 1 ≤ sumMaxPathLen MaxPathLen (rootLattice :: sent) 0 := by
  constructor
  · intro h
    by_contra hlt
    have hlt' : sumMaxPathLen MaxPathLen (rootLattice :: sent) 0 < 1 := by omega
    simp only [MorphConfiguration.Init, if_pos hlt'] at h
    cases h
  · intro h
    rw [Init_eq m MaxPathLen sent h]

/-- The loop that sums `MaxPathLen` computes the exact sum when the lengths are
not negative and the total is an int64. -/
theorem sumMaxPathLen_eq (MaxPathLen : Lattice → Int) (lattices : List Lattice) :
    ∀ acc : Int, 0 ≤ acc → (∀ lat ∈ lattices, 0 ≤ MaxPathLen lat) →
      acc + (lattices.map MaxPathLen).sum ≤ 9223372036854775807 →
      sumMaxPathLen MaxPathLen lattices acc = acc + (lattices.map MaxPathLen).sum := by
  induction lattices with
  | nil => intro acc _ _ _; simp [sumMaxPathLen]
  | cons lat rest ih =>
    intro acc hacc hnonneg hrange
    have hlat := hnonneg lat (List.mem_cons_self _ _)
    have hrest : ∀ l ∈ rest, 0 ≤ MaxPathLen l := fun l hl => hnonneg l (List.mem_cons_of_mem _ hl)
    have hsum : 0 ≤ (rest.map MaxPathLen).sum := by
      apply List.sum_nonneg
      intro x hx
      obtain ⟨l, hl, rfl⟩ := List.mem_map.1 hx
      exact hrest l hl
    simp only [List.map_cons, List.sum_cons] at hrange ⊢
    have hw : featurevector.wrap64 (acc + MaxPathLen lat) = acc + MaxPathLen lat :=
      featurevector.wrap64_of_inInt64 (by constructor <;> omega)
    simp only [sumMaxPathLen, hw]
    rw [ih (acc + MaxPathLen lat) (by omega) hrest (by omega)]
    omega

/-- C34: `Init` completes for every lattice sentence, the empty sentence and the
sentences whose lattices all have `MaxPathLen` 0 included. `MaxPathLen` is a
length (not negative, the total an int64), and on the ROOT lattice, whose one
ROOT morpheme is a path from its bottom to its top, it is at least 1: the
capacity `Init` computes is the sum of `MaxPathLen` over the ROOT lattice and
the lattices of the sentence, it is at least the length 1 of `MorphNodes`, the
capacity N+1 of `Mappings` is at least its length 1, and `Init` returns
normally with the ROOT morpheme and the ROOT mapping in place. -/
theorem Init_completes (m : MorphConfiguration) (MaxPathLen : Lattice → Int)
    (sent : List Lattice)
    (hroot : 1 ≤ MaxPathLen rootLattice)
    (hlen : ∀ lat ∈ sent, 0 ≤ MaxPathLen lat)
    (hrange : ((rootLattice :: sent).map MaxPathLen).sum ≤ 9223372036854775807) :
    (m.Init MaxPathLen (some sent)).panic = none
    ∧ sumMaxPathLen MaxPathLen (rootLattice :: sent) 0
        = ((rootLattice :: sent).map MaxPathLen).sum
    ∧ 1 ≤ sumMaxPathLen MaxPathLen (rootLattice :: sent) 0
    ∧ (1 : Int) ≤ ((rootLattice :: sent).length : Int)
    ∧ (m.Init MaxPathLen (some sent)).state.MorphNodes = [rootMorpheme]
    ∧ (m.Init MaxPathLen (some sent)).state.Mappings = [⟨"ROOT", [rootMorpheme]⟩]
    ∧ (m.Init MaxPathLen (some sent)).state.Lattices = rootLattice :: sent := by
  have hnonneg : ∀ lat ∈ rootLattice :: sent, 0 ≤ MaxPathLen lat := by
    intro lat hlat
    rcases List.mem_cons.1 hlat with h | h
    · rw [h]; omega
    · exact hlen lat h
  have hsum := sumMaxPathLen_eq MaxPathLen (rootLattice :: sent) 0 (le_refl 0) hnonneg
    (by simpa using hrange)
  rw [zero_add] at hsum
  have hrest : 0 ≤ (sent.map MaxPathLen).sum := by
    apply List.sum_nonneg
    intro x hx
    obtain ⟨l, hl, rfl⟩ := List.mem_map.1 hx
    exact hlen l hl
  have hcap : 1 ≤ sumMaxPathLen MaxPathLen (rootLattice :: sent) 0 := by
    rw [hsum]
    simp only [List.map_cons, List.sum_cons]
    omega
  have hinit := Init_eq m MaxPathLen sent hcap
  refine ⟨(Init_panic_iff m MaxPathLen sent).2 hcap, hsum, hcap, ?_, ?_, ?_, ?_⟩
  · simp only [List.length_cons]
    omega
  · rw [hinit]
  · rw [hinit]
  · rw [hinit]

/-- An instance of C34: a sentence of one lattice without a morpheme, the
`MaxPathLen` of a lattice being the number of its morphemes: 1 on the ROOT
lattice and 0 on the lattice of the sentence. -/
theorem Init_completes_witness :
    (NewMorphConfiguration.Init (fun lat => lat.Morphemes.length)
        (some [⟨"x", [], none⟩])).panic = none
    ∧ sumMaxPathLen (fun lat => lat.Morphemes.length) [rootLattice, ⟨"x", [], none⟩] 0 = 1
    ∧ (NewMorphConfiguration.Init (fun lat => lat.Morphemes.length)
        (some [⟨"x", [], none⟩])).state.MorphNodes = [rootMorpheme] :=
  have h := Init_completes NewMorphConfiguration (fun lat => lat.Morphemes.length)
    [⟨"x", [], none⟩] (by decide) (by decide) (by decide)
  ⟨h.1, by decide, h.2.2.2.2.1⟩

end Morph
